import Mathlib

/-!
go-sreprintf: a verification development.

Shallow embedding of `sreprintf.go` (package `sreprintf`) and of the parts of the Go
standard library it calls (`regexp`, `strings`, `strconv`, `fmt`).

Conventions of the embedding.

* A Go `string` is any sequence of bytes.  It is given by its decoding (`utf8.DecodeRune`
  applied over and over): a list of `Glyph`s, each a well-formed rune or one byte that belongs
  to no well-formed encoding.  Offsets (`match[0]`, `match[1]`, `pos`) count glyphs instead of
  bytes; every slice the program takes starts and ends between two glyphs, so the slices are
  the same.  Where two strings are put together in a theorem, one side of the seam is
  well-formed text, so that the decoding of the whole is the two decodings put together.
* Package `regexp` and the parsers of `strconv` read a string rune by rune, an ill-formed
  byte as `utf8.RuneError` (U+FFFD): their models work on `Runes` and are applied to
  `decode s`.  What `regexp` reports are offsets, and the program's slices are taken from the
  string itself.
* Go's `int` is taken to be 64 bits wide.
* `regexp`: a pattern is a syntax tree `Re`; matching is the leftmost-first (backtracking
  priority) semantics that package `regexp` documents.  The text `regexp.QuoteMeta(s)` as part
  of a pattern is the literal node sequence `quoteMeta s`; the fixed capture patterns are
  given as trees next to the pattern text they stand for.  `regexp.Compile` is taken to fail
  for ill-formed UTF-8 in the pattern and for nothing else: its limits on the size of a
  pattern are not part of the model.
* `strconv.ParseFloat`, the rendering of floating-point operands and the rarely used features
  of `fmt` are not interpreted: they are the fields of `GoLib`, and every definition and theorem
  is parametric in them.
-/

namespace GoSreprintf

/-- One step of `utf8.DecodeRune` over the bytes of a string: a well-formed rune, or a byte
(`0x80` to `0xFF`) that is part of no well-formed encoding and is taken by itself. -/
inductive Glyph where
  | rune (c : Char)
  | byte (b : Nat)
  deriving DecidableEq

/-- Go `string`: a byte sequence, given by its decoding. -/
abbrev GoString := List Glyph

/-- The runes of a text. -/
abbrev Runes := List Char

/-- The rune a decoding step yields: `utf8.RuneError` (U+FFFD) for an ill-formed byte. -/
def Glyph.toRune : Glyph → Char
  | .rune c => c
  | .byte _ => Char.ofNat 0xFFFD

/-- The step is a well-formed rune. -/
def Glyph.isRune : Glyph → Bool
  | .rune _ => true
  | .byte _ => false

/-- The runes of a string as `utf8.DecodeRune` yields them, U+FFFD for each ill-formed
byte. -/
def decode (s : GoString) : Runes := s.map Glyph.toRune

/-- The well-formed string with the given runes. -/
def text (r : Runes) : GoString := r.map Glyph.rune

/-- Model of `utf8.ValidString`. -/
def wellFormed (s : GoString) : Bool := s.all Glyph.isRune

/-! ## Package `regexp` -/

/-- Regular expressions, the fragment of the RE2 syntax the program's patterns use.
Repetition is applied to one-character classes only.  The leaf `bad b` is an ill-formed byte
`b` in the text of the pattern: such a pattern does not compile. -/
inductive Re where
  | eps
  | char (c : Char)
  | cls (p : Char → Bool)
  | seq (a b : Re)
  | alt (a b : Re)
  | opt (a : Re)
  | star (p : Char → Bool) (greedy : Bool)
  | plus (p : Char → Bool) (greedy : Bool)
  | group (a : Re)
  | bol
  | eol
  | bad (b : Nat)

/-- Number of capturing groups of a pattern (`Regexp.NumSubexp`). -/
def Re.numGroups : Re → Nat
  | .eps => 0
  | .char _ => 0
  | .cls _ => 0
  | .seq a b => a.numGroups + b.numGroups
  | .alt a b => a.numGroups + b.numGroups
  | .opt a => a.numGroups
  | .star _ _ => 0
  | .plus _ _ => 0
  | .group a => a.numGroups + 1
  | .bol => 0
  | .eol => 0
  | .bad _ => 0

/-- Concatenation of a list of patterns. -/
def catRe : List Re → Re
  | [] => .eps
  | r :: rs => .seq r (catRe rs)

/-- The pattern matching exactly the runes `s`. -/
def litRe (s : Runes) : Re := catRe (s.map Re.char)

/-- The text `regexp.QuoteMeta(s)` as part of a pattern: each rune of `s` as a literal, and
each ill-formed byte of `s` as it is. -/
def quoteMeta (s : GoString) : Re :=
  catRe (s.map (fun g =>
    match g with
    | .rune c => Re.char c
    | .byte b => Re.bad b))

/-- No ill-formed byte in the text of the pattern. -/
def Re.valid : Re → Bool
  | .eps => true
  | .char _ => true
  | .cls _ => true
  | .seq a b => a.valid && b.valid
  | .alt a b => a.valid && b.valid
  | .opt a => a.valid
  | .star _ _ => true
  | .plus _ _ => true
  | .group a => a.valid
  | .bol => true
  | .eol => true
  | .bad _ => false

/-- Model of `regexp.Compile` on the patterns of the program: `none` is the error
`invalid UTF-8`. -/
def regexpCompile (pattern : Re) : Option Re :=
  if pattern.valid then some pattern else none

/-- Capture registers, the start and end offset for a group index: the most recent binding
of an index comes first. -/
abbrev Caps := List (Nat × Nat × Nat)

/-- Result of a match attempt: end offset and capture registers. -/
abbrev MatchResult := Option (Nat × Caps)

/-- Continuation of a match: current offset, rest of the input, capture registers. -/
abbrev Cont := Nat → Runes → Caps → MatchResult

/-- First success of two alternatives, in priority order. -/
def orElse (a b : MatchResult) : MatchResult :=
  match a with
  | some r => some r
  | none => b

/-- Repetition `p*` (greedy) or `p*?` (lazy) of a one-character class. -/
def starLoop (p : Char → Bool) (greedy : Bool) : Runes → Nat → Caps → Cont → MatchResult
  | [], pos, caps, k => k pos [] caps
  | c :: t, pos, caps, k =>
    if greedy then
      orElse (if p c then starLoop p greedy t (pos + 1) caps k else none) (k pos (c :: t) caps)
    else
      orElse (k pos (c :: t) caps) (if p c then starLoop p greedy t (pos + 1) caps k else none)

/-- Backtracking matcher over the runes of the input.  `g` is the index the next capturing
group gets, `pos` the offset of the input rest `s` in the whole text. -/
def Re.run : Re → Nat → Nat → Runes → Caps → Cont → MatchResult
  | .eps, _, pos, s, caps, k => k pos s caps
  | .char c, _, pos, s, caps, k =>
    match s with
    | [] => none
    | d :: t => if d = c then k (pos + 1) t caps else none
  | .cls p, _, pos, s, caps, k =>
    match s with
    | [] => none
    | d :: t => if p d then k (pos + 1) t caps else none
  | .seq a b, g, pos, s, caps, k =>
    a.run g pos s caps (fun pos1 s1 caps1 => b.run (g + a.numGroups) pos1 s1 caps1 k)
  | .alt a b, g, pos, s, caps, k =>
    orElse (a.run g pos s caps k) (b.run (g + a.numGroups) pos s caps k)
  | .opt a, g, pos, s, caps, k =>
    orElse (a.run g pos s caps k) (k pos s caps)
  | .star p greedy, _, pos, s, caps, k => starLoop p greedy s pos caps k
  | .plus p greedy, _, pos, s, caps, k =>
    match s with
    | [] => none
    | d :: t => if p d then starLoop p greedy t (pos + 1) caps k else none
  | .group a, g, pos, s, caps, k =>
    a.run (g + 1) pos s caps (fun pos1 s1 caps1 => k pos1 s1 ((g, pos, pos1) :: caps1))
  | .bol, _, pos, s, caps, k => if pos = 0 then k pos s caps else none
  | .eol, _, pos, s, caps, k =>
    match s with
    | [] => k pos [] caps
    | _ :: _ => none
  | .bad _, _, _, _, _, _ => none

/-- Match anchored at the offset `pos`. -/
def matchAt (re : Re) (pos : Nat) (s : Runes) : MatchResult :=
  re.run 1 pos s [] (fun e _ caps => some (e, caps))

/-- Leftmost match at or after `pos`; `s` is the input from `pos` on.  Returns the start
offset, the end offset and the capture registers. -/
def search (re : Re) : Nat → Runes → Option (Nat × Nat × Caps)
  | pos, [] =>
    match matchAt re pos [] with
    | some (e, caps) => some (pos, e, caps)
    | none => none
  | pos, c :: t =>
    match matchAt re pos (c :: t) with
    | some (e, caps) => some (pos, e, caps)
    | none => search re (pos + 1) t

/-- Slice `s[b:e]`. -/
def slice {α : Type} (s : List α) (b e : Nat) : List α := (s.drop b).take (e - b)

/-- Text of `s` bound to group `i`, empty when the group took no part in the match. -/
def capText (s : GoString) (caps : Caps) (i : Nat) : GoString :=
  match caps.lookup i with
  | some (b, e) => slice s b e
  | none => []

/-- Model of `(*Regexp).FindStringSubmatch`: `none` for Go's `nil`; otherwise the matched text
followed by the text of each of the `NumSubexp` groups. -/
def findStringSubmatch (re : Re) (s : GoString) : Option (List GoString) :=
  match search re 0 (decode s) with
  | none => none
  | some (b, e, caps) =>
    some (slice s b e :: (List.range re.numGroups).map (fun i => capText s caps (i + 1)))

/-- Loop of `(*Regexp).allMatches`: `s` is the input from `pos` on, `prevEnd` the end of the
previous match.  One unit of fuel per iteration; each iteration advances `pos`. -/
def allMatchesLoop (re : Re) : Nat → Nat → Runes → Option Nat → List (Nat × Nat)
  | 0, _, _, _ => []
  | fuel + 1, pos, s, prevEnd =>
    match search re pos s with
    | none => []
    | some (b, e, _) =>
      if e = pos then
        -- an empty match at `pos`: dropped right after a previous match, then move on one rune
        let found := if some b = prevEnd then [] else [(b, e)]
        match s with
        | [] => found
        | _ :: t => found ++ allMatchesLoop re fuel (pos + 1) t (some e)
      else
        (b, e) :: allMatchesLoop re fuel e (s.drop (e - pos)) (some e)

/-- Model of `(*Regexp).FindAllStringIndex(s, -1)` on the runes of `s`: the offsets of the
successive leftmost non-overlapping matches. -/
def findAllStringIndex (re : Re) (s : Runes) : List (Nat × Nat) :=
  allMatchesLoop re (s.length + 1) 0 s none

/-- Model of `(*Regexp).FindAllString(s, -1)`. -/
def findAllString (re : Re) (s : GoString) : List GoString :=
  (findAllStringIndex re (decode s)).map (fun m => slice s m.1 m.2)

/-- Class `[0-9]`, also `\d`. -/
def isDigit (c : Char) : Bool := decide ('0' ≤ c) && decide (c ≤ '9')

/-- Class `\s` of RE2: `[\t\n\f\r ]`. -/
def isReSpace (c : Char) : Bool :=
  c = '\t' || c = '\n' || c = Char.ofNat 12 || c = '\r' || c = ' '

/-- Class `.` without the `s` flag: any rune but the newline. -/
def isDot (c : Char) : Bool := !(c = '\n')

/-- Class `[#+-]`. -/
def isFlagChar (c : Char) : Bool := c = '#' || c = '+' || c = '-'

/-- Class `[sdftv%xXobBeEfFgGqp]`. -/
def isVerbChar (c : Char) : Bool := "sdftv%xXobBeEfFgGqp".toList.contains c

/-- Class `[0-9a-fA-F]`. -/
def isHexDigit (c : Char) : Bool :=
  isDigit c || (decide ('a' ≤ c) && decide (c ≤ 'f')) || (decide ('A' ≤ c) && decide (c ≤ 'F'))

/-- The directive scanner of `extractValues` and `applyValues`:
`%(?:[#+-])?(?:[0-9]+)?(?:\.[0-9]+)?[sdftv%xXobBeEfFgGqp]`. -/
def placeholderRe : Re :=
  .seq (.char '%')
    (.seq (.opt (.cls isFlagChar))
      (.seq (.opt (.plus isDigit true))
        (.seq (.opt (.seq (.char '.') (.plus isDigit true)))
          (.cls isVerbChar))))

/-! ## Packages `unicode`, `strings` and `strconv` -/

/-- Model of `unicode.IsSpace`: the code points with the White_Space property. -/
def isSpace (c : Char) : Bool :=
  let n := c.toNat
  (9 ≤ n && n ≤ 13) || n = 32 || n = 0x85 || n = 0xA0 || n = 0x1680 ||
    (0x2000 ≤ n && n ≤ 0x200A) || n = 0x2028 || n = 0x2029 || n = 0x202F || n = 0x205F ||
    n = 0x3000

/-- Model of `strings.TrimSpace`. -/
def trimSpace (s : GoString) : GoString :=
  ((s.dropWhile (fun g => isSpace g.toRune)).reverse.dropWhile
    (fun g => isSpace g.toRune)).reverse

/-- Model of `strings.TrimPrefix`. -/
def trimPrefix (s p : GoString) : GoString :=
  if p.isPrefixOf s then s.drop p.length else s

/-- Value of a decimal digit. -/
def decDigit (c : Char) : Option Nat :=
  if isDigit c then some (c.toNat - 48) else none

/-- Value of a hexadecimal digit, either case. -/
def hexDigit (c : Char) : Option Nat :=
  if isDigit c then some (c.toNat - 48)
  else if decide ('a' ≤ c) && decide (c ≤ 'f') then some (c.toNat - 87)
  else if decide ('A' ≤ c) && decide (c ≤ 'F') then some (c.toNat - 55)
  else none

/-- Digit loop of `strconv.ParseUint` without the overflow cut-off: the value of a digit
string read most significant digit first, `none` at the first character that is no digit. -/
def parseDigitsFrom (digit : Char → Option Nat) (base : Nat) : Runes → Nat → Option Nat
  | [], acc => some acc
  | c :: t, acc =>
    match digit c with
    | some d => parseDigitsFrom digit base t (acc * base + d)
    | none => none

/-- A non-empty digit string and its value. -/
def parseDigits (digit : Char → Option Nat) (base : Nat) (s : Runes) : Option Nat :=
  match s with
  | [] => none
  | _ :: _ => parseDigitsFrom digit base s 0

/-- An optional sign `+` or `-` followed by a non-empty digit string. -/
def parseSigned (digit : Char → Option Nat) (base : Nat) (s : Runes) : Option Int :=
  match s with
  | [] => none
  | c :: t =>
    if c = '-' then
      match parseDigits digit base t with
      | some n => some (-(n : Int))
      | none => none
    else if c = '+' then
      match parseDigits digit base t with
      | some n => some (n : Int)
      | none => none
    else
      match parseDigits digit base (c :: t) with
      | some n => some (n : Int)
      | none => none

/-- Range of a signed 64-bit integer. -/
def inInt64 (n : Int) : Bool := decide (-(2 : Int) ^ 63 ≤ n) && decide (n ≤ 2 ^ 63 - 1)

/-- Model of `strconv.ParseInt(s, base, 64)` for an explicit base (no prefix, no
underscores): `none` stands for any error, syntax or range. -/
def parseInt (digit : Char → Option Nat) (base : Nat) (s : Runes) : Option Int :=
  match parseSigned digit base s with
  | some n => if inInt64 n then some n else none
  | none => none

/-- Model of `strconv.Atoi`, `none` for any error. -/
def atoi (s : Runes) : Option Int := parseInt decDigit 10 s

/-- Model of `strconv.ParseBool`, `none` for the error. -/
def parseBool (s : Runes) : Option Bool :=
  if s ∈ ["1".toList, "t".toList, "T".toList, "TRUE".toList, "true".toList, "True".toList] then
    some true
  else if s ∈ ["0".toList, "f".toList, "F".toList, "FALSE".toList, "false".toList,
      "False".toList] then
    some false
  else none

/-- Digit characters `0123456789abcdef` or `0123456789ABCDEF` of package `fmt`. -/
def digitChar (upper : Bool) (d : Nat) : Char :=
  if d < 10 then Char.ofNat (48 + d)
  else if upper then Char.ofNat (55 + d) else Char.ofNat (87 + d)

/-- Digits of `n` in the given base put in front of `acc`, least significant digit produced
first; `fuel` bounds the number of digits. -/
def natDigitsFrom (base : Nat) (upper : Bool) : Nat → Nat → Runes → Runes
  | 0, _, acc => acc
  | fuel + 1, n, acc =>
    if n < base then digitChar upper n :: acc
    else natDigitsFrom base upper fuel (n / base) (digitChar upper (n % base) :: acc)

/-- The digits of a natural number, most significant first. -/
def natDigits (base : Nat) (upper : Bool) (n : Nat) : Runes :=
  natDigitsFrom base upper (n + 1) n []

/-- Model of `strconv.Itoa`, which is also what `%d` prints: base-10 digits, `-` in front of
a negative number. -/
def itoa (n : Int) : Runes :=
  if n < 0 then '-' :: natDigits 10 false n.natAbs else natDigits 10 false n.natAbs

/-! ## The values of the program -/

/-- The dynamic values (`interface{}`) the program produces: `int`, `float64`, `bool` and
`string`.  `F` is the carrier of `float64`. -/
inductive Value (F : Type) where
  | int (n : Int)
  | float (x : F)
  | bool (b : Bool)
  | str (s : GoString)
  deriving DecidableEq

/-- Formatting state of package `fmt` for one directive. -/
structure FmtFlags where
  sharp : Bool
  zero : Bool
  plus : Bool
  minus : Bool
  space : Bool
  wid : Option Nat
  prec : Option Nat

/-- State after `clearflags`. -/
def FmtFlags.clear : FmtFlags :=
  { sharp := false, zero := false, plus := false, minus := false, space := false,
    wid := none, prec := none }

/-- The parts of the standard library that are left uninterpreted. -/
structure GoLib where
  /-- The type `float64`. -/
  Float64 : Type
  /-- The function `strconv.ParseFloat(s, 64)`, `none` for an error. -/
  parseFloat : GoString → Option Float64
  /-- What `printArg` of package `fmt` writes for an operand and verb whose rendering is not
  spelled out in `printArg` below. -/
  printOperand : FmtFlags → Char → Value Float64 → GoString
  /-- What `doPrintf` writes from a directive on that takes its width or precision from an
  operand (`*`) or selects an operand by index (`[n]`): the format from the `%` of that
  directive, all operands, and the number of operands used so far. -/
  printfIndexed : GoString → List (Value Float64) → Nat → GoString

/-- The values for a given library. -/
abbrev GoLib.Val (lib : GoLib) : Type := Value lib.Float64

/-! ## Package `fmt` -/

/-- Flag loop of `doPrintf`: the flags and the format after them.  Padding with zeros is to
the left only, so `-` switches `0` off. -/
def parseFlags : GoString → FmtFlags → FmtFlags × GoString
  | [], f => (f, [])
  | c :: t, f =>
    if c.toRune = '#' then parseFlags t { f with sharp := true }
    else if c.toRune = '0' then parseFlags t { f with zero := !f.minus }
    else if c.toRune = '+' then parseFlags t { f with plus := true }
    else if c.toRune = '-' then parseFlags t { f with minus := true, zero := false }
    else if c.toRune = ' ' then parseFlags t { f with space := true }
    else (f, c :: t)

/-- Loop of `parsenum`: a number above 1e6 is given up and ends the format. -/
def parsenumLoop : GoString → Nat → Bool → Nat × Bool × GoString
  | [], num, isnum => (num, isnum, [])
  | c :: t, num, isnum =>
    if isDigit c.toRune then
      if num > 1000000 then (0, false, [])
      else parsenumLoop t (num * 10 + (c.toRune.toNat - 48)) true
    else (num, isnum, c :: t)

/-- Model of `parsenum`: value, whether a number was read, and the format after it. -/
def parsenum (s : GoString) : Nat × Bool × GoString := parsenumLoop s 0 false

/-- Model of `(*fmt).padString` and `(*fmt).pad` when the padding byte is the blank; the
width counts runes, an ill-formed byte as one. -/
def padString (f : FmtFlags) (s : GoString) : GoString :=
  match f.wid with
  | none => s
  | some w =>
    if w = 0 then s
    else if f.minus then s ++ List.replicate (w - s.length) (Glyph.rune ' ')
    else List.replicate (w - s.length) (Glyph.rune ' ') ++ s

/-- Model of `(*fmt).fmtS` without the zero flag: cut to the precision, then pad. -/
def fmtS (f : FmtFlags) (s : GoString) : GoString :=
  match f.prec with
  | some p => padString f (s.take p)
  | none => padString f s

/-- Model of `(*fmt).fmtInteger` for a signed operand in base 2, 8, 10 or 16. -/
def fmtInteger (f : FmtFlags) (n : Int) (base : Nat) (upper : Bool) : GoString :=
  let u := n.natAbs
  if f.prec = some 0 ∧ u = 0 then List.replicate (f.wid.getD 0) (Glyph.rune ' ')
  else
    let prec : Nat :=
      match f.prec with
      | some p => p
      | none =>
        if f.zero && f.wid.isSome then
          f.wid.getD 0 - (if decide (n < 0) || f.plus || f.space then 1 else 0)
        else 0
    let ds := natDigits base upper u
    let ds := List.replicate (prec - ds.length) '0' ++ ds
    let ds :=
      if f.sharp then
        if base = 2 then '0' :: 'b' :: ds
        else if base = 8 then (if ds.head? = some '0' then ds else '0' :: ds)
        else if base = 16 then '0' :: (if upper then 'X' else 'x') :: ds
        else ds
      else ds
    let ds :=
      if n < 0 then '-' :: ds
      else if f.plus then '+' :: ds
      else if f.space then ' ' :: ds
      else ds
    padString f (text ds)

/-- Model of `(*pp).printArg` after `doPrintf` has moved the flags of `%v`: the operand and
verb combinations spelled out here are strings under `%s` and `%v`, booleans under `%t` and
`%v` (both without the zero flag), and integers under `%d`, `%v`, `%x`, `%X`, `%o`, `%b`. -/
def printArg (lib : GoLib) (f : FmtFlags) (verb : Char) (v : lib.Val) : GoString :=
  match v with
  | .int n =>
    if verb = 'd' then fmtInteger f n 10 false
    else if verb = 'v' then fmtInteger { f with sharp := false, plus := false } n 10 false
    else if verb = 'x' then fmtInteger f n 16 false
    else if verb = 'X' then fmtInteger f n 16 true
    else if verb = 'o' then fmtInteger f n 8 false
    else if verb = 'b' then fmtInteger f n 2 false
    else lib.printOperand f verb v
  | .str s =>
    if (verb = 's' || (verb = 'v' && !f.sharp)) && !f.zero then fmtS f s
    else lib.printOperand f verb v
  | .bool b =>
    if (verb = 't' || verb = 'v') && !f.zero then
      padString f (text (if b then "true".toList else "false".toList))
    else lib.printOperand f verb v
  | .float _ => lib.printOperand f verb v

/-- Name of the dynamic type of a value, as `reflect.TypeOf(arg).String()`. -/
def typeName {F : Type} : Value F → GoString
  | .int _ => text "int".toList
  | .float _ => text "float64".toList
  | .bool _ => text "bool".toList
  | .str _ => text "string".toList

/-- The `%!(EXTRA type=value, ...)` report of `doPrintf` for the operands from `argNum` on. -/
def extraArgs (lib : GoLib) (a : List lib.Val) (argNum : Nat) : GoString :=
  if argNum < a.length then
    text "%!(EXTRA ".toList ++
      (text ", ".toList).intercalate
        ((a.drop argNum).map
          (fun v => typeName v ++ Glyph.rune '=' :: printArg lib FmtFlags.clear 'v' v)) ++
      text ")".toList
  else []

/-- One directive of `doPrintf`, `t` being the format after its `%`: what is written, the
format after the directive and the operand counter.  `none` when the directive uses `*` or
an explicit operand index.  A `.` opens a precision only when the format goes on after it
(`i+1 < end && format[i] == '.'`); the verb is decoded as a rune. -/
def directive (lib : GoLib) (t : GoString) (a : List lib.Val) (argNum : Nat) :
    Option (GoString × GoString × Nat) :=
  let (f, t1) := parseFlags t FmtFlags.clear
  if (decode t1).head? = some '[' ∨ (decode t1).head? = some '*' then none
  else
    let (w, wp, t2) := parsenum t1
    let f := { f with wid := if wp then some w else none }
    let dot : Bool := decide ((decode t2).head? = some '.') && !(t2.drop 1).isEmpty
    let t3 := if dot then t2.drop 1 else t2
    if dot = true ∧ ((decode t3).head? = some '[' ∨ (decode t3).head? = some '*') then none
    else
      let (pr, pp, t4) := if dot then parsenum t3 else (0, false, t2)
      let f := if dot then { f with prec := some (if pp then pr else 0) } else f
      match t4 with
      | [] => some (text "%!(NOVERB)".toList, [], argNum)
      | verb :: rest =>
        if verb.toRune = '[' then none
        else if verb.toRune = '%' then some ([Glyph.rune '%'], rest, argNum)
        else
          match a.get? argNum with
          | none =>
            some (text "%!".toList ++ Glyph.rune verb.toRune :: text "(MISSING)".toList, rest,
              argNum)
          | some v => some (printArg lib f verb.toRune v, rest, argNum + 1)

/-- Model of `(*pp).doPrintf`; one unit of fuel per glyph of the format. -/
def doPrintf (lib : GoLib) : Nat → GoString → List lib.Val → Nat → GoString
  | 0, _, _, _ => []
  | _ + 1, [], a, argNum => extraArgs lib a argNum
  | fuel + 1, c :: t, a, argNum =>
    if c.toRune = '%' then
      match directive lib t a argNum with
      | none => lib.printfIndexed (c :: t) a argNum
      | some (out, rest, argNum1) => out ++ doPrintf lib fuel rest a argNum1
    else c :: doPrintf lib fuel t a argNum

/-- Model of `fmt.Sprintf`. -/
def sprintf (lib : GoLib) (format : GoString) (a : List lib.Val) : GoString :=
  doPrintf lib (format.length + 1) format a 0

/-! ## The program: `sreprintf.go` -/

/-- Go's `error`: `none` is `nil`, otherwise the message of the error. -/
abbrev GoError := Option String

/-- The error of `extractValues` for a pattern that does not compile.  The message of the
program goes on with the rest of the pattern from the ill-formed byte on, between
backquotes; that part is left out. -/
def compileFailure : GoError :=
  some "failed to compile pattern: error parsing regexp: invalid UTF-8"

/-- The type `placeholderInfo`.  The field `end` is called `stop`. -/
structure placeholderInfo where
  start : Nat
  stop : Nat
  placeholder : GoString
  verb : Char
  hasFlag : Bool
  hasWidth : Bool
  hasPrecision : Bool

/-- Last byte of the UTF-8 encoding of a rune, given as the character with that code. -/
def lastByte (c : Char) : Char :=
  if c.toNat < 128 then c else Char.ofNat (128 + c.toNat % 64)

/-- Last byte of a decoding step, given as the character with that code. -/
def Glyph.lastByte : Glyph → Char
  | .rune c => GoSreprintf.lastByte c
  | .byte b => Char.ofNat b

/-- The function `parsePlaceholder`.  The string has two bytes or more and the first is `%`
when its first glyph is `%` and another glyph follows; the tests of `middle` look for ASCII
characters only. -/
def parsePlaceholder (s : GoString) : placeholderInfo :=
  let info : placeholderInfo :=
    { start := 0, stop := 0, placeholder := s, verb := Char.ofNat 0, hasFlag := false,
      hasWidth := false, hasPrecision := false }
  match s with
  | [] => info
  | c :: t =>
    if c ≠ Glyph.rune '%' ∨ t = [] then info
    else
      let middle := decode t.dropLast
      { info with
        verb := (t.getLastD (Glyph.rune (Char.ofNat 0))).lastByte
        hasFlag := middle.any isFlagChar
        hasWidth := middle.any isDigit
        hasPrecision := middle.contains '.' }

/-- Class `[+-]`. -/
def isSign (c : Char) : Bool := c = '+' || c = '-'

/-- Class `[^\s]`. -/
def isNonSpace (c : Char) : Bool := !isReSpace c

/-- Class `[xX]`. -/
def isXChar (c : Char) : Bool := c = 'x' || c = 'X'

/-- The function `getCapturePattern`, each pattern as a tree. -/
def getCapturePattern (info : placeholderInfo) : Re :=
  if info.verb = 'd' then
    if info.hasWidth || info.hasFlag then
      -- (\s*[+-]?\d+)
      .group (.seq (.star isReSpace true) (.seq (.opt (.cls isSign)) (.plus isDigit true)))
    else
      -- ([^\s]+)
      .group (.plus isNonSpace true)
  else if info.verb = 'f' ∨ info.verb = 'F' ∨ info.verb = 'e' ∨ info.verb = 'E' ∨
      info.verb = 'g' ∨ info.verb = 'G' then
    if info.hasWidth || info.hasFlag then
      -- (\s*[+-]?\d+(?:\.\d+)?)
      .group (.seq (.star isReSpace true) (.seq (.opt (.cls isSign))
        (.seq (.plus isDigit true) (.opt (.seq (.char '.') (.plus isDigit true))))))
    else
      -- (-?\d+(?:\.\d+)?)
      .group (.seq (.opt (.char '-'))
        (.seq (.plus isDigit true) (.opt (.seq (.char '.') (.plus isDigit true)))))
  else if info.verb = 's' ∨ info.verb = 'v' then
    if info.hasWidth then
      -- (.+?)
      .group (.plus isDot false)
    else
      -- (.*?)
      .group (.star isDot false)
  else if info.verb = 't' then
    -- (true|false)
    .group (.alt (litRe "true".toList) (litRe "false".toList))
  else if info.verb = 'x' ∨ info.verb = 'X' then
    -- ((?:0[xX])?[0-9a-fA-F]+)
    .group (.seq (.opt (.seq (.char '0') (.cls isXChar))) (.plus isHexDigit true))
  else if info.verb = 'b' ∨ info.verb = 'o' then
    -- (\d+)
    .group (.plus isDigit true)
  else
    -- (.+?)
    .group (.plus isDot false)

/-- The function `convertValue`. -/
def convertValue (lib : GoLib) (value : GoString) (verb : Char) : lib.Val :=
  let value := trimSpace value
  if verb = 'd' ∨ verb = 'b' ∨ verb = 'o' then
    match atoi (decode value) with
    | some v => .int v
    | none => .str value
  else if verb = 'f' ∨ verb = 'F' ∨ verb = 'e' ∨ verb = 'E' ∨ verb = 'g' ∨ verb = 'G' then
    match lib.parseFloat value with
    | some v => .float v
    | none => .str value
  else if verb = 't' then
    match parseBool (decode value) with
    | some v => .bool v
    | none => .str value
  else if verb = 'x' ∨ verb = 'X' then
    let cleanValue := trimPrefix (trimPrefix value (text "0x".toList)) (text "0X".toList)
    match parseInt hexDigit 16 (decode cleanValue) with
    | some v => .int v
    | none => .str value
  else .str value

/-- Pieces written by the loop of `buildExtractionPattern` from the offset `pos` on, and by
the code after the loop: one piece for each `WriteString`. -/
def patternPieces (template : GoString) : List (Nat × Nat) → Nat → List Re
  | [], pos =>
    (if pos < template.length then [quoteMeta (template.drop pos)] else []) ++ [Re.eol]
  | m :: ms, pos =>
    (if pos < m.1 then [quoteMeta (slice template pos m.1)] else []) ++
      (if slice template m.1 m.2 = text "%%".toList then Re.char '%'
        else getCapturePattern (parsePlaceholder (slice template m.1 m.2))) ::
      patternPieces template ms m.2

/-- The function `buildExtractionPattern`; the result is the text of the pattern, as the
tree it is parsed into. -/
def buildExtractionPattern (template : GoString) (placeholderMatches : List (Nat × Nat)) : Re :=
  catRe (Re.bol :: patternPieces template placeholderMatches 0)

/-- The loop "Parse placeholders" of `extractValues`. -/
def parsePlaceholders (template : GoString) : List (Nat × Nat) → List placeholderInfo
  | [] => []
  | m :: ms =>
    if slice template m.1 m.2 ≠ text "%%".toList then
      { parsePlaceholder (slice template m.1 m.2) with start := m.1, stop := m.2 } ::
        parsePlaceholders template ms
    else parsePlaceholders template ms

/-- The loop "Convert captured strings to appropriate types" of `extractValues`, entered at
index `i`, with its guard `i+1 >= len(submatches)`. -/
def convertCaptures (lib : GoLib) (submatches : List GoString) :
    List placeholderInfo → Nat → List lib.Val
  | [], _ => []
  | info :: rest, i =>
    if i + 1 ≥ submatches.length then []
    else
      convertValue lib (submatches.getD (i + 1) []) info.verb ::
        convertCaptures lib submatches rest (i + 1)

/-- The function `extractValues`: the values and the error. -/
def extractValues (lib : GoLib) (template message : GoString) : List lib.Val × GoError :=
  let ms := findAllStringIndex placeholderRe (decode template)
  if ms.length = 0 then
    if template = message then ([], none)
    else ([], some "message does not match template")
  else
    let placeholders := parsePlaceholders template ms
    let pattern := buildExtractionPattern template ms
    match regexpCompile pattern with
    | none => ([], compileFailure)
    | some re =>
      match findStringSubmatch re message with
      | none => ([], some "message does not match template")
      | some submatches => (convertCaptures lib submatches placeholders 0, none)

/-- The loop of `applyValues` counting the directives other than `%%`. -/
def countPlaceholders : List GoString → Nat
  | [] => 0
  | m :: ms =>
    if m ≠ text "%%".toList then countPlaceholders ms + 1 else countPlaceholders ms

/-- The value sequence `applyValues` hands to `fmt.Sprintf`: cut or filled up with empty
strings to the number of placeholders of the translation. -/
def adjustValues (lib : GoLib) (translation : GoString) (values : List lib.Val) : List lib.Val :=
  let placeholderCount := countPlaceholders (findAllString placeholderRe translation)
  let values := if values.length > placeholderCount then values.take placeholderCount else values
  values ++ List.replicate (placeholderCount - values.length) (.str [])

/-- The function `applyValues`. -/
def applyValues (lib : GoLib) (translation : GoString) (values : List lib.Val) :
    GoString × GoError :=
  (sprintf lib translation (adjustValues lib translation values), none)

/-- The function `Sreprintf`. -/
def Sreprintf (lib : GoLib) (template message translation : GoString) : GoString × GoError :=
  match extractValues lib template message with
  | (_, some err) => ([], some err)
  | (values, none) => applyValues lib translation values

/-- The pattern of a template with one real placeholder `D` between the literals `L1`, `L2`. -/
def singlePattern (L1 D L2 : Runes) : Re :=
  catRe [Re.bol, litRe L1, getCapturePattern (parsePlaceholder (text D)), litRe L2, Re.eol]

/-! ## Notions of the specification -/

/-- An instance of the uninterpreted part of the library, for evaluating the definitions on
concrete inputs that involve no floating-point number: it has an empty `float64`, and writes
nothing where the rendering is left open. -/
def sampleLib : GoLib :=
  { Float64 := Empty
    parseFloat := fun _ => none
    printOperand := fun _ _ _ => []
    printfIndexed := fun _ _ _ => [] }

/-- Equality of the values of `sampleLib` is decidable. -/
instance sampleLibDecEq : DecidableEq sampleLib.Float64 := fun a _ => a.elim

/-- Value of a digit string read in base 10. -/
def decimalValue (ds : Runes) : Nat := ds.foldl (fun a c => a * 10 + (c.toNat - 48)) 0

/-- A base-10 integer literal: an optional sign `+` or `-` followed by one or more digits. -/
def isDecimalLiteral (s : Runes) : Bool :=
  match s with
  | [] => false
  | c :: t =>
    if c = '+' ∨ c = '-' then !t.isEmpty && t.all isDigit else (c :: t).all isDigit

/-- The integer a base-10 literal denotes. -/
def decimalLiteralValue (s : Runes) : Int :=
  match s with
  | [] => 0
  | c :: t =>
    if c = '-' then -(decimalValue t : Int)
    else if c = '+' then (decimalValue t : Int)
    else (decimalValue (c :: t) : Int)

/-- The text a template stands for once its directives are filled in, from the offset `pos`
on: the literal segments as they are, a single `%` for each directive `%%`, and for the
other directives the texts `caps`, one each, in order. -/
def fillTemplate (template : GoString) : List (Nat × Nat) → Nat → List GoString → GoString
  | [], pos, _ => template.drop pos
  | m :: ms, pos, caps =>
    if slice template m.1 m.2 = text "%%".toList then
      slice template pos m.1 ++ Glyph.rune '%' :: fillTemplate template ms m.2 caps
    else
      slice template pos m.1 ++ (caps.headD [] ++ fillTemplate template ms m.2 caps.tail)

/-- The template with each directive `%%` the scanner finds replaced by a single `%`. -/
def collapseTemplate (template : GoString) : GoString :=
  fillTemplate template (findAllStringIndex placeholderRe (decode template)) 0 []

/-- The capturing groups of a pattern, in the order of their opening parentheses. -/
def Re.groups : Re → List Re
  | .eps => []
  | .char _ => []
  | .cls _ => []
  | .seq a b => a.groups ++ b.groups
  | .alt a b => a.groups ++ b.groups
  | .opt a => a.groups
  | .star _ _ => []
  | .plus _ _ => []
  | .group a => Re.group a :: a.groups
  | .bol => []
  | .eol => []
  | .bad _ => []

/-- Every `%` of the text belongs to a pair `%%`, the pairs read from the left. -/
def percentsPaired : GoString → Bool
  | [] => true
  | [c] => !(c = Glyph.rune '%')
  | c :: d :: t =>
    if c = Glyph.rune '%' then d = Glyph.rune '%' && percentsPaired t
    else percentsPaired (d :: t)

/-- The text with each pair `%%` replaced by a single `%`. -/
def collapsePairs : GoString → GoString
  | [] => []
  | [c] => [c]
  | c :: d :: t =>
    if c = Glyph.rune '%' ∧ d = Glyph.rune '%' then Glyph.rune '%' :: collapsePairs t
    else c :: collapsePairs (d :: t)

/-- The precision part of a directive: nothing, or `.` and the digits. -/
def precText : Option Runes → Runes
  | some p => '.' :: p
  | none => []

/-- The text of a directive `%[flag][width][.precision]verb` put together from its parts. -/
def directiveText (flag : Option Char) (width : Runes) (prec : Option Runes)
    (verb : Char) : Runes :=
  '%' :: (flag.toList ++ (width ++ (precText prec ++ [verb])))

/-- The parts are those of a directive of the scanner's grammar: the flag is one of `#`, `+`,
`-`; the width is a digit run; the precision is a non-empty digit run; the verb is one of
the scanner's verbs. -/
def isDirective (flag : Option Char) (width : Runes) (prec : Option Runes)
    (verb : Char) : Bool :=
  (match flag with
    | some f => isFlagChar f
    | none => true) &&
  width.all isDigit &&
  (match prec with
    | some p => !p.isEmpty && p.all isDigit
    | none => true) &&
  isVerbChar verb

/-- The rune sequences a pattern matches as a whole, anchors apart: the language of the
pattern. -/
def Re.accepts : Re → Runes → Prop
  | .eps, w => w = []
  | .char c, w => w = [c]
  | .cls p, w => ∃ c, w = [c] ∧ p c = true
  | .seq a b, w => ∃ w1 w2, w = w1 ++ w2 ∧ a.accepts w1 ∧ b.accepts w2
  | .alt a b, w => a.accepts w ∨ b.accepts w
  | .opt a, w => a.accepts w ∨ w = []
  | .star p _, w => ∀ c ∈ w, p c = true
  | .plus p _, w => w ≠ [] ∧ ∀ c ∈ w, p c = true
  | .group a, w => a.accepts w
  | .bol, _ => False
  | .eol, _ => False
  | .bad _, _ => False

/-- Place of a character among the sixteen hexadecimal digits, in either case. -/
def hexDigitPlace (c : Char) : Nat :=
  min ("0123456789abcdef".toList.indexOf c) ("0123456789ABCDEF".toList.indexOf c)

/-- Value of a hexadecimal digit string. -/
def hexValue (ds : Runes) : Nat :=
  ds.foldl (fun a c => a * 16 + hexDigitPlace c) 0

/-- A pattern without capturing groups and without anchors. -/
def Re.plain : Re → Bool
  | .eps => true
  | .char _ => true
  | .cls _ => true
  | .seq a b => a.plain && b.plain
  | .alt a b => a.plain && b.plain
  | .opt a => a.plain
  | .star _ _ => true
  | .plus _ _ => true
  | .group _ => false
  | .bol => false
  | .eol => false
  | .bad _ => true

/-- A placeholder of a template together with the value it is to show and the literal text
that follows it: a string under `%s`, an integer under `%d`, a boolean under `%t`, a natural
number under `%x` or `%X`. -/
inductive Slot where
  | str (v : GoString) (lit : Runes)
  | int (n : Int) (lit : Runes)
  | bool (b : Bool) (lit : Runes)
  | hex (upper : Bool) (n : Nat) (lit : Runes)

/-- The verb of the placeholder. -/
def Slot.verb : Slot → Char
  | .str _ _ => 's'
  | .int _ _ => 'd'
  | .bool _ _ => 't'
  | .hex upper _ _ => if upper then 'X' else 'x'

/-- The literal text after the placeholder. -/
def Slot.lit : Slot → Runes
  | .str _ lit => lit
  | .int _ lit => lit
  | .bool _ lit => lit
  | .hex _ _ lit => lit

/-- The value of the placeholder. -/
def Slot.value (lib : GoLib) : Slot → lib.Val
  | .str v _ => .str v
  | .int n _ => .int n
  | .bool b _ => .bool b
  | .hex _ n _ => .int n

/-- The text the value is shown as: the string itself, the base-10 digits with a `-` for a
negative number, `true` or `false`, the base-16 digits. -/
def Slot.shown : Slot → GoString
  | .str v _ => v
  | .int n _ => text (itoa n)
  | .bool b _ => text (if b then "true".toList else "false".toList)
  | .hex upper n _ => text (natDigits 16 upper n)

/-- The capture pattern of the placeholder: `(.*?)`, `([^\s]+)`, `(true|false)`,
`((?:0[xX])?[0-9a-fA-F]+)`. -/
def Slot.capture : Slot → Re
  | .str _ _ => .group (.star isDot false)
  | .int _ _ => .group (.plus isNonSpace true)
  | .bool _ _ => .group (.alt (litRe "true".toList) (litRe "false".toList))
  | .hex _ _ _ => .group (.seq (.opt (.seq (.char '0') (.cls isXChar))) (.plus isHexDigit true))

/-- The placeholders one after the other, each followed by its literal text. -/
def slotsDirs : List Slot → Runes
  | [] => []
  | s :: ss => '%' :: s.verb :: (s.lit ++ slotsDirs ss)

/-- The shown values one after the other, each followed by its literal text. -/
def slotsBody : List Slot → GoString
  | [] => []
  | s :: ss => s.shown ++ (text s.lit ++ slotsBody ss)

/-- The template that starts with the literal text `L0` and goes on with the placeholders. -/
def slotsTemplate (L0 : Runes) (slots : List Slot) : Runes := L0 ++ slotsDirs slots

/-- The text is not empty and its first character satisfies `p`. -/
def headIs (p : Char → Bool) : Runes → Bool
  | [] => false
  | c :: _ => p c

/-- The value can be read back from what the placeholder shows.  The literal text after the
placeholder has no `%`.  A string has no newline and no white space at either end; an integer
is in the range of `int`; a natural number under `%x` is below `2^63`.  When another
placeholder follows (`last = false`), the literal text after a string, an integer or a number
in base 16 is not empty and tells where the shown value ends: after a string it starts with a
character that is not in the string, after an integer with white space, after a number in
base 16 with a character that is neither a digit of base 16 nor `x` or `X`.  A boolean needs
no such text. -/
def Slot.ok (last : Bool) : Slot → Bool
  | .str v lit =>
    !lit.contains '%' && !v.contains (Glyph.rune '\n') && decide (trimSpace v = v) &&
      (last || headIs (fun c0 => !(decode v).contains c0) lit)
  | .int n lit => !lit.contains '%' && inInt64 n && (last || headIs isReSpace lit)
  | .bool _ lit => !lit.contains '%'
  | .hex _ n lit =>
    !lit.contains '%' && decide (n < 2 ^ 63) &&
      (last || headIs (fun c => !isHexDigit c && !isXChar c) lit)

/-- Every placeholder of the list is `ok`, the last one as the last. -/
def slotsOk : List Slot → Bool
  | [] => true
  | [s] => s.ok true
  | s :: s1 :: ss => s.ok false && slotsOk (s1 :: ss)

/-- The offsets of the placeholders, the first one standing at `p`. -/
def slotOffs (p : Nat) : List Slot → List (Nat × Nat)
  | [] => []
  | s :: ss => (p, p + 2) :: slotOffs (p + 2 + s.lit.length) ss

/-- The pattern of a template given by its placeholders, after `^`. -/
def chainRe (L : Runes) : List Slot → List Re
  | [] => [litRe L, Re.eol]
  | s :: ss => litRe L :: s.capture :: chainRe s.lit ss

/-- The capture registers after a match of `chainRe`: the shown value of the first
placeholder starts at `p`, its group has the index `g`. -/
def capsOf (g p : Nat) : List Slot → Caps
  | [] => []
  | s :: ss => capsOf (g + 1) (p + s.shown.length + s.lit.length) ss ++ [(g, p, p + s.shown.length)]

/-! ## Facts about the matcher -/

@[simp] theorem decode_text (r : Runes) : decode (text r) = r := by
  simp [decode, text, Function.comp_def, Glyph.toRune]

@[simp] theorem decode_append (s t : GoString) : decode (s ++ t) = decode s ++ decode t := by
  simp [decode]

@[simp] theorem decode_cons (g : Glyph) (t : GoString) :
    decode (g :: t) = g.toRune :: decode t := rfl

@[simp] theorem decode_nil : decode [] = [] := rfl

@[simp] theorem length_decode (s : GoString) : (decode s).length = s.length := by
  simp [decode]

@[simp] theorem length_text (r : Runes) : (text r).length = r.length := by
  simp [text]

theorem text_append (r t : Runes) : text (r ++ t) = text r ++ text t := by
  simp [text]

@[simp] theorem text_nil : text [] = [] := rfl

theorem text_cons (c : Char) (t : Runes) : text (c :: t) = Glyph.rune c :: text t := rfl

theorem text_injective (r t : Runes) (h : text r = text t) : r = t := by
  have := congrArg decode h
  simpa using this

@[simp] theorem text_inj (r t : Runes) : text r = text t ↔ r = t :=
  ⟨text_injective r t, fun h => by rw [h]⟩

@[simp] theorem wellFormed_text (r : Runes) : wellFormed (text r) = true := by
  simp [wellFormed, text, Glyph.isRune]

/-- A well-formed string is the text of its runes. -/
theorem text_decode (s : GoString) (h : wellFormed s = true) : text (decode s) = s := by
  induction s with
  | nil => rfl
  | cons g t ih =>
    cases g with
    | rune c =>
      have ht : wellFormed t = true := by
        simpa [wellFormed, Glyph.isRune] using h
      simp only [decode_cons, text_cons, Glyph.toRune, ih ht]
    | byte b => simp [wellFormed, Glyph.isRune] at h

theorem slice_text (r : Runes) (b e : Nat) : slice (text r) b e = text (slice r b e) := by
  simp [slice, text, List.map_take, List.map_drop]

theorem drop_text (r : Runes) (n : Nat) : (text r).drop n = text (r.drop n) := by
  simp [text, List.map_drop]

theorem quoteMeta_text (r : Runes) : quoteMeta (text r) = litRe r := by
  simp [quoteMeta, litRe, text, Function.comp_def]

@[simp] theorem orElse_none_left (b : MatchResult) : orElse none b = b := rfl

@[simp] theorem orElse_some_left (r : Nat × Caps) (b : MatchResult) :
    orElse (some r) b = some r := rfl

@[simp] theorem orElse_none_right (a : MatchResult) : orElse a none = a := by
  cases a <;> rfl

theorem run_catRe_cons (r : Re) (rs : List Re) (g pos : Nat) (s : Runes) (caps : Caps)
    (k : Cont) :
    (catRe (r :: rs)).run g pos s caps k =
      r.run g pos s caps (fun p1 s1 c1 => (catRe rs).run (g + r.numGroups) p1 s1 c1 k) := rfl

theorem numGroups_litRe (L : Runes) : (litRe L).numGroups = 0 := by
  induction L with
  | nil => rfl
  | cons c t ih =>
    simp only [litRe, List.map_cons, catRe, Re.numGroups] at ih ⊢
    simpa using ih

/-- A literal consumes exactly its own text. -/
theorem run_litRe_append (L r : Runes) (g pos : Nat) (caps : Caps) (k : Cont) :
    (litRe L).run g pos (L ++ r) caps k = k (pos + L.length) r caps := by
  induction L generalizing pos g with
  | nil => simp [litRe, catRe, Re.run]
  | cons c t ih =>
    have h := ih (g + 0) (pos + 1)
    simp only [litRe] at h
    simp only [litRe, List.map_cons, catRe, Re.run, List.cons_append, if_true, Re.numGroups, h,
      List.length_cons]
    congr 1
    omega

/-- A literal matches only a text that starts with it. -/
theorem run_litRe_some (L s : Runes) (g pos : Nat) (caps : Caps) (k : Cont)
    (res : Nat × Caps) (h : (litRe L).run g pos s caps k = some res) :
    ∃ r, s = L ++ r ∧ k (pos + L.length) r caps = some res := by
  induction L generalizing pos g s with
  | nil => exact ⟨s, rfl, by simpa [litRe, catRe, Re.run] using h⟩
  | cons c t ih =>
    cases s with
    | nil => simp [litRe, catRe, Re.run] at h
    | cons d s1 =>
      simp only [litRe, List.map_cons, catRe, Re.run, Re.numGroups] at h
      by_cases hd : d = c
      · simp only [hd, if_true] at h
        obtain ⟨r, hr, hk⟩ := ih s1 (g + 0) (pos + 1) h
        refine ⟨r, by simp [hd, hr], ?_⟩
        rw [← hk]
        congr 1
        simp only [List.length_cons]
        omega
      · simp [hd] at h

/-! ## Facts about the directive scanner -/

theorem matchAt_placeholderRe_nil (pos : Nat) : matchAt placeholderRe pos [] = none := rfl

/-- A directive starts with `%`. -/
theorem matchAt_placeholderRe_ne (pos : Nat) (c : Char) (t : Runes) (h : c ≠ '%') :
    matchAt placeholderRe pos (c :: t) = none := by
  simp [matchAt, placeholderRe, Re.run, h]

theorem search_placeholderRe_skip (L s : Runes) (pos : Nat) (h : '%' ∉ L) :
    search placeholderRe pos (L ++ s) = search placeholderRe (pos + L.length) s := by
  induction L generalizing pos with
  | nil => simp
  | cons c t ih =>
    have hc : c ≠ '%' := fun e => h (by simp [e])
    have ht : '%' ∉ t := fun e => h (by simp [e])
    rw [List.cons_append, search, matchAt_placeholderRe_ne pos c _ hc]
    simp only []
    rw [ih (pos + 1) ht, List.length_cons, show pos + 1 + t.length = pos + (t.length + 1) by omega]

theorem search_placeholderRe_none (L : Runes) (pos : Nat) (h : '%' ∉ L) :
    search placeholderRe pos L = none := by
  have := search_placeholderRe_skip L [] pos h
  simpa [search, matchAt_placeholderRe_nil] using this

theorem matchAt_placeholderRe_d (pos : Nat) (t : Runes) :
    matchAt placeholderRe pos ('%' :: 'd' :: t) = some (pos + 2, []) := by
  simp [matchAt, placeholderRe, Re.run, isFlagChar, isDigit, isVerbChar]

/-! ## Repetition against a continuation that fixes the length of the rest -/

theorem starLoop_greedy_short (p : Char → Bool) (k : Cont) (n : Nat)
    (hk : ∀ pos1 s1 c1, s1.length ≠ n → k pos1 s1 c1 = none) (s : Runes) (pos : Nat)
    (caps : Caps) (hs : s.length < n) : starLoop p true s pos caps k = none := by
  induction s generalizing pos with
  | nil => exact hk _ _ _ (by simpa using (Nat.ne_of_lt hs))
  | cons c t ih =>
    have h1 : k pos (c :: t) caps = none := hk _ _ _ (Nat.ne_of_lt hs)
    have h2 : starLoop p true t (pos + 1) caps k = none :=
      ih (pos + 1) (by simp only [List.length_cons] at hs; omega)
    simp [starLoop, h1, h2]

/-- A greedy repetition whose continuation only accepts a rest of length `n` hands over
exactly at that rest. -/
theorem starLoop_greedy_exact (p : Char → Bool) (k : Cont) (n : Nat)
    (hk : ∀ pos1 s1 c1, s1.length ≠ n → k pos1 s1 c1 = none) (w s1 : Runes) (pos : Nat)
    (caps : Caps) (hw : ∀ c ∈ w, p c = true) (hs : s1.length = n) :
    starLoop p true (w ++ s1) pos caps k = k (pos + w.length) s1 caps := by
  induction w generalizing pos with
  | nil =>
    cases s1 with
    | nil => simp [starLoop]
    | cons c t =>
      have h2 : starLoop p true t (pos + 1) caps k = none :=
        starLoop_greedy_short p k n hk t (pos + 1) caps (by simp only [List.length_cons] at hs; omega)
      simp [starLoop, h2]
  | cons c w1 ih =>
    have hc : p c = true := hw c (by simp)
    have h1 : k pos (c :: (w1 ++ s1)) caps = none :=
      hk _ _ _ (by simp only [List.length_cons, List.length_append]; omega)
    have h2 := ih (pos + 1) (fun d hd => hw d (by simp [hd]))
    rw [List.cons_append, starLoop]
    simp only [hc, if_true, h1, orElse_none_right, h2, List.length_cons]
    rw [show pos + 1 + w1.length = pos + (w1.length + 1) by omega]

/-- The end of an anchored pattern: a literal and the end of the text. -/
theorem run_lit_eol (L s : Runes) (g pos : Nat) (caps : Caps) :
    (catRe [litRe L, Re.eol]).run g pos s caps (fun e _ c => some (e, c)) =
      if s = L then some (pos + L.length, caps) else none := by
  by_cases h : s = L
  · subst h
    have := run_litRe_append s [] g pos caps
      (fun p1 s1 c1 => (catRe [Re.eol]).run (g + (litRe s).numGroups) p1 s1 c1
        (fun e _ c => some (e, c)))
    simp only [List.append_nil] at this
    rw [run_catRe_cons, this]
    simp [catRe, Re.run]
  · simp only [h, if_false]
    cases hr : (catRe [litRe L, Re.eol]).run g pos s caps (fun e _ c => some (e, c)) with
    | none => rfl
    | some res =>
      rw [run_catRe_cons] at hr
      obtain ⟨r, hs, hk⟩ := run_litRe_some L s g pos caps _ res hr
      cases r with
      | nil => exact absurd (by simpa using hs) h
      | cons d r1 => simp [catRe, Re.run] at hk

theorem run_lit_eol_length (L s : Runes) (g pos : Nat) (caps : Caps)
    (h : s.length ≠ L.length) :
    (catRe [litRe L, Re.eol]).run g pos s caps (fun e _ c => some (e, c)) = none := by
  rw [run_lit_eol, if_neg]
  intro e
  exact h (by rw [e])

/-- A literal piece that is written only when it is not empty. -/
theorem run_catRe_optLit (c : Prop) [Decidable c] (L : Runes) (rs : List Re)
    (hL : ¬ c → L = []) (g pos : Nat) (s : Runes) (caps : Caps) (k : Cont) :
    (catRe ((if c then [litRe L] else []) ++ rs)).run g pos s caps k =
      (catRe (litRe L :: rs)).run g pos s caps k := by
  by_cases hc : c
  · simp [hc]
  · simp [hc, hL hc, litRe, catRe, Re.run, Re.numGroups]

theorem numGroups_catRe_optLit (c : Prop) [Decidable c] (L : Runes) (rs : List Re) :
    (catRe ((if c then [litRe L] else []) ++ rs)).numGroups = (catRe rs).numGroups := by
  by_cases hc : c
  · simp [hc, catRe, Re.numGroups, numGroups_litRe]
  · simp [hc]

/-- A pattern that starts with `^` matches at the start of the text only. -/
theorem search_bol_pos (rs : List Re) (pos : Nat) (s : Runes) (h : 0 < pos) :
    search (catRe (Re.bol :: rs)) pos s = none := by
  induction s generalizing pos with
  | nil => simp [search, matchAt, catRe, Re.run, Nat.ne_of_gt h]
  | cons c t ih =>
    have hm : matchAt (catRe (Re.bol :: rs)) pos (c :: t) = none := by
      simp [matchAt, catRe, Re.run, Nat.ne_of_gt h]
    rw [search, hm]
    exact ih (pos + 1) (by omega)

theorem search_bol_zero (rs : List Re) (s : Runes) :
    search (catRe (Re.bol :: rs)) 0 s =
      (matchAt (catRe (Re.bol :: rs)) 0 s).map (fun r => (0, r.1, r.2)) := by
  cases s with
  | nil => cases h : matchAt (catRe (Re.bol :: rs)) 0 [] <;> simp [search, h]
  | cons c t =>
    cases h : matchAt (catRe (Re.bol :: rs)) 0 (c :: t) <;>
      simp [search, h, search_bol_pos rs 1 t (by omega)]

/-! ## The loop of `FindAllStringIndex` -/

theorem allMatchesLoop_none (re : Re) (fuel pos : Nat) (s : Runes) (prev : Option Nat)
    (h : search re pos s = none) : allMatchesLoop re (fuel + 1) pos s prev = [] := by
  simp [allMatchesLoop, h]

theorem allMatchesLoop_step (re : Re) (fuel pos b e : Nat) (c : Caps) (s : Runes)
    (prev : Option Nat) (h : search re pos s = some (b, e, c)) (he : e ≠ pos) :
    allMatchesLoop re (fuel + 1) pos s prev =
      (b, e) :: allMatchesLoop re fuel e (s.drop (e - pos)) (some e) := by
  simp [allMatchesLoop, h, he]

/-- The scanner finds the one directive of a template `L1 ++ "%d" ++ L2` without other `%`. -/
theorem scan_single_d (L1 L2 : Runes) (h1 : '%' ∉ L1) (h2 : '%' ∉ L2) :
    findAllStringIndex placeholderRe (L1 ++ '%' :: 'd' :: L2) =
      [(L1.length, L1.length + 2)] := by
  have hs : search placeholderRe 0 (L1 ++ '%' :: 'd' :: L2) =
      some (L1.length, L1.length + 2, []) := by
    rw [search_placeholderRe_skip L1 _ 0 h1, search, matchAt_placeholderRe_d]
    simp
  have hlen : (L1 ++ '%' :: 'd' :: L2).length + 1 = (L1.length + L2.length + 1) + 1 + 1 := by
    simp only [List.length_append, List.length_cons]; omega
  rw [findAllStringIndex, hlen, allMatchesLoop_step _ _ _ _ _ _ _ _ hs (by omega)]
  have hd : (L1 ++ '%' :: 'd' :: L2).drop (L1.length + 2 - 0) = L2 := by
    rw [Nat.sub_zero, ← List.drop_drop, List.drop_left]
    rfl
  rw [hd, allMatchesLoop_none _ _ _ _ _ (search_placeholderRe_none L2 _ h2)]

theorem slice_left {α : Type} (L1 rest : List α) : slice (L1 ++ rest) 0 L1.length = L1 := by
  simp [slice]

theorem slice_mid {α : Type} (L1 D L2 : List α) :
    slice (L1 ++ D ++ L2) L1.length (L1.length + D.length) = D := by
  simp [slice, List.append_assoc]

theorem drop_right {α : Type} (L1 D L2 : List α) :
    (L1 ++ D ++ L2).drop (L1.length + D.length) = L2 := by
  rw [← List.length_append, List.drop_left]

/-! ## Templates with a single directive -/

/-- Patterns with the same matches and the same number of groups give the same submatches. -/
theorem findStringSubmatch_congr (r1 r2 : Re) (hn : r1.numGroups = r2.numGroups)
    (hm : ∀ pos s, matchAt r1 pos s = matchAt r2 pos s) (msg : GoString) :
    findStringSubmatch r1 msg = findStringSubmatch r2 msg := by
  have hs : ∀ s pos, search r1 pos s = search r2 pos s := by
    intro s
    induction s with
    | nil => intro pos; simp [search, hm]
    | cons c t ih => intro pos; simp [search, hm, ih]
  simp [findStringSubmatch, hs, hn]

theorem valid_catRe (rs : List Re) (h : ∀ r ∈ rs, r.valid = true) : (catRe rs).valid = true := by
  induction rs with
  | nil => rfl
  | cons r t ih =>
    simp only [catRe, Re.valid, Bool.and_eq_true]
    exact ⟨h r (by simp), ih (fun x hx => h x (by simp [hx]))⟩

theorem valid_litRe (r : Runes) : (litRe r).valid = true := by
  apply valid_catRe
  intro x hx
  simp only [List.mem_map] at hx
  obtain ⟨c, _, rfl⟩ := hx
  rfl

theorem valid_getCapturePattern (info : placeholderInfo) :
    (getCapturePattern info).valid = true := by
  unfold getCapturePattern
  split_ifs <;> simp [Re.valid, valid_litRe]

/-- The pattern built from a well-formed template has no ill-formed byte. -/
theorem valid_patternPieces (T : Runes) (ms : List (Nat × Nat)) (pos : Nat) :
    ∀ r ∈ patternPieces (text T) ms pos, r.valid = true := by
  induction ms generalizing pos with
  | nil =>
    intro r hr
    simp only [patternPieces, drop_text, quoteMeta_text, List.mem_append,
      List.mem_singleton] at hr
    rcases hr with hr | hr
    · split_ifs at hr
      · rw [List.mem_singleton.mp hr]; exact valid_litRe _
      · simp at hr
    · rw [hr]; rfl
  | cons m ms ih =>
    intro r hr
    simp only [patternPieces, slice_text, quoteMeta_text, List.mem_append, List.mem_cons] at hr
    rcases hr with hr | hr | hr
    · split_ifs at hr
      · rw [List.mem_singleton.mp hr]; exact valid_litRe _
      · simp at hr
    · rw [hr]
      split_ifs
      · rfl
      · exact valid_getCapturePattern _
    · exact ih _ r hr

/-- The pattern built from a well-formed template compiles. -/
theorem regexpCompile_text (T : Runes) (ms : List (Nat × Nat)) :
    regexpCompile (buildExtractionPattern (text T) ms) =
      some (buildExtractionPattern (text T) ms) := by
  have hv : (buildExtractionPattern (text T) ms).valid = true := by
    rw [buildExtractionPattern]
    apply valid_catRe
    intro r hr
    rcases List.mem_cons.mp hr with h | h
    · rw [h]; rfl
    · exact valid_patternPieces T ms 0 r h
  simp [regexpCompile, hv]

theorem buildExtractionPattern_single (L1 D L2 : Runes) (hD : D ≠ "%%".toList)
    (msg : GoString) :
    findStringSubmatch
        (buildExtractionPattern (text (L1 ++ D ++ L2)) [(L1.length, L1.length + D.length)])
        msg =
      findStringSubmatch (singlePattern L1 D L2) msg := by
  have hsl : slice (L1 ++ D ++ L2) 0 L1.length = L1 := by
    rw [List.append_assoc]; exact slice_left L1 _
  have hD1 : ¬ text D = text "%%".toList := fun e => hD (text_injective _ _ e)
  have hpieces : patternPieces (text (L1 ++ D ++ L2)) [(L1.length, L1.length + D.length)] 0 =
      (if 0 < L1.length then [litRe L1] else []) ++
        getCapturePattern (parsePlaceholder (text D)) ::
          ((if L1.length + D.length < (L1 ++ D ++ L2).length then [litRe L2] else []) ++
            [Re.eol]) := by
    simp only [patternPieces, slice_text, drop_text, quoteMeta_text, length_text, hsl,
      slice_mid, drop_right, if_neg hD1]
  apply findStringSubmatch_congr
  · simp only [buildExtractionPattern, hpieces, singlePattern, catRe, Re.numGroups,
      numGroups_catRe_optLit, numGroups_litRe]
    simp [catRe, Re.numGroups]
  · intro pos s
    simp only [buildExtractionPattern, hpieces, singlePattern, matchAt]
    rw [run_catRe_cons, run_catRe_cons]
    congr 1
    funext p1 s1 c1
    rw [run_catRe_optLit _ _ _ (by intro h; exact List.length_eq_zero.mp (by omega)),
      run_catRe_cons, run_catRe_cons]
    congr 1
    funext p2 s2 c2
    rw [run_catRe_cons, run_catRe_cons]
    congr 1
    funext p3 s3 c3
    rw [run_catRe_optLit _ _ _ (by
      intro h
      apply List.length_eq_zero.mp
      simp only [List.length_append] at h
      omega)]

/-- Extraction against a well-formed template with one real placeholder. -/
theorem extractValues_single (lib : GoLib) (L1 D L2 : Runes) (msg : GoString)
    (hscan : findAllStringIndex placeholderRe (L1 ++ D ++ L2) =
      [(L1.length, L1.length + D.length)])
    (hD : D ≠ "%%".toList) :
    extractValues lib (text (L1 ++ D ++ L2)) msg =
      match findStringSubmatch (singlePattern L1 D L2) msg with
      | none => ([], some "message does not match template")
      | some submatches =>
        (convertCaptures lib submatches
          [{ parsePlaceholder (text D) with start := L1.length, stop := L1.length + D.length }]
          0, none) := by
  have hD1 : ¬ text D = text "%%".toList := fun e => hD (text_injective _ _ e)
  simp only [extractValues, decode_text, hscan, List.length_singleton, Nat.succ_ne_zero,
    if_false, regexpCompile_text, buildExtractionPattern_single L1 D L2 hD, parsePlaceholders,
    slice_text, slice_mid, ne_eq, hD1, not_false_eq_true, if_true]

theorem run_bol (g : Nat) (s : Runes) (caps : Caps) (k : Cont) :
    Re.bol.run g 0 s caps k = k 0 s caps := rfl

theorem run_group (a : Re) (g pos : Nat) (s : Runes) (caps : Caps) (k : Cont) :
    (Re.group a).run g pos s caps k =
      a.run (g + 1) pos s caps
        (fun pos1 s1 caps1 => k pos1 s1 ((g, pos, pos1) :: caps1)) := rfl

theorem run_plus_cons (p : Char → Bool) (greedy : Bool) (g pos : Nat) (d : Char) (t : Runes)
    (caps : Caps) (k : Cont) :
    (Re.plus p greedy).run g pos (d :: t) caps k =
      if p d then starLoop p greedy t (pos + 1) caps k else none := rfl

theorem capture_plain_d :
    getCapturePattern (parsePlaceholder (text "%d".toList)) =
      Re.group (Re.plus isNonSpace true) := rfl

/-- The submatches reported for a match of the whole text with one group. -/
theorem submatches_one (re : Re) (L1 L2 v : GoString) (hg : re.numGroups = 1)
    (hs : search re 0 (decode (L1 ++ v ++ L2)) =
      some (0, (L1 ++ v ++ L2).length, [(1, L1.length, L1.length + v.length)])) :
    findStringSubmatch re (L1 ++ v ++ L2) = some [L1 ++ v ++ L2, v] := by
  rw [findStringSubmatch, hs, hg]
  simp [capText, List.lookup, List.range_succ, slice, List.append_assoc]

/-- The capture of an unmodified `%d` is the text between the literals. -/
theorem submatch_single_d (L1 L2 : Runes) (v : GoString) (hv : v ≠ [])
    (hns : ∀ c ∈ decode v, isNonSpace c = true) :
    findStringSubmatch (singlePattern L1 "%d".toList L2) (text L1 ++ v ++ text L2) =
      some [text L1 ++ v ++ text L2, v] := by
  have hv1 : decode v ≠ [] := by
    intro e; apply hv; simpa [decode] using e
  obtain ⟨c, w, hcw⟩ := List.exists_cons_of_ne_nil hv1
  have hc : isNonSpace c = true := hns c (by simp [hcw])
  have hw : ∀ d ∈ w, isNonSpace d = true := fun d hd => hns d (by simp [hcw, hd])
  have hlen : v.length = w.length + 1 := by
    rw [← length_decode, hcw]; rfl
  have hm : matchAt (singlePattern L1 "%d".toList L2) 0 (L1 ++ (c :: w) ++ L2) =
      some ((text L1 ++ v ++ text L2).length,
        [(1, (text L1).length, (text L1).length + v.length)]) := by
    rw [singlePattern, capture_plain_d, matchAt, run_catRe_cons, run_bol, run_catRe_cons,
      List.append_assoc, run_litRe_append, run_catRe_cons, run_group, List.cons_append,
      run_plus_cons, if_pos hc,
      starLoop_greedy_exact isNonSpace _ L2.length _ w L2 _ _ hw rfl]
    · rw [run_lit_eol, if_pos rfl]
      simp only [List.length_append, length_text, hlen, Nat.zero_add, Option.some.injEq,
        Prod.mk.injEq, and_true]
      refine ⟨by omega, ?_⟩
      simp only [Re.numGroups, numGroups_litRe]
      rw [show L1.length + 1 + w.length = L1.length + (w.length + 1) by omega]
    · intro pos1 s1 c1 h
      exact run_lit_eol_length _ _ _ _ _ h
  have hg : (singlePattern L1 "%d".toList L2).numGroups = 1 := by
    rw [singlePattern, capture_plain_d]
    simp [catRe, Re.numGroups, numGroups_litRe]
  apply submatches_one _ _ _ _ hg
  rw [singlePattern, search_bol_zero, ← singlePattern]
  simp only [decode_append, decode_text, hcw, hm, Option.map_some']

/-! ## Decimal digits: `strconv.Itoa` and `strconv.Atoi` -/

theorem isDigit_iff (c : Char) : isDigit c = true ↔ 48 ≤ c.toNat ∧ c.toNat ≤ 57 := by
  simp only [isDigit, Bool.and_eq_true, decide_eq_true_eq, Char.le_def]
  exact Iff.rfl

theorem decDigit_digitChar (d : Nat) (h : d < 10) : decDigit (digitChar false d) = some d := by
  interval_cases d <;> rfl

theorem isDigit_digitChar (d : Nat) (h : d < 10) : isDigit (digitChar false d) = true := by
  interval_cases d <;> rfl

theorem parseDigitsFrom_append (digit : Char → Option Nat) (base : Nat) (xs ys : Runes)
    (a : Nat) :
    parseDigitsFrom digit base (xs ++ ys) a =
      (parseDigitsFrom digit base xs a).bind (parseDigitsFrom digit base ys) := by
  induction xs generalizing a with
  | nil => rfl
  | cons c t ih =>
    simp only [List.cons_append, parseDigitsFrom]
    cases digit c with
    | none => rfl
    | some d => exact ih _

theorem natDigitsFrom_acc (base : Nat) (upper : Bool) (fuel n : Nat) (acc : Runes) :
    natDigitsFrom base upper fuel n acc = natDigitsFrom base upper fuel n [] ++ acc := by
  induction fuel generalizing n acc with
  | zero => rfl
  | succ f ih =>
    simp only [natDigitsFrom]
    split
    · rfl
    · rw [ih (n / base) (_ :: acc), ih (n / base) [_]]
      simp

theorem parse_natDigitsFrom (fuel n : Nat) (h : n < fuel) :
    parseDigitsFrom decDigit 10 (natDigitsFrom 10 false fuel n []) 0 = some n := by
  induction fuel generalizing n with
  | zero => omega
  | succ f ih =>
    simp only [natDigitsFrom]
    split
    · rename_i hlt
      simp [parseDigitsFrom, decDigit_digitChar n hlt]
    · rename_i hge
      have hf : n / 10 < f := by omega
      rw [natDigitsFrom_acc, parseDigitsFrom_append, ih _ hf]
      simp only [Option.bind, parseDigitsFrom, decDigit_digitChar _ (Nat.mod_lt n (by omega))]
      congr 1
      omega

theorem natDigitsFrom_digits (fuel n : Nat) (acc : Runes)
    (hacc : ∀ c ∈ acc, isDigit c = true) :
    ∀ c ∈ natDigitsFrom 10 false fuel n acc, isDigit c = true := by
  induction fuel generalizing n acc with
  | zero => simpa [natDigitsFrom] using hacc
  | succ f ih =>
    simp only [natDigitsFrom]
    split
    · rename_i hlt
      intro c hc
      rcases List.mem_cons.mp hc with rfl | hc
      · exact isDigit_digitChar n hlt
      · exact hacc c hc
    · apply ih
      intro c hc
      rcases List.mem_cons.mp hc with rfl | hc
      · exact isDigit_digitChar _ (Nat.mod_lt n (by omega))
      · exact hacc c hc

theorem natDigits_digits (n : Nat) : ∀ c ∈ natDigits 10 false n, isDigit c = true :=
  natDigitsFrom_digits (n + 1) n [] (by simp)

theorem natDigitsFrom_ne_nil (base : Nat) (upper : Bool) (fuel n : Nat) (acc : Runes) :
    natDigitsFrom base upper (fuel + 1) n acc ≠ [] := by
  induction fuel generalizing n acc with
  | zero =>
    simp only [natDigitsFrom]
    split <;> simp
  | succ f ih =>
    rw [natDigitsFrom]
    split
    · simp
    · exact ih _ _

theorem natDigits_ne_nil (n : Nat) : natDigits 10 false n ≠ [] :=
  natDigitsFrom_ne_nil 10 false n n []

theorem parseDigits_natDigits (n : Nat) :
    parseDigits decDigit 10 (natDigits 10 false n) = some n := by
  have h := parse_natDigitsFrom (n + 1) n (by omega)
  have hne := natDigits_ne_nil n
  unfold natDigits at hne ⊢
  cases hd : natDigitsFrom 10 false (n + 1) n [] with
  | nil => exact absurd hd hne
  | cons c t => rw [hd] at h; simpa [parseDigits] using h

theorem isDigit_ne_sign (c : Char) (h : isDigit c = true) : c ≠ '-' ∧ c ≠ '+' := by
  rw [isDigit_iff] at h
  constructor <;> rintro rfl <;> revert h <;> decide

/-- `Atoi` reads back what `Itoa` writes. -/
theorem atoi_itoa (n : Int) (h : inInt64 n = true) : atoi (itoa n) = some n := by
  have hp := parseDigits_natDigits n.natAbs
  have hne := natDigits_ne_nil n.natAbs
  have hdig := natDigits_digits n.natAbs
  unfold atoi parseInt
  have hs : parseSigned decDigit 10 (itoa n) = some n := by
    unfold itoa
    by_cases hn : n < 0
    · simp only [hn, if_true, parseSigned, hp, Option.some.injEq]
      omega
    · simp only [hn, if_false]
      cases hd : natDigits 10 false n.natAbs with
      | nil => exact absurd hd hne
      | cons c t =>
        have hc := isDigit_ne_sign c (hdig c (by simp [hd]))
        rw [hd] at hp
        simp only [parseSigned, hc.1, hc.2, if_false, hp, Option.some.injEq]
        omega
  rw [hs]
  simp [h]

/-! ## White space -/

theorem isNonSpace_of_lt (c : Char) (h : 32 < c.toNat) : isNonSpace c = true := by
  unfold isNonSpace isReSpace
  simp only [Bool.not_eq_true', Bool.or_eq_false_iff, decide_eq_false_iff_not]
  refine ⟨⟨⟨⟨?_, ?_⟩, ?_⟩, ?_⟩, ?_⟩ <;> (rintro rfl; revert h; decide)

theorem isSpace_digit (c : Char) (h : isDigit c = true) : isSpace c = false := by
  rw [isDigit_iff] at h
  simp only [isSpace, Bool.or_eq_false_iff, Bool.and_eq_false_iff, decide_eq_false_iff_not]
  omega

theorem mem_decode (g : Glyph) (s : GoString) (h : g ∈ s) : g.toRune ∈ decode s :=
  List.mem_map_of_mem _ h

theorem trimSpace_eq_self (s : GoString) (h : ∀ c ∈ decode s, isSpace c = false) :
    trimSpace s = s := by
  have hdrop : ∀ t : GoString, (∀ c ∈ decode t, isSpace c = false) →
      t.dropWhile (fun g => isSpace g.toRune) = t := by
    intro t ht
    cases t with
    | nil => rfl
    | cons c u => simp [List.dropWhile, ht c.toRune (by simp)]
  unfold trimSpace
  rw [hdrop s h, hdrop s.reverse (fun c hc => h c (by simpa [decode] using hc)),
    List.reverse_reverse]

theorem itoa_chars (n : Int) : ∀ c ∈ itoa n, c = '-' ∨ isDigit c = true := by
  intro c hc
  unfold itoa at hc
  split at hc
  · rcases List.mem_cons.mp hc with rfl | hc
    · exact Or.inl rfl
    · exact Or.inr (natDigits_digits _ c hc)
  · exact Or.inr (natDigits_digits _ c hc)

theorem itoa_ne_nil (n : Int) : itoa n ≠ [] := by
  unfold itoa
  split
  · simp
  · exact natDigits_ne_nil _

theorem itoa_isNonSpace (n : Int) : ∀ c ∈ itoa n, isNonSpace c = true := by
  intro c hc
  rcases itoa_chars n c hc with rfl | h
  · rfl
  · exact isNonSpace_of_lt c (by rw [isDigit_iff] at h; omega)

theorem itoa_isSpace (n : Int) : ∀ c ∈ itoa n, isSpace c = false := by
  intro c hc
  rcases itoa_chars n c hc with rfl | h
  · rfl
  · exact isSpace_digit c h

/-- Extraction against `L1 ++ "%d" ++ L2`: the text between the literals is converted. -/
theorem extractValues_single_d (lib : GoLib) (L1 L2 : Runes) (v : GoString) (h1 : '%' ∉ L1)
    (h2 : '%' ∉ L2) (hv : v ≠ []) (hns : ∀ c ∈ decode v, isNonSpace c = true) :
    extractValues lib (text (L1 ++ "%d".toList ++ L2)) (text L1 ++ v ++ text L2) =
      ([convertValue lib v 'd'], none) := by
  have hscan : findAllStringIndex placeholderRe (L1 ++ "%d".toList ++ L2) =
      [(L1.length, L1.length + "%d".toList.length)] := by
    have := scan_single_d L1 L2 h1 h2
    simpa using this
  rw [extractValues_single lib L1 "%d".toList L2 _ hscan (by decide),
    submatch_single_d L1 L2 v hv hns]
  rfl

/-! ## `strconv.Atoi` against the notion of a base-10 literal -/

theorem parseDigitsFrom_eq (s : Runes) (a : Nat) :
    parseDigitsFrom decDigit 10 s a =
      if s.all isDigit then some (s.foldl (fun a c => a * 10 + (c.toNat - 48)) a) else none := by
  induction s generalizing a with
  | nil => rfl
  | cons c t ih =>
    by_cases hc : isDigit c = true
    · simp [parseDigitsFrom, decDigit, hc, ih]
    · simp [parseDigitsFrom, decDigit, hc]

theorem parseDigits_eq (s : Runes) :
    parseDigits decDigit 10 s =
      if !s.isEmpty && s.all isDigit then some (decimalValue s) else none := by
  cases s with
  | nil => rfl
  | cons c t => simp [parseDigits, parseDigitsFrom_eq, decimalValue]

/-- `Atoi` succeeds exactly on the base-10 literals in the range of `int`, with their value. -/
theorem atoi_eq (s : Runes) :
    atoi s =
      if isDecimalLiteral s && inInt64 (decimalLiteralValue s) then some (decimalLiteralValue s)
      else none := by
  cases s with
  | nil => rfl
  | cons c t =>
    unfold atoi parseInt parseSigned
    by_cases hm : c = '-'
    · subst hm
      simp only [if_true, parseDigits_eq, isDecimalLiteral, decimalLiteralValue, or_true]
      by_cases hd : (!t.isEmpty && t.all isDigit) = true
      · simp only [hd, if_true, Bool.true_and]
      · simp [hd]
    · by_cases hp : c = '+'
      · subst hp
        simp only [if_true, hm, if_false, parseDigits_eq, isDecimalLiteral, decimalLiteralValue,
          true_or]
        by_cases hd : (!t.isEmpty && t.all isDigit) = true
        · simp only [hd, if_true, Bool.true_and]
        · simp [hd]
      · simp only [hm, hp, if_false, parseDigits_eq, isDecimalLiteral, decimalLiteralValue,
          or_self]
        by_cases hd : ((c :: t).all isDigit) = true
        · simp [hd]
        · simp [hd]

/-! ## Type mismatch under `%d` -/

theorem sprintf_n_eq_s (lib : GoLib) (v : GoString) :
    sprintf lib (text "n=%s".toList) [Value.str v] = text "n=".toList ++ v := by
  simp [sprintf, doPrintf, directive, parseFlags, parsenum, parsenumLoop, isDigit, printArg,
    fmtS, padString, FmtFlags.clear, extraArgs, text, Glyph.toRune]

theorem adjustValues_n_eq_s (lib : GoLib) (x : lib.Val) :
    adjustValues lib (text "n=%s".toList) [x] = [x] := by
  have hc : countPlaceholders (findAllString placeholderRe (text "n=%s".toList)) = 1 := by
    decide
  simp only [adjustValues, hc]
  simp

/-- C10: for a non-empty `v` without white space that is no base-10 integer literal in the
range of `int`, `Sreprintf("Count: %d", "Count: " + v, "n=%s")` succeeds and returns
`"n=" + v`. -/
theorem Sreprintf_percent_d_mismatch (lib : GoLib) (v : GoString) (hv : v ≠ [])
    (hre : ∀ c ∈ decode v, isReSpace c = false) (hsp : ∀ c ∈ decode v, isSpace c = false)
    (hlit : ¬ (isDecimalLiteral (decode v) = true ∧
      inInt64 (decimalLiteralValue (decode v)) = true)) :
    Sreprintf lib (text "Count: %d".toList) (text "Count: ".toList ++ v)
        (text "n=%s".toList) =
      (text "n=".toList ++ v, none) := by
  have hx := extractValues_single_d lib "Count: ".toList [] v (by decide) (by simp) hv
    (fun c hc => by simp [isNonSpace, hre c hc])
  have hcv : convertValue lib v 'd' = Value.str v := by
    have ha : atoi (decode v) = none := by
      rw [atoi_eq, if_neg]
      simpa using hlit
    simp [convertValue, trimSpace_eq_self v hsp, ha]
  have hx2 : extractValues lib (text "Count: %d".toList) (text "Count: ".toList ++ v) =
      ([Value.str v], none) := by
    rw [← hcv, ← hx]
    simp
  simp only [Sreprintf, hx2, applyValues, adjustValues_n_eq_s, sprintf_n_eq_s]

/-- C10 at `v = "abc"`. -/
theorem Sreprintf_percent_d_mismatch_witness :
    (text "abc".toList ≠ [] ∧ (∀ c ∈ decode (text "abc".toList), isReSpace c = false) ∧
        (∀ c ∈ decode (text "abc".toList), isSpace c = false) ∧
        ¬ (isDecimalLiteral (decode (text "abc".toList)) = true ∧
          inInt64 (decimalLiteralValue (decode (text "abc".toList))) = true)) ∧
      Sreprintf sampleLib (text "Count: %d".toList) (text "Count: abc".toList)
          (text "n=%s".toList) =
        (text "n=abc".toList, none) :=
  ⟨⟨by decide, by decide, by decide, by decide⟩,
    Sreprintf_percent_d_mismatch sampleLib (text "abc".toList) (by decide) (by decide)
      (by decide) (by decide)⟩

/-! ## Count reconciliation -/

theorem countPlaceholders_eq (ms : List GoString) :
    countPlaceholders ms = (ms.filter (fun m => decide (m ≠ text "%%".toList))).length := by
  induction ms with
  | nil => rfl
  | cons m t ih =>
    by_cases h : m = text "%%".toList
    · rw [countPlaceholders, if_neg (not_not.mpr h), ih, List.filter_cons, if_neg]
      simp only [decide_eq_true_eq]
      exact not_not.mpr h
    · rw [countPlaceholders, if_pos h, ih, List.filter_cons, if_pos (decide_eq_true h)]
      rfl

/-- C1: with `M` the number of directives other than `%%` that the scanner finds in the
translation and `K` the number of values, the sequence `applyValues` hands to the formatter
has length `M`; its first `min(K,M)` entries are the first `min(K,M)` values in their order,
and every remaining entry is the empty string. -/
theorem applyValues_count_reconciliation (lib : GoLib) (translation : GoString)
    (values : List lib.Val) :
    applyValues lib translation values =
        (sprintf lib translation (adjustValues lib translation values), none) ∧
      countPlaceholders (findAllString placeholderRe translation) =
        ((findAllString placeholderRe translation).filter
          (fun m => decide (m ≠ text "%%".toList))).length ∧
      (adjustValues lib translation values).length =
        countPlaceholders (findAllString placeholderRe translation) ∧
      (adjustValues lib translation values).take
          (min values.length (countPlaceholders (findAllString placeholderRe translation))) =
        values.take
          (min values.length (countPlaceholders (findAllString placeholderRe translation))) ∧
      (adjustValues lib translation values).drop
          (min values.length (countPlaceholders (findAllString placeholderRe translation))) =
        List.replicate
          (countPlaceholders (findAllString placeholderRe translation) -
            min values.length (countPlaceholders (findAllString placeholderRe translation)))
          (Value.str []) := by
  refine ⟨rfl, countPlaceholders_eq _, ?_⟩
  have hadj : adjustValues lib translation values =
      (if values.length > countPlaceholders (findAllString placeholderRe translation) then
          values.take (countPlaceholders (findAllString placeholderRe translation))
        else values) ++
        List.replicate
          (countPlaceholders (findAllString placeholderRe translation) -
            (if values.length > countPlaceholders (findAllString placeholderRe translation) then
              values.take (countPlaceholders (findAllString placeholderRe translation))
            else values).length)
          (Value.str []) := rfl
  rw [hadj]
  generalize countPlaceholders (findAllString placeholderRe translation) = M
  by_cases hk : values.length > M
  · have hmin : min values.length M = M := by omega
    have hlen : (values.take M).length = M := by rw [List.length_take]; omega
    simp only [hk, if_true, hmin, hlen, Nat.sub_self, List.replicate_zero, List.append_nil]
    refine ⟨trivial, ?_, ?_⟩
    · rw [List.take_take, Nat.min_self]
    · rw [List.drop_eq_nil_iff]
      exact Nat.le_of_eq hlen
  · have hmin : min values.length M = values.length := by omega
    simp only [hk, if_false, hmin]
    refine ⟨?_, ?_, ?_⟩
    · simp only [List.length_append, List.length_replicate]
      omega
    · rw [List.take_left, List.take_length]
    · rw [List.drop_left]

/-! ## Conversion -/

/-- C5: `convertValue(s, v)` always returns a value: an Integer or the String
`TrimSpace(s)` for `d`, `b`, `o`, `x`, `X`; a Float or that String for `f`, `F`, `e`, `E`,
`g`, `G`; a Boolean or that String for `t`; that String for every other verb.  For `d`, `b`,
`o` it is Integer `n` exactly when `TrimSpace(s)` is a base-10 integer literal in the range
of `int` denoting `n`, and the String `TrimSpace(s)` otherwise. -/
theorem convertValue_total_fallback (lib : GoLib) (s : GoString) (v : Char) :
    ((v = 'd' ∨ v = 'b' ∨ v = 'o' ∨ v = 'x' ∨ v = 'X') →
        (∃ n, convertValue lib s v = Value.int n) ∨
          convertValue lib s v = Value.str (trimSpace s)) ∧
      ((v = 'f' ∨ v = 'F' ∨ v = 'e' ∨ v = 'E' ∨ v = 'g' ∨ v = 'G') →
        (∃ x, convertValue lib s v = Value.float x) ∨
          convertValue lib s v = Value.str (trimSpace s)) ∧
      (v = 't' →
        (∃ b, convertValue lib s v = Value.bool b) ∨
          convertValue lib s v = Value.str (trimSpace s)) ∧
      (¬ (v = 'd' ∨ v = 'b' ∨ v = 'o' ∨ v = 'x' ∨ v = 'X' ∨ v = 'f' ∨ v = 'F' ∨ v = 'e' ∨
            v = 'E' ∨ v = 'g' ∨ v = 'G' ∨ v = 't') →
        convertValue lib s v = Value.str (trimSpace s)) ∧
      ((v = 'd' ∨ v = 'b' ∨ v = 'o') →
        convertValue lib s v =
          if isDecimalLiteral (decode (trimSpace s)) &&
              inInt64 (decimalLiteralValue (decode (trimSpace s))) then
            Value.int (decimalLiteralValue (decode (trimSpace s)))
          else Value.str (trimSpace s)) := by
  refine ⟨?_, ?_, ?_, ?_, ?_⟩
  · intro hv
    by_cases h1 : v = 'd' ∨ v = 'b' ∨ v = 'o'
    · simp only [convertValue, h1, if_true]
      cases atoi (decode (trimSpace s)) with
      | none => exact Or.inr rfl
      | some n => exact Or.inl ⟨n, rfl⟩
    · have h2 : v = 'x' ∨ v = 'X' := by tauto
      have h3 : ¬ (v = 'f' ∨ v = 'F' ∨ v = 'e' ∨ v = 'E' ∨ v = 'g' ∨ v = 'G') := by
        rcases h2 with rfl | rfl <;> decide
      have h4 : ¬ v = 't' := by rcases h2 with rfl | rfl <;> decide
      simp only [convertValue, h1, h2, h3, h4, if_true, if_false]
      cases parseInt hexDigit 16
          (decode (trimPrefix (trimPrefix (trimSpace s) (text "0x".toList))
            (text "0X".toList))) with
      | none => exact Or.inr rfl
      | some n => exact Or.inl ⟨n, rfl⟩
  · intro hv
    have h1 : ¬ (v = 'd' ∨ v = 'b' ∨ v = 'o') := by
      rcases hv with rfl | rfl | rfl | rfl | rfl | rfl <;> decide
    simp only [convertValue, h1, hv, if_true, if_false]
    cases lib.parseFloat (trimSpace s) with
    | none => exact Or.inr rfl
    | some x => exact Or.inl ⟨x, rfl⟩
  · intro hv
    subst hv
    have h1 : ¬ ('t' = 'd' ∨ 't' = 'b' ∨ 't' = 'o') := by decide
    have h3 : ¬ ('t' = 'f' ∨ 't' = 'F' ∨ 't' = 'e' ∨ 't' = 'E' ∨ 't' = 'g' ∨ 't' = 'G') := by
      decide
    simp only [convertValue, h1, h3, if_true, if_false]
    cases parseBool (decode (trimSpace s)) with
    | none => exact Or.inr rfl
    | some b => exact Or.inl ⟨b, rfl⟩
  · intro hv
    have h1 : ¬ (v = 'd' ∨ v = 'b' ∨ v = 'o') := by tauto
    have h2 : ¬ (v = 'x' ∨ v = 'X') := by tauto
    have h3 : ¬ (v = 'f' ∨ v = 'F' ∨ v = 'e' ∨ v = 'E' ∨ v = 'g' ∨ v = 'G') := by tauto
    have h4 : ¬ v = 't' := by tauto
    simp only [convertValue, h1, h2, h3, h4, if_false]
  · intro hv
    simp only [convertValue, hv, if_true, atoi_eq]
    by_cases hc : (isDecimalLiteral (decode (trimSpace s)) &&
        inInt64 (decimalLiteralValue (decode (trimSpace s)))) = true
    · simp only [hc, if_true]
    · simp [hc]

/-- C5 at the text `" 42 "` and the verb `d`. -/
theorem convertValue_total_fallback_witness :
    convertValue sampleLib (text " 42 ".toList) 'd' = Value.int 42 :=
  (convertValue_total_fallback sampleLib (text " 42 ".toList) 'd').2.2.2.2 (Or.inl rfl)

/-! ## Templates whose directives are all `%%` -/

theorem run_char_cons (c d : Char) (t : Runes) (g pos : Nat) (caps : Caps) (k : Cont) :
    (Re.char c).run g pos (d :: t) caps k = if d = c then k (pos + 1) t caps else none := rfl

theorem run_char_nil (c : Char) (g pos : Nat) (caps : Caps) (k : Cont) :
    (Re.char c).run g pos [] caps k = none := rfl

theorem slice_nil_of_le {α : Type} (s : List α) (a b : Nat) (h : ¬ a < b) :
    slice s a b = [] := by
  have : b - a = 0 := by omega
  simp [slice, this]

theorem wellFormed_append (a b : GoString) :
    wellFormed (a ++ b) = (wellFormed a && wellFormed b) := by
  simp [wellFormed]

/-- Strings of well-formed text with the same runes are the same. -/
theorem eq_of_decode_eq (a b : GoString) (ha : wellFormed a = true) (hb : wellFormed b = true)
    (h : decode a = decode b) : a = b := by
  rw [← text_decode a ha, ← text_decode b hb, h]

/-- A well-formed template filled with well-formed texts is well-formed. -/
theorem wellFormed_fillTemplate (T : Runes) (ms : List (Nat × Nat)) (pos : Nat)
    (caps : List GoString) (hc : ∀ c ∈ caps, wellFormed c = true) :
    wellFormed (fillTemplate (text T) ms pos caps) = true := by
  induction ms generalizing pos caps with
  | nil => simp [fillTemplate, drop_text]
  | cons m ms ih =>
    simp only [fillTemplate]
    split_ifs
    · rw [wellFormed_append, slice_text, wellFormed_text]
      have := ih m.2 caps hc
      simpa [wellFormed, Glyph.isRune] using this
    · rw [wellFormed_append, wellFormed_append, slice_text, wellFormed_text,
        ih m.2 caps.tail (fun c h => hc c (List.mem_of_mem_tail h))]
      cases caps with
      | nil => rfl
      | cons c t => simp [hc c (by simp)]

/-- When every directive is `%%` the pattern after `^` matches one text only. -/
theorem run_pieces_literal (T : Runes) (ms : List (Nat × Nat))
    (hall : ∀ m ∈ ms, slice T m.1 m.2 = "%%".toList) (pos g p : Nat) (s : Runes)
    (caps : Caps) :
    (catRe (patternPieces (text T) ms pos)).run g p s caps (fun e _ c => some (e, c)) =
      if s = decode (fillTemplate (text T) ms pos []) then some (p + s.length, caps)
      else none := by
  induction ms generalizing pos g p s with
  | nil =>
    simp only [patternPieces, fillTemplate, drop_text, quoteMeta_text, decode_text,
      length_text]
    rw [run_catRe_optLit _ _ _ (by
      intro h
      exact List.drop_eq_nil_iff.mpr (by omega)), run_lit_eol]
    by_cases hs : s = T.drop pos
    · simp [hs]
    · simp [hs]
  | cons m ms ih =>
    have hm : slice (text T) m.1 m.2 = text "%%".toList := by
      rw [slice_text, hall m (by simp)]
    have ih1 := ih (fun x hx => hall x (by simp [hx])) m.2
    simp only [patternPieces, fillTemplate, hm, if_true, slice_text, quoteMeta_text,
      decode_append, decode_text, decode_cons, Glyph.toRune]
    rw [run_catRe_optLit _ _ _ (slice_nil_of_le T pos m.1), run_catRe_cons]
    by_cases hs : s = slice T pos m.1 ++ '%' :: decode (fillTemplate (text T) ms m.2 [])
    · rw [if_pos hs, hs, run_litRe_append, run_catRe_cons, run_char_cons, if_pos rfl, ih1,
        if_pos rfl]
      simp only [List.length_append, List.length_cons]
      congr 2
      omega
    · rw [if_neg hs]
      cases hr : (litRe (slice T pos m.1)).run g p s caps
          (fun p1 s1 c1 =>
            (catRe (Re.char '%' :: patternPieces (text T) ms m.2)).run
              (g + (litRe (slice T pos m.1)).numGroups) p1 s1 c1
              (fun e _ c => some (e, c))) with
      | none => rfl
      | some res =>
        exfalso
        obtain ⟨r, hsr, hk⟩ := run_litRe_some _ _ _ _ _ _ res hr
        rw [run_catRe_cons] at hk
        cases r with
        | nil => simp [run_char_nil] at hk
        | cons d r1 =>
          rw [run_char_cons] at hk
          by_cases hd : d = '%'
          · rw [if_pos hd, ih1] at hk
            by_cases hr1 : r1 = decode (fillTemplate (text T) ms m.2 [])
            · exact hs (by rw [hsr, hd, hr1])
            · simp [hr1] at hk
          · simp [hd] at hk

theorem parsePlaceholders_all_percent (T : Runes) (ms : List (Nat × Nat))
    (hall : ∀ m ∈ ms, slice T m.1 m.2 = "%%".toList) :
    parsePlaceholders (text T) ms = [] := by
  induction ms with
  | nil => rfl
  | cons m t ih =>
    have hm : slice (text T) m.1 m.2 = text "%%".toList := by
      rw [slice_text, hall m (by simp)]
    simp only [parsePlaceholders, hm, ne_eq, not_true_eq_false, if_false]
    exact ih (fun x hx => hall x (by simp [hx]))

/-- Extraction against a template without any directive: the strings are compared. -/
theorem extractValues_no_directive (lib : GoLib) (template message : GoString)
    (h0 : findAllStringIndex placeholderRe (decode template) = []) :
    extractValues lib template message =
      if message = template then ([], none)
      else ([], some "message does not match template") := by
  unfold extractValues
  simp only [h0, List.length_nil, if_true]
  by_cases ht : template = message
  · simp [ht]
  · have ht2 : ¬ message = template := fun e => ht e.symm
    simp [ht, ht2]

/-- Extraction against a well-formed template with `%%` directives and no other. -/
theorem extractValues_literal (lib : GoLib) (T : Runes) (message : GoString)
    (hne : findAllStringIndex placeholderRe T ≠ [])
    (hall : ∀ m ∈ findAllStringIndex placeholderRe T, slice T m.1 m.2 = "%%".toList) :
    extractValues lib (text T) message =
      if decode message = decode (collapseTemplate (text T)) then ([], none)
      else ([], some "message does not match template") := by
  unfold extractValues collapseTemplate
  have h0 : (findAllStringIndex placeholderRe T).length ≠ 0 := by
    intro e; exact hne (List.length_eq_zero.mp e)
  simp only [decode_text, h0, if_false, regexpCompile_text,
    parsePlaceholders_all_percent T _ hall]
  simp only [findStringSubmatch, buildExtractionPattern, search_bol_zero, matchAt]
  rw [run_catRe_cons, run_bol, run_pieces_literal T _ hall]
  by_cases hmsg : decode message =
      decode (fillTemplate (text T) (findAllStringIndex placeholderRe T) 0 [])
  · simp [hmsg, convertCaptures]
  · simp [hmsg]

theorem wellFormed_collapseTemplate (T : Runes) :
    wellFormed (collapseTemplate (text T)) = true := by
  rw [collapseTemplate]
  exact wellFormed_fillTemplate T _ 0 [] (by simp)

/-- C7 as stated fails for a template that is not well-formed UTF-8: the template `"\xff%%"`
has one `%%` directive and no other, the message `"\xff%"` is the template with the `%%`
replaced by a single `%`, and extraction fails because the pattern does not compile. -/
theorem extractValues_percent_only_counterexample :
    (findAllStringIndex placeholderRe (decode (Glyph.byte 255 :: text "%%".toList)) ≠ [] ∧
        ∀ m ∈ findAllStringIndex placeholderRe (decode (Glyph.byte 255 :: text "%%".toList)),
          slice (Glyph.byte 255 :: text "%%".toList) m.1 m.2 = text "%%".toList) ∧
      Glyph.byte 255 :: text "%".toList =
        collapseTemplate (Glyph.byte 255 :: text "%%".toList) ∧
      extractValues sampleLib (Glyph.byte 255 :: text "%%".toList)
          (Glyph.byte 255 :: text "%".toList) =
        ([], compileFailure) := by
  decide

/-- C7, amended: for a template of well-formed UTF-8 with at least one `%%` directive and no
other directive, `extractValues(template, message)` succeeds if and only if the message, each
ill-formed byte of it read as U+FFFD, is the template with each `%%` directive the scanner
finds replaced by a single `%`; for a message of well-formed UTF-8 that is: if and only if
the message is that text; and on success it returns an empty value sequence. -/
theorem extractValues_percent_only (lib : GoLib) (T : Runes) (message : GoString)
    (hne : findAllStringIndex placeholderRe T ≠ [])
    (hall : ∀ m ∈ findAllStringIndex placeholderRe T, slice T m.1 m.2 = "%%".toList) :
    ((extractValues lib (text T) message).2 = none ↔
        decode message = decode (collapseTemplate (text T))) ∧
      (wellFormed message = true →
        ((extractValues lib (text T) message).2 = none ↔
          message = collapseTemplate (text T))) ∧
      ((extractValues lib (text T) message).2 = none →
        (extractValues lib (text T) message).1 = []) := by
  rw [extractValues_literal lib T message hne hall]
  by_cases h : decode message = decode (collapseTemplate (text T))
  · simp only [h, if_true, true_iff, implies_true, and_true, true_and]
    intro hw
    exact eq_of_decode_eq _ _ hw (wellFormed_collapseTemplate T) h
  · simp only [h, if_false, false_iff, reduceCtorEq, false_implies, and_true, true_and]
    intro _ e
    exact h (by rw [e])

/-- C7, amended, at the template `"100%% done"` and the message `"100% done"`: zero
values. -/
theorem extractValues_percent_only_witness :
    (findAllStringIndex placeholderRe "100%% done".toList ≠ [] ∧
        ∀ m ∈ findAllStringIndex placeholderRe "100%% done".toList,
          slice "100%% done".toList m.1 m.2 = "%%".toList) ∧
      (extractValues sampleLib (text "100%% done".toList) (text "100% done".toList)).2 = none ∧
      (extractValues sampleLib (text "100%% done".toList) (text "100% done".toList)).1 = [] :=
  ⟨⟨by decide, by decide⟩,
    (extractValues_percent_only sampleLib "100%% done".toList (text "100% done".toList)
      (by decide) (by decide)).1.mpr (by decide),
    (extractValues_percent_only sampleLib "100%% done".toList (text "100% done".toList)
      (by decide) (by decide)).2.2 (by decide)⟩

/-- C2 as stated fails: the template `"100%% done"` has no real placeholder, and extraction
succeeds on the message `"100% done"`, which is not the template, and fails on the template
itself. -/
theorem no_placeholder_identity_counterexample :
    (∀ m ∈ findAllStringIndex placeholderRe (decode (text "100%% done".toList)),
        slice (text "100%% done".toList) m.1 m.2 = text "%%".toList) ∧
      (Sreprintf sampleLib (text "100%% done".toList) (text "100% done".toList)
        (text "done".toList)).2 = none ∧
      text "100% done".toList ≠ text "100%% done".toList ∧
      (Sreprintf sampleLib (text "100%% done".toList) (text "100%% done".toList)
        (text "done".toList)).2 = some "message does not match template" := by
  decide

/-- C2, amended: take a template in which the scanner finds no directive other than `%%`.
If it finds no directive at all, `Sreprintf(template, message, translation)` succeeds if and
only if the message is the template, whatever the bytes of the two.  If the template is
well-formed UTF-8 and has a `%%`, it succeeds if and only if the message, each ill-formed
byte of it read as U+FFFD, is the template with each `%%` replaced by a single `%`.  So for a
template and a message of well-formed UTF-8 it succeeds if and only if the message is the
template with each `%%` replaced by a single `%`. -/
theorem Sreprintf_no_placeholder (lib : GoLib) (T : Runes) (message translation : GoString)
    (hall : ∀ m ∈ findAllStringIndex placeholderRe T, slice T m.1 m.2 = "%%".toList) :
    (∀ template : GoString, findAllStringIndex placeholderRe (decode template) = [] →
        ((Sreprintf lib template message translation).2 = none ↔ message = template)) ∧
      (findAllStringIndex placeholderRe T ≠ [] →
        ((Sreprintf lib (text T) message translation).2 = none ↔
          decode message = decode (collapseTemplate (text T)))) ∧
      (wellFormed message = true →
        ((Sreprintf lib (text T) message translation).2 = none ↔
          message = collapseTemplate (text T))) := by
  have hnone : ∀ template : GoString,
      findAllStringIndex placeholderRe (decode template) = [] →
        ((Sreprintf lib template message translation).2 = none ↔ message = template) := by
    intro template h0
    unfold Sreprintf
    rw [extractValues_no_directive lib template message h0]
    by_cases h : message = template
    · simp [h, applyValues]
    · simp [h]
  have hsome : findAllStringIndex placeholderRe T ≠ [] →
      ((Sreprintf lib (text T) message translation).2 = none ↔
        decode message = decode (collapseTemplate (text T))) := by
    intro hne
    unfold Sreprintf
    rw [extractValues_literal lib T message hne hall]
    by_cases h : decode message = decode (collapseTemplate (text T))
    · simp [h, applyValues]
    · simp [h]
  refine ⟨hnone, hsome, ?_⟩
  intro hw
  by_cases hne : findAllStringIndex placeholderRe T = []
  · have hc : collapseTemplate (text T) = text T := by
      simp [collapseTemplate, hne, fillTemplate]
    rw [hc]
    exact hnone (text T) (by simpa using hne)
  · rw [hsome hne]
    constructor
    · intro h
      exact eq_of_decode_eq _ _ hw (wellFormed_collapseTemplate T) h
    · intro h
      rw [h]

/-- C2, amended, at a template without any directive and at one with a `%%`. -/
theorem Sreprintf_no_placeholder_witness :
    ((∀ m ∈ findAllStringIndex placeholderRe "Hello World".toList,
          slice "Hello World".toList m.1 m.2 = "%%".toList) ∧
        (∀ m ∈ findAllStringIndex placeholderRe "100%% done".toList,
          slice "100%% done".toList m.1 m.2 = "%%".toList) ∧
        wellFormed (text "100% done".toList) = true) ∧
      (Sreprintf sampleLib (text "Hello World".toList) (text "Hello World".toList)
        (text "x".toList)).2 = none ∧
      (Sreprintf sampleLib (text "100%% done".toList) (text "100% done".toList)
        (text "x".toList)).2 = none ∧
      (Sreprintf sampleLib [Glyph.byte 255] [Glyph.byte 255] (text "x".toList)).2 = none :=
  ⟨⟨by decide, by decide, by decide⟩,
    ((Sreprintf_no_placeholder sampleLib "Hello World".toList (text "Hello World".toList)
      (text "x".toList) (by decide)).2.2 (by decide)).mpr (by decide),
    ((Sreprintf_no_placeholder sampleLib "100%% done".toList (text "100% done".toList)
      (text "x".toList) (by decide)).2.2 (by decide)).mpr (by decide),
    ((Sreprintf_no_placeholder sampleLib "100%% done".toList [Glyph.byte 255]
      (text "x".toList) (by decide)).1 [Glyph.byte 255] (by decide)).mpr rfl⟩

/-! ## Soundness of matching: a match decomposes the text -/

theorem orElse_some (a b : MatchResult) (res : Nat × Caps) (h : orElse a b = some res) :
    a = some res ∨ b = some res := by
  cases a with
  | none => exact Or.inr (by simpa using h)
  | some r => exact Or.inl (by simpa using h)

theorem starLoop_some (p : Char → Bool) (greedy : Bool) (s : Runes) (pos : Nat)
    (caps : Caps) (k : Cont) (res : Nat × Caps)
    (h : starLoop p greedy s pos caps k = some res) :
    ∃ w s1, s = w ++ s1 ∧ k (pos + w.length) s1 caps = some res := by
  induction s generalizing pos with
  | nil => exact ⟨[], [], rfl, by simpa [starLoop] using h⟩
  | cons c t ih =>
    have step : (if p c = true then starLoop p greedy t (pos + 1) caps k else none) = some res →
        ∃ w s1, c :: t = w ++ s1 ∧ k (pos + w.length) s1 caps = some res := by
      intro h1
      by_cases hc : p c = true
      · rw [if_pos hc] at h1
        obtain ⟨w, s1, hs, hk⟩ := ih (pos + 1) h1
        refine ⟨c :: w, s1, by rw [hs]; rfl, ?_⟩
        rw [← hk, List.length_cons]
        congr 1
        omega
      · rw [if_neg hc] at h1
        exact absurd h1 (by simp)
    have here : k pos (c :: t) caps = some res →
        ∃ w s1, c :: t = w ++ s1 ∧ k (pos + w.length) s1 caps = some res :=
      fun h1 => ⟨[], c :: t, rfl, by simpa using h1⟩
    rw [starLoop] at h
    cases greedy with
    | true =>
      simp only [if_true] at h
      rcases orElse_some _ _ _ h with h1 | h1
      · exact step h1
      · exact here h1
    | false =>
      simp only [Bool.false_eq_true, if_false] at h
      rcases orElse_some _ _ _ h with h1 | h1
      · exact here h1
      · exact step h1

/-- A pattern without groups that matches consumes a prefix of the text and leaves the
capture registers alone. -/
theorem run_groupfree_some (r : Re) (hr : r.numGroups = 0) (g pos : Nat) (s : Runes)
    (caps : Caps) (k : Cont) (res : Nat × Caps) (h : r.run g pos s caps k = some res) :
    ∃ w s1, s = w ++ s1 ∧ k (pos + w.length) s1 caps = some res := by
  induction r generalizing g pos s caps k with
  | eps => exact ⟨[], s, rfl, by simpa [Re.run] using h⟩
  | char c =>
    cases s with
    | nil => simp [Re.run] at h
    | cons d t =>
      rw [run_char_cons] at h
      by_cases hd : d = c
      · rw [if_pos hd] at h
        exact ⟨[d], t, rfl, by simpa using h⟩
      · rw [if_neg hd] at h
        exact absurd h (by simp)
  | cls p =>
    cases s with
    | nil => simp [Re.run] at h
    | cons d t =>
      simp only [Re.run] at h
      by_cases hd : p d = true
      · rw [if_pos hd] at h
        exact ⟨[d], t, rfl, by simpa using h⟩
      · rw [if_neg hd] at h
        exact absurd h (by simp)
  | seq a b iha ihb =>
    simp only [Re.numGroups, Nat.add_eq_zero] at hr
    simp only [Re.run] at h
    obtain ⟨w1, s1, hs1, hk1⟩ := iha hr.1 _ _ _ _ _ h
    obtain ⟨w2, s2, hs2, hk2⟩ := ihb hr.2 _ _ _ _ _ hk1
    refine ⟨w1 ++ w2, s2, by rw [hs1, hs2, List.append_assoc], ?_⟩
    rw [← hk2, List.length_append]
    congr 1
    omega
  | alt a b iha ihb =>
    simp only [Re.numGroups, Nat.add_eq_zero] at hr
    simp only [Re.run] at h
    rcases orElse_some _ _ _ h with h1 | h1
    · exact iha hr.1 _ _ _ _ _ h1
    · exact ihb hr.2 _ _ _ _ _ h1
  | opt a iha =>
    simp only [Re.numGroups] at hr
    simp only [Re.run] at h
    rcases orElse_some _ _ _ h with h1 | h1
    · exact iha hr _ _ _ _ _ h1
    · exact ⟨[], s, rfl, by simpa using h1⟩
  | star p greedy => exact starLoop_some p greedy s pos caps k res (by simpa [Re.run] using h)
  | plus p greedy =>
    cases s with
    | nil => simp [Re.run] at h
    | cons d t =>
      rw [run_plus_cons] at h
      by_cases hd : p d = true
      · rw [if_pos hd] at h
        obtain ⟨w, s1, hs, hk⟩ := starLoop_some p greedy t (pos + 1) caps k res h
        refine ⟨d :: w, s1, by rw [hs]; rfl, ?_⟩
        rw [← hk, List.length_cons]
        congr 1
        omega
      · rw [if_neg hd] at h
        exact absurd h (by simp)
  | group a _ => simp [Re.numGroups] at hr
  | bol =>
    simp only [Re.run] at h
    by_cases hp : pos = 0
    · rw [if_pos hp] at h
      exact ⟨[], s, rfl, by simpa using h⟩
    · rw [if_neg hp] at h
      exact absurd h (by simp)
  | eol =>
    cases s with
    | nil => exact ⟨[], [], rfl, by simpa [Re.run] using h⟩
    | cons d t => simp [Re.run] at h
  | bad b => simp [Re.run] at h

/-- A group around a pattern without groups binds the text it consumes. -/
theorem run_group_some (a : Re) (ha : a.numGroups = 0) (g pos : Nat) (s : Runes)
    (caps : Caps) (k : Cont) (res : Nat × Caps) (h : (Re.group a).run g pos s caps k = some res) :
    ∃ w s1, s = w ++ s1 ∧
      k (pos + w.length) s1 ((g, pos, pos + w.length) :: caps) = some res := by
  rw [run_group] at h
  obtain ⟨w, s1, hs, hk⟩ := run_groupfree_some a ha _ _ _ _ _ res h
  exact ⟨w, s1, hs, hk⟩

/-- Every capture pattern is one group around a pattern without groups. -/
theorem getCapturePattern_shape (info : placeholderInfo) :
    ∃ a, getCapturePattern info = Re.group a ∧ a.numGroups = 0 := by
  unfold getCapturePattern
  split_ifs <;> exact ⟨_, rfl, by simp [Re.numGroups, numGroups_litRe]⟩

theorem parsePlaceholders_cons_percent (template : GoString) (m : Nat × Nat)
    (ms : List (Nat × Nat)) (hm : slice template m.1 m.2 = text "%%".toList) :
    parsePlaceholders template (m :: ms) = parsePlaceholders template ms := by
  rw [parsePlaceholders, if_neg (not_not.mpr hm)]

theorem parsePlaceholders_cons_real (template : GoString) (m : Nat × Nat)
    (ms : List (Nat × Nat)) (hm : slice template m.1 m.2 ≠ text "%%".toList) :
    parsePlaceholders template (m :: ms) =
      { parsePlaceholder (slice template m.1 m.2) with start := m.1, stop := m.2 } ::
        parsePlaceholders template ms := by
  rw [parsePlaceholders, if_pos hm]

/-- A match of the pattern after `^` splits the text into the literal segments, one `%` for
each `%%`, and one text for each real placeholder. -/
theorem run_pieces_some (T : Runes) (ms : List (Nat × Nat)) (pos g p : Nat)
    (s : Runes) (caps : Caps) (res : Nat × Caps)
    (h : (catRe (patternPieces (text T) ms pos)).run g p s caps (fun e _ c => some (e, c)) =
      some res) :
    ∃ cs : List Runes, cs.length = (parsePlaceholders (text T) ms).length ∧
      s = decode (fillTemplate (text T) ms pos (cs.map text)) := by
  induction ms generalizing pos g p s caps with
  | nil =>
    simp only [patternPieces, drop_text, quoteMeta_text, length_text] at h
    rw [run_catRe_optLit _ _ _ (by
      intro h
      exact List.drop_eq_nil_iff.mpr (by omega)), run_lit_eol] at h
    by_cases hs : s = T.drop pos
    · exact ⟨[], rfl, by simpa [fillTemplate, drop_text] using hs⟩
    · rw [if_neg hs] at h
      exact absurd h (by simp)
  | cons m ms ih =>
    simp only [patternPieces, slice_text, quoteMeta_text] at h
    rw [run_catRe_optLit _ _ _ (slice_nil_of_le T pos m.1), run_catRe_cons] at h
    obtain ⟨r, hsr, hk⟩ := run_litRe_some _ _ _ _ _ _ res h
    rw [run_catRe_cons] at hk
    by_cases hm : text (slice T m.1 m.2) = text "%%".toList
    · have hm1 : slice (text T) m.1 m.2 = text "%%".toList := by rw [slice_text]; exact hm
      rw [if_pos hm] at hk
      cases r with
      | nil => simp [run_char_nil] at hk
      | cons d r1 =>
        rw [run_char_cons] at hk
        by_cases hd : d = '%'
        · rw [if_pos hd] at hk
          obtain ⟨cs, hlen, hr1⟩ := ih _ _ _ _ _ hk
          refine ⟨cs, ?_, ?_⟩
          · rw [parsePlaceholders_cons_percent (text T) m ms hm1]; exact hlen
          · rw [fillTemplate, if_pos hm1, hsr, hd, hr1]
            simp [slice_text, Glyph.toRune]
        · rw [if_neg hd] at hk
          exact absurd hk (by simp)
    · have hm1 : slice (text T) m.1 m.2 ≠ text "%%".toList := by rw [slice_text]; exact hm
      rw [if_neg hm] at hk
      obtain ⟨a, hshape, ha⟩ :=
        getCapturePattern_shape (parsePlaceholder (text (slice T m.1 m.2)))
      rw [hshape] at hk
      obtain ⟨w, s1, hs1, hk1⟩ := run_group_some a ha _ _ _ _ _ res hk
      obtain ⟨cs, hlen, hr1⟩ := ih _ _ _ _ _ hk1
      refine ⟨w :: cs, ?_, ?_⟩
      · rw [parsePlaceholders_cons_real (text T) m ms hm1]; simp [hlen]
      · rw [fillTemplate, if_neg hm1, hsr, hs1, hr1]
        simp [slice_text]

theorem fillTemplate_starts (template : GoString) (m : Nat × Nat) (ms : List (Nat × Nat))
    (pos : Nat) (cs : List GoString) :
    slice template pos m.1 <+: fillTemplate template (m :: ms) pos cs := by
  rw [fillTemplate]
  split <;> exact List.prefix_append _ _

theorem fillTemplate_ends (template : GoString) (ms : List (Nat × Nat)) (hne : ms ≠ [])
    (pos : Nat) (cs : List GoString) :
    template.drop (ms.getLast hne).2 <:+ fillTemplate template ms pos cs := by
  induction ms generalizing pos cs with
  | nil => exact absurd rfl hne
  | cons m t ih =>
    have htail : ∀ cs1, template.drop ((m :: t).getLast hne).2 <:+
        fillTemplate template t m.2 cs1 := by
      intro cs1
      cases t with
      | nil => simp [fillTemplate]
      | cons m1 t1 =>
        rw [List.getLast_cons (by simp)]
        exact ih (by simp) m.2 cs1
    rw [fillTemplate]
    split
    · exact (htail cs).trans ((List.suffix_cons _ _).trans (List.suffix_append _ _))
    · exact (htail cs.tail).trans ((List.suffix_append _ _).trans (List.suffix_append _ _))

/-- Extraction against a well-formed template either succeeds or reports the mismatch. -/
theorem extractValues_dichotomy (lib : GoLib) (T : Runes) (message : GoString) :
    (extractValues lib (text T) message).2 = none ∨
      extractValues lib (text T) message =
        ([], some "message does not match template") := by
  unfold extractValues
  simp only [regexpCompile_text]
  split_ifs
  · exact Or.inl rfl
  · exact Or.inr rfl
  · split
    · exact Or.inr rfl
    · exact Or.inl rfl

/-- A successful extraction against a well-formed template with directives decomposes the
runes of the message. -/
theorem extractValues_decomposes (lib : GoLib) (T : Runes) (message : GoString)
    (hne : findAllStringIndex placeholderRe T ≠ [])
    (h : (extractValues lib (text T) message).2 = none) :
    ∃ caps : List Runes,
      caps.length =
          (parsePlaceholders (text T) (findAllStringIndex placeholderRe T)).length ∧
        decode message =
          decode (fillTemplate (text T) (findAllStringIndex placeholderRe T) 0
            (caps.map text)) := by
  unfold extractValues at h
  simp only [decode_text, regexpCompile_text] at h
  have h0 : ¬ (findAllStringIndex placeholderRe T).length = 0 :=
    fun e => hne (List.length_eq_zero.mp e)
  rw [if_neg h0] at h
  cases hf : findStringSubmatch
      (buildExtractionPattern (text T) (findAllStringIndex placeholderRe T)) message with
  | none => rw [hf] at h; simp at h
  | some sub =>
    unfold findStringSubmatch buildExtractionPattern at hf
    rw [search_bol_zero] at hf
    cases hm : matchAt (catRe (Re.bol ::
        patternPieces (text T) (findAllStringIndex placeholderRe T) 0)) 0
          (decode message) with
    | none => rw [hm] at hf; simp at hf
    | some res =>
      rw [matchAt, run_catRe_cons, run_bol] at hm
      exact run_pieces_some T _ 0 _ 0 (decode message) [] res hm

/-- C4 as stated fails in two ways.  Against the template `"\xff%s"`, which is not well-formed
UTF-8, the message `"abc"` has no decomposition, and the error is that of a pattern that does
not compile instead of "message does not match template".  Against the template
`"%s\uFFFD"` the message `"abc\xff"` is matched, although it does not end with the literal
text after the directive. -/
theorem extractValues_literal_anchored_counterexample :
    (findAllStringIndex placeholderRe (decode (Glyph.byte 255 :: text "%s".toList)) ≠ [] ∧
        (¬ ∃ caps : List GoString,
          text "abc".toList =
            fillTemplate (Glyph.byte 255 :: text "%s".toList)
              (findAllStringIndex placeholderRe (decode (Glyph.byte 255 :: text "%s".toList)))
              0 caps) ∧
        extractValues sampleLib (Glyph.byte 255 :: text "%s".toList) (text "abc".toList) =
          ([], compileFailure) ∧
        compileFailure ≠ some "message does not match template") ∧
      ((extractValues sampleLib (text ['%', 's', Char.ofNat 0xFFFD])
          (text "abc".toList ++ [Glyph.byte 255])).2 = none ∧
        ¬ ((text ['%', 's', Char.ofNat 0xFFFD]).drop 2 <:+
          (text "abc".toList ++ [Glyph.byte 255]))) := by
  refine ⟨⟨by decide, ?_, by decide, by decide⟩, by decide, by decide⟩
  rintro ⟨caps, h⟩
  have hs : findAllStringIndex placeholderRe (decode (Glyph.byte 255 :: text "%s".toList)) =
      [(1, 3)] := by decide
  rw [hs] at h
  have h1 := congrArg List.head? h
  simp [fillTemplate, slice, text] at h1

/-- C4, amended: for a template of well-formed UTF-8 with at least one directive, a
successful `extractValues` means that the message, each ill-formed byte of it read as U+FFFD,
is the in-order concatenation of the template's literal segments (a single `%` for each
`%%`) interleaved with one text per real placeholder; read so, the message starts with the
literal text before the first directive and ends with the literal text after the last one;
for a message of well-formed UTF-8 all of this holds of the message itself, byte for byte; a
message without such a decomposition yields the error "message does not match template", as
does the message `"Goodbye World"` against the template `"Hello %s"`. -/
theorem extractValues_literal_anchored (lib : GoLib) (T : Runes) (message : GoString)
    (hne : findAllStringIndex placeholderRe T ≠ []) :
    ((extractValues lib (text T) message).2 = none →
        ∃ caps : List Runes,
          caps.length =
              (parsePlaceholders (text T) (findAllStringIndex placeholderRe T)).length ∧
            decode message =
              decode (fillTemplate (text T) (findAllStringIndex placeholderRe T) 0
                (caps.map text)) ∧
            slice T 0 ((findAllStringIndex placeholderRe T).head hne).1 <+: decode message ∧
            T.drop ((findAllStringIndex placeholderRe T).getLast hne).2 <:+ decode message ∧
            (wellFormed message = true →
              message =
                  fillTemplate (text T) (findAllStringIndex placeholderRe T) 0
                    (caps.map text) ∧
                text (slice T 0 ((findAllStringIndex placeholderRe T).head hne).1) <+:
                  message ∧
                text (T.drop ((findAllStringIndex placeholderRe T).getLast hne).2) <:+
                  message)) ∧
      ((¬ ∃ caps : List Runes,
          caps.length =
              (parsePlaceholders (text T) (findAllStringIndex placeholderRe T)).length ∧
            decode message =
              decode (fillTemplate (text T) (findAllStringIndex placeholderRe T) 0
                (caps.map text))) →
        extractValues lib (text T) message =
          ([], some "message does not match template")) ∧
      extractValues lib (text "Hello %s".toList) (text "Goodbye World".toList) =
        ([], some "message does not match template") := by
  refine ⟨?_, ?_, rfl⟩
  · intro h
    obtain ⟨caps, hlen, hmsg⟩ := extractValues_decomposes lib T message hne h
    have hs := fillTemplate_starts (text T)
      ((findAllStringIndex placeholderRe T).head hne)
      (findAllStringIndex placeholderRe T).tail 0 (caps.map text)
    rw [List.head_cons_tail, slice_text] at hs
    have he := fillTemplate_ends (text T) _ hne 0 (caps.map text)
    rw [drop_text] at he
    refine ⟨caps, hlen, hmsg, ?_, ?_, ?_⟩
    · rw [hmsg]
      have := hs.map Glyph.toRune
      simpa [decode, text, Function.comp_def, Glyph.toRune] using this
    · rw [hmsg]
      have := he.map Glyph.toRune
      simpa [decode, text, Function.comp_def, Glyph.toRune] using this
    · intro hw
      have hfw : wellFormed (fillTemplate (text T) (findAllStringIndex placeholderRe T) 0
          (caps.map text)) = true :=
        wellFormed_fillTemplate T _ 0 _ (by
          intro c hc
          obtain ⟨r, _, rfl⟩ := List.mem_map.mp hc
          exact wellFormed_text r)
      have hm := eq_of_decode_eq _ _ hw hfw hmsg
      exact ⟨hm, by rw [hm]; exact hs, by rw [hm]; exact he⟩
  · intro hno
    rcases extractValues_dichotomy lib T message with h | h
    · exact absurd (extractValues_decomposes lib T message hne h) hno
    · exact h

/-- C4, amended, at the template `"Hello %s"`: the message `"Hello World"` is matched and
starts with `"Hello "`. -/
theorem extractValues_literal_anchored_witness :
    findAllStringIndex placeholderRe "Hello %s".toList ≠ [] ∧
      text "Hello ".toList <+: text "Hello World".toList ∧
      ∃ caps : List Runes, caps.length = 1 ∧
        text "Hello World".toList =
          fillTemplate (text "Hello %s".toList)
            (findAllStringIndex placeholderRe "Hello %s".toList) 0 (caps.map text) := by
  have h := (extractValues_literal_anchored sampleLib "Hello %s".toList
    (text "Hello World".toList) (by decide)).1 (by decide)
  obtain ⟨caps, hlen, _, _, _, hw⟩ := h
  obtain ⟨hmsg, hpre, _⟩ := hw (by decide)
  exact ⟨by decide, hpre, caps, hlen, hmsg⟩

/-! ## Capturing groups of the built pattern -/

theorem numGroups_eq_groups_length (r : Re) : r.numGroups = r.groups.length := by
  induction r with
  | seq a b iha ihb => simp [Re.numGroups, Re.groups, iha, ihb]
  | alt a b iha ihb => simp [Re.numGroups, Re.groups, iha, ihb]
  | opt a iha => simp [Re.numGroups, Re.groups, iha]
  | group a iha => simp [Re.numGroups, Re.groups, iha]
  | _ => rfl

theorem groups_eq_nil (r : Re) (h : r.numGroups = 0) : r.groups = [] :=
  List.length_eq_zero.mp (by rw [← numGroups_eq_groups_length, h])

theorem numGroups_quoteMeta (s : GoString) : (quoteMeta s).numGroups = 0 := by
  induction s with
  | nil => rfl
  | cons g t ih =>
    simp only [quoteMeta, List.map_cons, catRe, Re.numGroups] at ih ⊢
    cases g <;> simpa [Re.numGroups] using ih

theorem groups_catRe_optLit (c : Prop) [Decidable c] (r : Re) (hr : r.numGroups = 0)
    (rs : List Re) :
    (catRe ((if c then [r] else []) ++ rs)).groups = (catRe rs).groups := by
  by_cases hc : c
  · simp [hc, catRe, Re.groups, groups_eq_nil _ hr]
  · simp [hc]

theorem groups_getCapturePattern (info : placeholderInfo) :
    (getCapturePattern info).groups = [getCapturePattern info] := by
  obtain ⟨a, hshape, ha⟩ := getCapturePattern_shape info
  rw [hshape, Re.groups, groups_eq_nil a ha]

/-- The groups of the pattern are the capture patterns of the real placeholders, in order. -/
theorem groups_patternPieces (template : GoString) (ms : List (Nat × Nat)) (pos : Nat) :
    (catRe (patternPieces template ms pos)).groups =
      (parsePlaceholders template ms).map getCapturePattern := by
  induction ms generalizing pos with
  | nil =>
    rw [patternPieces, groups_catRe_optLit _ _ (numGroups_quoteMeta _)]
    rfl
  | cons m ms ih =>
    rw [patternPieces, groups_catRe_optLit _ _ (numGroups_quoteMeta _), catRe, Re.groups, ih]
    by_cases hm : slice template m.1 m.2 = text "%%".toList
    · rw [if_pos hm, parsePlaceholders_cons_percent template m ms hm]
      rfl
    · rw [if_neg hm, parsePlaceholders_cons_real template m ms hm, groups_getCapturePattern]
      rfl

theorem groups_buildExtractionPattern (template : GoString) (ms : List (Nat × Nat)) :
    (buildExtractionPattern template ms).groups =
      (parsePlaceholders template ms).map getCapturePattern := by
  rw [buildExtractionPattern, catRe, Re.groups, groups_patternPieces]
  rfl

theorem parsePlaceholders_length (template : GoString) (ms : List (Nat × Nat)) :
    (parsePlaceholders template ms).length =
      (ms.filter (fun m => decide (slice template m.1 m.2 ≠ text "%%".toList))).length := by
  induction ms with
  | nil => rfl
  | cons m ms ih =>
    by_cases hm : slice template m.1 m.2 = text "%%".toList
    · rw [parsePlaceholders_cons_percent template m ms hm, ih, List.filter_cons, if_neg]
      simp only [decide_eq_true_eq]
      exact not_not.mpr hm
    · rw [parsePlaceholders_cons_real template m ms hm, List.filter_cons,
        if_pos (decide_eq_true hm), List.length_cons, List.length_cons, ih]

theorem findStringSubmatch_length (re : Re) (s : GoString) (sub : List GoString)
    (h : findStringSubmatch re s = some sub) : sub.length = re.numGroups + 1 := by
  unfold findStringSubmatch at h
  split at h
  · simp at h
  · simp only [Option.some.injEq] at h
    rw [← h]
    simp

/-- When there are enough submatches the guard of the conversion loop never cuts it short. -/
theorem convertCaptures_eq (lib : GoLib) (sub : List GoString) (phs : List placeholderInfo)
    (i : Nat) (h : i + phs.length < sub.length) :
    convertCaptures lib sub phs i =
      (phs.enumFrom i).map (fun x => convertValue lib (sub.getD (x.1 + 1) []) x.2.verb) := by
  induction phs generalizing i with
  | nil => rfl
  | cons info rest ih =>
    simp only [List.length_cons] at h
    rw [convertCaptures, if_neg (by omega), ih (i + 1) (by omega)]
    rfl

/-- The pattern compiles to itself or not at all. -/
theorem regexpCompile_some (pattern re : Re) (h : regexpCompile pattern = some re) :
    re = pattern := by
  unfold regexpCompile at h
  split_ifs at h
  exact (Option.some.inj h).symm

/-- Enough submatches: a match of the built pattern has one submatch for the whole and one
for each real placeholder. -/
theorem submatches_length (template message : GoString) (ms : List (Nat × Nat))
    (sub : List GoString)
    (h : findStringSubmatch (buildExtractionPattern template ms) message = some sub) :
    sub.length = (parsePlaceholders template ms).length + 1 := by
  rw [findStringSubmatch_length _ _ _ h, numGroups_eq_groups_length,
    groups_buildExtractionPattern, List.length_map]

/-- What a successful extraction returns: entry `i` is the conversion of submatch `i+1` under
the verb of the real placeholder `i`. -/
theorem extractValues_success (lib : GoLib) (template message : GoString)
    (hok : (extractValues lib template message).2 = none) :
    ∃ sub : List GoString,
      (findAllStringIndex placeholderRe (decode template) ≠ [] →
        findStringSubmatch
          (buildExtractionPattern template
            (findAllStringIndex placeholderRe (decode template)))
          message = some sub) ∧
      (extractValues lib template message).1 =
        (parsePlaceholders template
            (findAllStringIndex placeholderRe (decode template))).enum.map
          (fun x => convertValue lib (sub.getD (x.1 + 1) []) x.2.verb) := by
  unfold extractValues at hok ⊢
  simp only at hok ⊢
  by_cases h0 : (findAllStringIndex placeholderRe (decode template)).length = 0
  · have hnil : findAllStringIndex placeholderRe (decode template) = [] :=
      List.length_eq_zero.mp h0
    rw [if_pos h0]
    rw [hnil]
    exact ⟨[], fun h => absurd rfl h, by split <;> rfl⟩
  · rw [if_neg h0] at hok ⊢
    cases hc : regexpCompile (buildExtractionPattern template
        (findAllStringIndex placeholderRe (decode template))) with
    | none => rw [hc] at hok; simp [compileFailure] at hok
    | some re =>
      have hre := regexpCompile_some _ _ hc
      subst hre
      rw [hc] at hok
      simp only at hok ⊢
      cases hf : findStringSubmatch
          (buildExtractionPattern template
            (findAllStringIndex placeholderRe (decode template)))
          message with
      | none => rw [hf] at hok; simp at hok
      | some sub =>
        have hl := submatches_length template message _ sub hf
        simp only
        rw [convertCaptures_eq lib sub _ 0 (by omega)]
        exact ⟨sub, fun _ => rfl, rfl⟩

/-- C6: the pattern built for a template has exactly one capturing group per directive other
than `%%`, in the same left-to-right order (the groups are the capture patterns of the real
placeholders); hence, when the pattern matches, the guard `i+1 >= len(submatches)` is never
taken, and a successful `extractValues` returns, for the submatches `sub` of the message, the
sequence whose entry `i` is the value of `sub[i+1]` under the verb of the real placeholder
`i`: one value per real placeholder, in template order. -/
theorem extractValues_one_value_per_placeholder (lib : GoLib) (template message : GoString) :
    (buildExtractionPattern template
          (findAllStringIndex placeholderRe (decode template))).numGroups =
        ((findAllStringIndex placeholderRe (decode template)).filter
          (fun m => decide (slice template m.1 m.2 ≠ text "%%".toList))).length ∧
      (buildExtractionPattern template
          (findAllStringIndex placeholderRe (decode template))).groups =
        (parsePlaceholders template (findAllStringIndex placeholderRe (decode template))).map
          getCapturePattern ∧
      (∀ sub, findStringSubmatch
            (buildExtractionPattern template
              (findAllStringIndex placeholderRe (decode template)))
            message = some sub →
        (∀ i, i < (parsePlaceholders template
            (findAllStringIndex placeholderRe (decode template))).length →
          ¬ (i + 1 ≥ sub.length)) ∧
          convertCaptures lib sub
              (parsePlaceholders template
                (findAllStringIndex placeholderRe (decode template))) 0 =
            (parsePlaceholders template
                (findAllStringIndex placeholderRe (decode template))).enum.map
              (fun x => convertValue lib (sub.getD (x.1 + 1) []) x.2.verb)) ∧
      ((extractValues lib template message).2 = none →
        (extractValues lib template message).1.length =
            ((findAllStringIndex placeholderRe (decode template)).filter
              (fun m => decide (slice template m.1 m.2 ≠ text "%%".toList))).length ∧
          ∃ sub : List GoString,
            (findAllStringIndex placeholderRe (decode template) ≠ [] →
              findStringSubmatch
                (buildExtractionPattern template
                  (findAllStringIndex placeholderRe (decode template)))
                message = some sub) ∧
            (extractValues lib template message).1 =
              (parsePlaceholders template
                  (findAllStringIndex placeholderRe (decode template))).enum.map
                (fun x => convertValue lib (sub.getD (x.1 + 1) []) x.2.verb)) := by
  refine ⟨?_, groups_buildExtractionPattern _ _, ?_, ?_⟩
  · rw [numGroups_eq_groups_length, groups_buildExtractionPattern, List.length_map,
      parsePlaceholders_length]
  · intro sub h
    have hl := submatches_length template message _ sub h
    refine ⟨fun i hi => by omega, ?_⟩
    rw [convertCaptures_eq lib sub _ 0 (by omega)]
    rfl
  · intro hok
    obtain ⟨sub, hsub, hval⟩ := extractValues_success lib template message hok
    refine ⟨?_, sub, hsub, hval⟩
    rw [hval, List.length_map, List.enum_length, parsePlaceholders_length]

/-- C6 at the template `"%s has %d items"` and the message `"Cart has 3 items"`: the match
succeeds, and the two values come in the order of the two placeholders. -/
theorem extractValues_one_value_per_placeholder_witness :
    extractValues sampleLib (text "%s has %d items".toList) (text "Cart has 3 items".toList) =
        ([Value.str (text "Cart".toList), Value.int 3], none) ∧
      (extractValues sampleLib (text "%s has %d items".toList)
          (text "Cart has 3 items".toList)).1.length = 2 ∧
      ∃ sub : List GoString,
        (findAllStringIndex placeholderRe (decode (text "%s has %d items".toList)) ≠ [] →
          findStringSubmatch
            (buildExtractionPattern (text "%s has %d items".toList)
              (findAllStringIndex placeholderRe (decode (text "%s has %d items".toList))))
            (text "Cart has 3 items".toList) = some sub) ∧
        (extractValues sampleLib (text "%s has %d items".toList)
            (text "Cart has 3 items".toList)).1 =
          (parsePlaceholders (text "%s has %d items".toList)
              (findAllStringIndex placeholderRe
                (decode (text "%s has %d items".toList)))).enum.map
            (fun x => convertValue sampleLib (sub.getD (x.1 + 1) []) x.2.verb) := by
  have h := (extractValues_one_value_per_placeholder sampleLib
    (text "%s has %d items".toList) (text "Cart has 3 items".toList)).2.2.2 (by decide)
  exact ⟨by decide, by decide, h.2⟩

/-! ## Translations whose `%` are all paired -/

/-- A glyph is read as a rune other than U+FFFD exactly when it is that rune. -/
theorem toRune_eq_iff (g : Glyph) (c : Char) (hc : c ≠ Char.ofNat 0xFFFD) :
    g.toRune = c ↔ g = Glyph.rune c := by
  cases g with
  | rune d => simp [Glyph.toRune]
  | byte b =>
    simp only [Glyph.toRune, reduceCtorEq, iff_false]
    exact fun e => hc e.symm

theorem toRune_eq_percent (g : Glyph) : g.toRune = '%' ↔ g = Glyph.rune '%' :=
  toRune_eq_iff g '%' (by decide)

theorem not_mem_decode_percent (L : GoString) (h : Glyph.rune '%' ∉ L) : '%' ∉ decode L := by
  intro hm
  obtain ⟨g, hg, e⟩ := List.mem_map.mp hm
  exact h (by rw [← (toRune_eq_percent g).mp e]; exact hg)

theorem matchAt_placeholderRe_percent (pos : Nat) (t : Runes) :
    matchAt placeholderRe pos ('%' :: '%' :: t) = some (pos + 2, []) := by
  simp [matchAt, placeholderRe, Re.run, isFlagChar, isDigit, isVerbChar]

/-- A text with paired `%` is a run without `%`, followed by nothing or by a pair and a text
with paired `%`. -/
theorem percentsPaired_split (s : GoString) (h : percentsPaired s = true) :
    ∃ L, Glyph.rune '%' ∉ L ∧
      (s = L ∨ ∃ u, s = L ++ Glyph.rune '%' :: Glyph.rune '%' :: u ∧
        percentsPaired u = true) := by
  induction s with
  | nil => exact ⟨[], by simp, Or.inl rfl⟩
  | cons c t ih =>
    cases t with
    | nil =>
      have hc : c ≠ Glyph.rune '%' := by simpa [percentsPaired] using h
      exact ⟨[c], by simpa using hc.symm, Or.inl rfl⟩
    | cons d t1 =>
      by_cases hc : c = Glyph.rune '%'
      · rw [percentsPaired, if_pos hc] at h
        simp only [Bool.and_eq_true, decide_eq_true_eq] at h
        exact ⟨[], by simp, Or.inr ⟨t1, by rw [hc, h.1]; rfl, h.2⟩⟩
      · rw [percentsPaired, if_neg hc] at h
        obtain ⟨L, hL, hs⟩ := ih h
        refine ⟨c :: L, ?_, ?_⟩
        · intro hm
          rcases List.mem_cons.mp hm with e | e
          · exact hc e.symm
          · exact hL e
        · rcases hs with hs | ⟨u, hs, hu⟩
          · exact Or.inl (by rw [hs])
          · exact Or.inr ⟨u, by rw [hs]; rfl, hu⟩

/-- In a text with paired `%` the scanner finds `%%` only. -/
theorem allMatchesLoop_paired (n : Nat) :
    ∀ (s pre : GoString) (fuel : Nat) (prev : Option Nat), s.length ≤ n →
      percentsPaired s = true → s.length < fuel →
      ∀ m ∈ allMatchesLoop placeholderRe fuel pre.length (decode s) prev,
        slice (pre ++ s) m.1 m.2 = text "%%".toList := by
  induction n with
  | zero =>
    intro s pre fuel prev hn _ hf m hm
    have hs : s = [] := List.length_eq_zero.mp (by omega)
    obtain ⟨f, rfl⟩ : ∃ f, fuel = f + 1 := ⟨fuel - 1, by omega⟩
    rw [hs, decode_nil,
      allMatchesLoop_none _ _ _ _ _ (search_placeholderRe_none [] _ (by simp))] at hm
    simp at hm
  | succ n ih =>
    intro s pre fuel prev hn hp hf m hm
    obtain ⟨f, rfl⟩ : ∃ f, fuel = f + 1 := ⟨fuel - 1, by omega⟩
    obtain ⟨L, hL, hs | ⟨u, hs, hu⟩⟩ := percentsPaired_split s hp
    · rw [hs, allMatchesLoop_none _ _ _ _ _
        (search_placeholderRe_none (decode L) _ (not_mem_decode_percent L hL))] at hm
      simp at hm
    · have hsearch : search placeholderRe pre.length (decode s) =
          some (pre.length + L.length, pre.length + L.length + 2, []) := by
        rw [hs, decode_append, search_placeholderRe_skip (decode L) _ _
          (not_mem_decode_percent L hL), decode_cons, decode_cons, search]
        simp only [Glyph.toRune, matchAt_placeholderRe_percent, length_decode]
      have hdrop : (decode s).drop (pre.length + L.length + 2 - pre.length) = decode u := by
        rw [hs, show pre.length + L.length + 2 - pre.length = L.length + 2 by omega,
          decode_append, ← length_decode L, ← List.drop_drop, List.drop_left]
        rfl
      rw [allMatchesLoop_step _ _ _ _ _ _ _ _ hsearch (by omega), hdrop] at hm
      have hlen : s.length = L.length + (u.length + 2) := by
        rw [hs]; simp
      rcases List.mem_cons.mp hm with rfl | hm
      · rw [hs]
        simp [slice, ← List.append_assoc, text]
      · have hpre : (pre ++ L ++ [Glyph.rune '%', Glyph.rune '%']).length =
            pre.length + L.length + 2 := by
          simp only [List.length_append, List.length_cons, List.length_nil]
        have := ih u (pre ++ L ++ [Glyph.rune '%', Glyph.rune '%']) f
          (some (pre.length + L.length + 2))
          (by omega) hu (by omega) m (by rw [hpre]; exact hm)
        rw [hs]
        simpa [List.append_assoc] using this

theorem countPlaceholders_zero (l : List GoString) (h : ∀ m ∈ l, m = text "%%".toList) :
    countPlaceholders l = 0 := by
  induction l with
  | nil => rfl
  | cons m t ih =>
    have hm : ¬ m ≠ text "%%".toList := not_not.mpr (h m (by simp))
    rw [countPlaceholders, if_neg hm]
    exact ih (fun x hx => h x (by simp [hx]))

theorem countPlaceholders_paired (s : GoString) (h : percentsPaired s = true) :
    countPlaceholders (findAllString placeholderRe s) = 0 := by
  apply countPlaceholders_zero
  intro m hm
  unfold findAllString at hm
  obtain ⟨x, hx, rfl⟩ := List.mem_map.mp hm
  have hx1 : x ∈ allMatchesLoop placeholderRe (s.length + 1) ([] : GoString).length
      (decode s) none := by
    simpa [findAllStringIndex] using hx
  exact allMatchesLoop_paired s.length s [] (s.length + 1) none (Nat.le_refl _) h (by omega) x
    hx1

theorem adjustValues_paired (lib : GoLib) (s : GoString) (values : List lib.Val)
    (h : percentsPaired s = true) : adjustValues lib s values = [] := by
  simp only [adjustValues, countPlaceholders_paired s h]
  cases values <;> simp

theorem directive_percent (lib : GoLib) (t : GoString) (a : List lib.Val) (argNum : Nat) :
    directive lib (Glyph.rune '%' :: t) a argNum = some ([Glyph.rune '%'], t, argNum) := by
  simp [directive, parseFlags, parsenum, parsenumLoop, isDigit, Glyph.toRune]

theorem doPrintf_cons_ne (lib : GoLib) (fuel : Nat) (c : Glyph) (t : GoString)
    (a : List lib.Val) (argNum : Nat) (hc : c ≠ Glyph.rune '%') :
    doPrintf lib (fuel + 1) (c :: t) a argNum = c :: doPrintf lib fuel t a argNum := by
  rw [doPrintf, if_neg (fun e => hc ((toRune_eq_percent c).mp e))]

theorem doPrintf_paired_le (lib : GoLib) (n : Nat) :
    ∀ (s : GoString) (fuel : Nat), s.length ≤ n → s.length < fuel →
      percentsPaired s = true → doPrintf lib fuel s [] 0 = collapsePairs s := by
  induction n with
  | zero =>
    intro s fuel hn hf _
    have hs : s = [] := List.length_eq_zero.mp (by omega)
    obtain ⟨f, rfl⟩ : ∃ f, fuel = f + 1 := ⟨fuel - 1, by omega⟩
    simp [hs, doPrintf, extraArgs, collapsePairs]
  | succ n ih =>
    intro s fuel hn hf h
    obtain ⟨f, rfl⟩ : ∃ f, fuel = f + 1 := ⟨fuel - 1, by omega⟩
    cases s with
    | nil => simp [doPrintf, extraArgs, collapsePairs]
    | cons c t =>
      simp only [List.length_cons] at hf hn
      cases t with
      | nil =>
        have hc : c ≠ Glyph.rune '%' := by simpa [percentsPaired] using h
        obtain ⟨f1, rfl⟩ : ∃ f1, f = f1 + 1 := ⟨f - 1, by simp at hf; omega⟩
        rw [doPrintf_cons_ne lib _ c [] [] 0 hc]
        simp [doPrintf, extraArgs, collapsePairs]
      | cons d t1 =>
        simp only [List.length_cons] at hf hn
        by_cases hc : c = Glyph.rune '%'
        · rw [percentsPaired, if_pos hc] at h
          simp only [Bool.and_eq_true, decide_eq_true_eq] at h
          rw [hc, h.1, doPrintf, if_pos (by rfl), directive_percent]
          simp only
          rw [ih t1 f (by omega) (by omega) h.2, collapsePairs, if_pos ⟨rfl, rfl⟩]
          rfl
        · rw [percentsPaired, if_neg hc] at h
          rw [doPrintf_cons_ne lib f c _ [] 0 hc,
            ih (d :: t1) f (by simp only [List.length_cons]; omega)
              (by simp only [List.length_cons]; omega) h,
            collapsePairs, if_neg (fun e => hc e.1)]

/-- The formatter copies a text with paired `%`, writing one `%` for each pair. -/
theorem sprintf_paired (lib : GoLib) (s : GoString) (h : percentsPaired s = true) :
    sprintf lib s [] = collapsePairs s :=
  doPrintf_paired_le lib s.length s (s.length + 1) (Nat.le_refl _) (by omega) h

theorem percentsPaired_of_not_mem (s : GoString) (h : Glyph.rune '%' ∉ s) :
    percentsPaired s = true := by
  induction s with
  | nil => rfl
  | cons c t ih =>
    have hc : c ≠ Glyph.rune '%' := fun e => h (by simp [e])
    have ht : Glyph.rune '%' ∉ t := fun e => h (by simp [e])
    cases t with
    | nil => simp [percentsPaired, hc]
    | cons d t1 => rw [percentsPaired, if_neg hc]; exact ih ht

theorem collapsePairs_of_not_mem (s : GoString) (h : Glyph.rune '%' ∉ s) :
    collapsePairs s = s := by
  induction s with
  | nil => rfl
  | cons c t ih =>
    have hc : c ≠ Glyph.rune '%' := fun e => h (by simp [e])
    have ht : Glyph.rune '%' ∉ t := fun e => h (by simp [e])
    cases t with
    | nil => rfl
    | cons d t1 => rw [collapsePairs, if_neg (fun e => hc e.1), ih ht]

/-- C8: for a translation in which every `%` belongs to a `%%` pair, and for every value
sequence, `applyValues` returns the translation with each `%%` replaced by a single `%` and
every other character unchanged; hence for a translation without `%`, `Sreprintf` returns
the translation itself whenever extraction succeeds. -/
theorem applyValues_literal_preserved (lib : GoLib) (translation : GoString) :
    (percentsPaired translation = true →
        ∀ values : List lib.Val,
          applyValues lib translation values = (collapsePairs translation, none)) ∧
      (Glyph.rune '%' ∉ translation →
        ∀ template message : GoString, (extractValues lib template message).2 = none →
          Sreprintf lib template message translation = (translation, none)) := by
  have key : percentsPaired translation = true → ∀ values : List lib.Val,
      applyValues lib translation values = (collapsePairs translation, none) := by
    intro hp values
    rw [applyValues, adjustValues_paired lib translation values hp,
      sprintf_paired lib translation hp]
  refine ⟨key, ?_⟩
  intro hno template message hok
  unfold Sreprintf
  cases hx : extractValues lib template message with
  | mk values err =>
    rw [hx] at hok
    simp only at hok
    subst hok
    simp only
    rw [key (percentsPaired_of_not_mem translation hno), collapsePairs_of_not_mem translation hno]

/-- C8 at the translations `"100%% complete"` and `"こんにちは世界"`. -/
theorem applyValues_literal_preserved_witness :
    (percentsPaired (text "100%% complete".toList) = true ∧
        Glyph.rune '%' ∉ text "こんにちは世界".toList) ∧
      applyValues sampleLib (text "100%% complete".toList) [Value.str (text "extra".toList)] =
        (text "100% complete".toList, none) ∧
      Sreprintf sampleLib (text "Hello World".toList) (text "Hello World".toList)
          (text "こんにちは世界".toList) =
        (text "こんにちは世界".toList, none) :=
  ⟨⟨by decide, by decide⟩,
    (applyValues_literal_preserved sampleLib (text "100%% complete".toList)).1 (by decide)
      [Value.str (text "extra".toList)],
    (applyValues_literal_preserved sampleLib (text "こんにちは世界".toList)).2 (by decide)
      (text "Hello World".toList) (text "Hello World".toList) (by decide)⟩

/-! ## Round trip through a single placeholder -/

theorem starLoop_lazy_short (p : Char → Bool) (k : Cont) (n : Nat)
    (hk : ∀ pos1 s1 c1, s1.length ≠ n → k pos1 s1 c1 = none) (s : Runes) (pos : Nat)
    (caps : Caps) (hs : s.length < n) : starLoop p false s pos caps k = none := by
  induction s generalizing pos with
  | nil => exact hk _ _ _ (by simpa using (Nat.ne_of_lt hs))
  | cons c t ih =>
    have h1 : k pos (c :: t) caps = none := hk _ _ _ (Nat.ne_of_lt hs)
    have h2 : starLoop p false t (pos + 1) caps k = none :=
      ih (pos + 1) (by simp only [List.length_cons] at hs; omega)
    simp [starLoop, h1, h2]

/-- A lazy repetition whose continuation only accepts a rest of length `n` hands over
exactly at that rest. -/
theorem starLoop_lazy_exact (p : Char → Bool) (k : Cont) (n : Nat)
    (hk : ∀ pos1 s1 c1, s1.length ≠ n → k pos1 s1 c1 = none) (w s1 : Runes) (pos : Nat)
    (caps : Caps) (hw : ∀ c ∈ w, p c = true) (hs : s1.length = n) :
    starLoop p false (w ++ s1) pos caps k = k (pos + w.length) s1 caps := by
  induction w generalizing pos with
  | nil =>
    cases s1 with
    | nil => simp [starLoop]
    | cons c t =>
      have h2 : starLoop p false t (pos + 1) caps k = none :=
        starLoop_lazy_short p k n hk t (pos + 1) caps (by simp only [List.length_cons] at hs; omega)
      simp [starLoop, h2]
  | cons c w1 ih =>
    have hc : p c = true := hw c (by simp)
    have h1 : k pos (c :: (w1 ++ s1)) caps = none :=
      hk _ _ _ (by simp only [List.length_cons, List.length_append]; omega)
    have h2 := ih (pos + 1) (fun d hd => hw d (by simp [hd]))
    rw [List.cons_append, starLoop]
    simp only [Bool.false_eq_true, if_false, hc, if_true, h1, orElse_none_left, h2,
      List.length_cons]
    rw [show pos + 1 + w1.length = pos + (w1.length + 1) by omega]

theorem isVerbChar_cases (v : Char) (h : isVerbChar v = true) :
    isFlagChar v = false ∧ isDigit v = false ∧ v ≠ '.' := by
  have hm : v ∈ "sdftv%xXobBeEfFgGqp".toList := List.elem_iff.mp h
  have hall : ∀ x ∈ "sdftv%xXobBeEfFgGqp".toList,
      isFlagChar x = false ∧ isDigit x = false ∧ x ≠ '.' := by decide
  exact hall v hm

/-- A `%` directly followed by a verb is a directive of two characters. -/
theorem matchAt_placeholderRe_verb (pos : Nat) (v : Char) (t : Runes)
    (hv : isVerbChar v = true) :
    matchAt placeholderRe pos ('%' :: v :: t) = some (pos + 2, []) := by
  obtain ⟨h1, h2, h3⟩ := isVerbChar_cases v hv
  simp [matchAt, placeholderRe, Re.run, h1, h2, h3, hv]

/-- The scanner finds the one directive of a template `L1 ++ '%' :: v :: L2` without other
`%`. -/
theorem scan_single_verb (L1 L2 : Runes) (v : Char) (hv : isVerbChar v = true)
    (h1 : '%' ∉ L1) (h2 : '%' ∉ L2) :
    findAllStringIndex placeholderRe (L1 ++ ['%', v] ++ L2) =
      [(L1.length, L1.length + ['%', v].length)] := by
  have hs : search placeholderRe 0 (L1 ++ '%' :: v :: L2) =
      some (L1.length, L1.length + 2, []) := by
    rw [search_placeholderRe_skip L1 _ 0 h1, search, matchAt_placeholderRe_verb _ _ _ hv]
    simp
  have hlen : (L1 ++ '%' :: v :: L2).length + 1 = (L1.length + L2.length + 1) + 1 + 1 := by
    simp only [List.length_append, List.length_cons]; omega
  have hd : (L1 ++ '%' :: v :: L2).drop (L1.length + 2 - 0) = L2 := by
    rw [Nat.sub_zero, ← List.drop_drop, List.drop_left]
    rfl
  have he : L1 ++ ['%', v] ++ L2 = L1 ++ '%' :: v :: L2 := by simp
  rw [he, findAllStringIndex, hlen, allMatchesLoop_step _ _ _ _ _ _ _ _ hs (by omega), hd,
    allMatchesLoop_none _ _ _ _ _ (search_placeholderRe_none L2 _ h2)]
  rfl

theorem capture_plain_s :
    getCapturePattern (parsePlaceholder (text "%s".toList)) =
      Re.group (Re.star isDot false) := rfl

theorem run_star (p : Char → Bool) (greedy : Bool) (g pos : Nat) (s : Runes) (caps : Caps)
    (k : Cont) : (Re.star p greedy).run g pos s caps k = starLoop p greedy s pos caps k := rfl

/-- The capture of an unmodified `%s` is the text between the literals. -/
theorem submatch_single_s (L1 L2 : Runes) (v : GoString) (hv : ∀ c ∈ decode v, isDot c = true) :
    findStringSubmatch (singlePattern L1 "%s".toList L2) (text L1 ++ v ++ text L2) =
      some [text L1 ++ v ++ text L2, v] := by
  have hm : matchAt (singlePattern L1 "%s".toList L2) 0 (L1 ++ decode v ++ L2) =
      some ((text L1 ++ v ++ text L2).length,
        [(1, (text L1).length, (text L1).length + v.length)]) := by
    rw [singlePattern, capture_plain_s, matchAt, run_catRe_cons, run_bol, run_catRe_cons,
      List.append_assoc, run_litRe_append, run_catRe_cons, run_group, run_star,
      starLoop_lazy_exact isDot _ L2.length _ (decode v) L2 _ _ hv rfl]
    · rw [run_lit_eol, if_pos rfl]
      simp only [List.length_append, length_text, length_decode, Nat.zero_add,
        Option.some.injEq, Prod.mk.injEq, and_true]
      simp [Re.numGroups, numGroups_litRe]
    · intro pos1 s1 c1 h
      exact run_lit_eol_length _ _ _ _ _ h
  have hg : (singlePattern L1 "%s".toList L2).numGroups = 1 := by
    rw [singlePattern, capture_plain_s]
    simp [catRe, Re.numGroups, numGroups_litRe]
  apply submatches_one _ _ _ _ hg
  rw [singlePattern, search_bol_zero, ← singlePattern]
  simp only [decode_append, decode_text, hm, Option.map_some']

/-- Extraction against `L1 ++ "%s" ++ L2`: the text between the literals is converted. -/
theorem extractValues_single_s (lib : GoLib) (L1 L2 : Runes) (v : GoString) (h1 : '%' ∉ L1)
    (h2 : '%' ∉ L2) (hv : ∀ c ∈ decode v, isDot c = true) :
    extractValues lib (text (L1 ++ "%s".toList ++ L2)) (text L1 ++ v ++ text L2) =
      ([Value.str (trimSpace v)], none) := by
  have hscan := scan_single_verb L1 L2 's' (by decide) h1 h2
  rw [extractValues_single lib L1 "%s".toList L2 _ hscan (by decide),
    submatch_single_s L1 L2 v hv]
  rfl

/-! ## Formatting a single placeholder -/

theorem doPrintf_literal (lib : GoLib) (L rest : GoString) (fuel : Nat) (a : List lib.Val)
    (argNum : Nat) (hL : Glyph.rune '%' ∉ L) :
    doPrintf lib (fuel + L.length) (L ++ rest) a argNum = L ++ doPrintf lib fuel rest a argNum := by
  induction L with
  | nil => rfl
  | cons c t ih =>
    have hc : c ≠ Glyph.rune '%' := fun e => hL (by simp [e])
    have ht : Glyph.rune '%' ∉ t := fun e => hL (by simp [e])
    rw [List.length_cons, ← Nat.add_assoc, List.cons_append, doPrintf_cons_ne lib _ c _ a argNum hc,
      ih ht]
    rfl

theorem not_mem_text_percent (L : Runes) (h : '%' ∉ L) : Glyph.rune '%' ∉ text L := by
  intro hm
  obtain ⟨c, hc, e⟩ := List.mem_map.mp hm
  have : c = '%' := by simpa using e
  exact h (this ▸ hc)

theorem directive_s (lib : GoLib) (t v : GoString) :
    directive lib (Glyph.rune 's' :: t) [Value.str v] 0 = some (v, t, 1) := by
  simp [directive, parseFlags, parsenum, parsenumLoop, isDigit, printArg, fmtS, padString,
    FmtFlags.clear, Glyph.toRune]

theorem fmtInteger_clear (n : Int) : fmtInteger FmtFlags.clear n 10 false = text (itoa n) := by
  unfold fmtInteger itoa
  by_cases hn : n < 0
  · simp [FmtFlags.clear, padString, hn]
  · simp [FmtFlags.clear, padString, hn]

theorem directive_d (lib : GoLib) (t : GoString) (n : Int) :
    directive lib (Glyph.rune 'd' :: t) [Value.int n] 0 = some (text (itoa n), t, 1) := by
  have h := fmtInteger_clear n
  simp only [FmtFlags.clear] at h
  simp [directive, parseFlags, parsenum, parsenumLoop, isDigit, printArg, FmtFlags.clear, h,
    Glyph.toRune]

/-- The formatter on a template with one placeholder between literals without `%`. -/
theorem sprintf_single (lib : GoLib) (L1 L2 out : GoString) (v : Char) (x : lib.Val)
    (h1 : Glyph.rune '%' ∉ L1) (h2 : Glyph.rune '%' ∉ L2)
    (hd : ∀ t, directive lib (Glyph.rune v :: t) [x] 0 = some (out, t, 1)) :
    sprintf lib (L1 ++ [Glyph.rune '%', Glyph.rune v] ++ L2) [x] = L1 ++ out ++ L2 := by
  have hlen : (L1 ++ [Glyph.rune '%', Glyph.rune v] ++ L2).length + 1 =
      (1 + L2.length + 1 + 1) + L1.length := by
    simp only [List.length_append, List.length_cons, List.length_nil]; omega
  rw [sprintf, hlen, List.append_assoc, doPrintf_literal lib L1 _ _ _ _ h1]
  simp only [List.cons_append, List.nil_append]
  rw [doPrintf, if_pos (by rfl), hd]
  simp only
  have := doPrintf_literal lib L2 [] 2 [x] 1 h2
  rw [List.append_nil] at this
  rw [show 1 + L2.length + 1 = 2 + L2.length by omega, this]
  simp [doPrintf, extraArgs]

/-! ## Only extraction can fail -/

/-- C11: `applyValues` returns a nil error for every translation and every value sequence;
`Sreprintf` returns an error if and only if `extractValues` does, its string result is then
empty, and on success its result is that of `applyValues` on the extracted values. -/
theorem Sreprintf_fails_only_in_extraction (lib : GoLib)
    (template message translation : GoString) :
    (∀ values : List lib.Val, (applyValues lib translation values).2 = none) ∧
      ((Sreprintf lib template message translation).2 ≠ none ↔
        (extractValues lib template message).2 ≠ none) ∧
      ((Sreprintf lib template message translation).2 ≠ none →
        (Sreprintf lib template message translation).1 = [] ∧
          (Sreprintf lib template message translation).2 =
            (extractValues lib template message).2) ∧
      ((Sreprintf lib template message translation).2 = none →
        Sreprintf lib template message translation =
          applyValues lib translation (extractValues lib template message).1) := by
  refine ⟨fun _ => rfl, ?_, ?_, ?_⟩ <;>
    (unfold Sreprintf
     cases hx : extractValues lib template message with
     | mk values err =>
       cases err with
       | none => simp [applyValues]
       | some e => simp)

/-- C11 at a message that does not match and at one that does. -/
theorem Sreprintf_fails_only_in_extraction_witness :
    Sreprintf sampleLib (text "Hello %s".toList) (text "Goodbye World".toList)
          (text "%s".toList) =
        ([], some "message does not match template") ∧
      Sreprintf sampleLib (text "Hello %s".toList) (text "Hello World".toList)
          (text "%s and %s".toList) =
        applyValues sampleLib (text "%s and %s".toList)
          (extractValues sampleLib (text "Hello %s".toList) (text "Hello World".toList)).1 :=
  ⟨Prod.ext
      ((Sreprintf_fails_only_in_extraction sampleLib (text "Hello %s".toList)
        (text "Goodbye World".toList) (text "%s".toList)).2.2.1 (by decide)).1
      (by decide),
    (Sreprintf_fails_only_in_extraction sampleLib (text "Hello %s".toList)
      (text "Hello World".toList) (text "%s and %s".toList)).2.2.2 (by decide)⟩

/-! ## The scanner on a directive of its grammar -/

theorem run_seq (a b : Re) (g pos : Nat) (s : Runes) (caps : Caps) (k : Cont) :
    (Re.seq a b).run g pos s caps k =
      a.run g pos s caps (fun p1 s1 c1 => b.run (g + a.numGroups) p1 s1 c1 k) := rfl

theorem run_opt (a : Re) (g pos : Nat) (s : Runes) (caps : Caps) (k : Cont) :
    (Re.opt a).run g pos s caps k = orElse (a.run g pos s caps k) (k pos s caps) := rfl

theorem run_cls_cons (p : Char → Bool) (d : Char) (t : Runes) (g pos : Nat) (caps : Caps)
    (k : Cont) :
    (Re.cls p).run g pos (d :: t) caps k = if p d then k (pos + 1) t caps else none := rfl

theorem run_cls_nil (p : Char → Bool) (g pos : Nat) (caps : Caps) (k : Cont) :
    (Re.cls p).run g pos [] caps k = none := rfl

theorem run_plus_nil (p : Char → Bool) (greedy : Bool) (g pos : Nat) (caps : Caps) (k : Cont) :
    (Re.plus p greedy).run g pos [] caps k = none := rfl

/-- A greedy repetition stops at the first character outside the class when the
continuation succeeds there. -/
theorem starLoop_greedy_first (p : Char → Bool) (w s : Runes) (pos : Nat) (caps : Caps)
    (k : Cont) (r : Nat × Caps) (hw : ∀ c ∈ w, p c = true)
    (hs : ∀ c t, s = c :: t → p c = false) (hk : k (pos + w.length) s caps = some r) :
    starLoop p true (w ++ s) pos caps k = some r := by
  induction w generalizing pos with
  | nil =>
    cases s with
    | nil => simpa [starLoop] using hk
    | cons c t =>
      have hc := hs c t rfl
      simp only [List.nil_append, starLoop, if_true, hc, Bool.false_eq_true, if_false,
        orElse_none_left]
      simpa using hk
  | cons c w1 ih =>
    have hc : p c = true := hw c (by simp)
    have h2 := ih (pos + 1) (fun d hd => hw d (by simp [hd]))
      (by rw [← hk, List.length_cons]; congr 1; omega)
    rw [List.cons_append, starLoop]
    simp only [if_true, hc, h2, orElse_some_left]

/-- The optional width of the scanner. -/
theorem run_width (w s : Runes) (g pos : Nat) (caps : Caps) (k : Cont) (r : Nat × Caps)
    (hw : ∀ c ∈ w, isDigit c = true) (hs : ∀ c t, s = c :: t → isDigit c = false)
    (hk : k (pos + w.length) s caps = some r) :
    (Re.opt (Re.plus isDigit true)).run g pos (w ++ s) caps k = some r := by
  rw [run_opt]
  cases w with
  | nil =>
    have h1 : (Re.plus isDigit true).run g pos ([] ++ s) caps k = none := by
      cases s with
      | nil => rfl
      | cons c t => rw [List.nil_append, run_plus_cons, hs c t rfl]; rfl
    rw [h1, orElse_none_left]
    simpa using hk
  | cons d w1 =>
    rw [List.cons_append, run_plus_cons, if_pos (hw d (by simp)),
      starLoop_greedy_first isDigit w1 s (pos + 1) caps k r (fun c hc => hw c (by simp [hc])) hs
        (by rw [← hk, List.length_cons]; congr 1; omega)]
    rfl

/-- The optional flag of the scanner. -/
theorem run_flag (flag : Option Char) (s : Runes) (g pos : Nat) (caps : Caps) (k : Cont)
    (r : Nat × Caps) (hf : ∀ f ∈ flag, isFlagChar f = true)
    (hs : ∀ c t, s = c :: t → isFlagChar c = false)
    (hk : k (pos + flag.toList.length) s caps = some r) :
    (Re.opt (Re.cls isFlagChar)).run g pos (flag.toList ++ s) caps k = some r := by
  rw [run_opt]
  cases flag with
  | none =>
    have h1 : (Re.cls isFlagChar).run g pos s caps k = none := by
      cases s with
      | nil => rfl
      | cons c t => rw [run_cls_cons, hs c t rfl]; rfl
    simp only [Option.toList, List.nil_append, h1, orElse_none_left]
    simpa using hk
  | some f =>
    have hk1 : k (pos + 1) s caps = some r := by simpa using hk
    simp only [Option.toList, List.cons_append, List.nil_append, run_cls_cons,
      hf f rfl, if_true, hk1, orElse_some_left]

/-- The optional precision of the scanner. -/
theorem run_prec (prec : Option Runes) (s : Runes) (g pos : Nat) (caps : Caps)
    (k : Cont) (r : Nat × Caps)
    (hp : ∀ p ∈ prec, p ≠ [] ∧ ∀ c ∈ p, isDigit c = true)
    (hs : ∀ c t, s = c :: t → isDigit c = false ∧ c ≠ '.')
    (hk : k (pos + (precText prec).length) s caps = some r) :
    (Re.opt (Re.seq (Re.char '.') (Re.plus isDigit true))).run g pos
        ((precText prec) ++ s) caps k = some r := by
  rw [run_opt]
  cases prec with
  | none =>
    have h1 : (Re.seq (Re.char '.') (Re.plus isDigit true)).run g pos s caps k = none := by
      cases s with
      | nil => rfl
      | cons c t => rw [run_seq, run_char_cons, if_neg (hs c t rfl).2]
    simp only [precText, List.nil_append, h1, orElse_none_left]
    simpa [precText] using hk
  | some p =>
    obtain ⟨hne, hdig⟩ := hp p rfl
    obtain ⟨d, p1, rfl⟩ := List.exists_cons_of_ne_nil hne
    simp only [precText, List.cons_append, run_seq, run_char_cons, if_true, run_plus_cons,
      hdig d (by simp)]
    rw [starLoop_greedy_first isDigit p1 s (pos + 1 + 1) caps k r
      (fun c hc => hdig c (by simp [hc])) (fun c t e => (hs c t e).1)
      (by rw [← hk]; simp only [precText, List.length_cons]; congr 1; omega)]
    rfl

theorem isDirective_parts (flag : Option Char) (width : Runes) (prec : Option Runes)
    (verb : Char) (h : isDirective flag width prec verb = true) :
    (∀ f ∈ flag, isFlagChar f = true) ∧ (∀ c ∈ width, isDigit c = true) ∧
      (∀ p ∈ prec, p ≠ [] ∧ ∀ c ∈ p, isDigit c = true) ∧ isVerbChar verb = true := by
  simp only [isDirective, Bool.and_eq_true] at h
  obtain ⟨⟨⟨hf, hw⟩, hp⟩, hv⟩ := h
  refine ⟨?_, ?_, ?_, hv⟩
  · intro f hfm
    cases flag with
    | none => simp at hfm
    | some f1 =>
      have : f1 = f := by simpa using hfm
      subst this
      simpa using hf
  · intro c hc
    exact List.all_eq_true.mp hw c hc
  · intro p hpm
    cases prec with
    | none => simp at hpm
    | some p1 =>
      have : p1 = p := by simpa using hpm
      subst this
      simp only [Bool.and_eq_true, Bool.not_eq_true', List.isEmpty_eq_false] at hp
      exact ⟨by
        intro e
        rw [e] at hp
        simp at hp, fun c hc => List.all_eq_true.mp hp.2 c hc⟩

theorem isFlagChar_digit (c : Char) (h : isDigit c = true) : isFlagChar c = false := by
  rw [isDigit_iff] at h
  simp only [isFlagChar, Bool.or_eq_false_iff, decide_eq_false_iff_not]
  refine ⟨⟨?_, ?_⟩, ?_⟩ <;> (rintro rfl; revert h; decide)

/-- The scanner matches a directive of its grammar as a whole, whatever follows. -/
theorem matchAt_placeholderRe_directive (flag : Option Char) (width : Runes)
    (prec : Option Runes) (verb : Char) (h : isDirective flag width prec verb = true)
    (pos : Nat) (rest : Runes) :
    matchAt placeholderRe pos (directiveText flag width prec verb ++ rest) =
      some (pos + (directiveText flag width prec verb).length, []) := by
  obtain ⟨hf, hw, hp, hv⟩ := isDirective_parts flag width prec verb h
  obtain ⟨hv1, hv2, hv3⟩ := isVerbChar_cases verb hv
  -- what follows the precision starts with the verb
  have hs3 : ∀ c t, verb :: rest = c :: t → isDigit c = false ∧ c ≠ '.' := by
    intro c t e
    have : verb = c := (List.cons.inj e).1
    subst this
    exact ⟨hv2, hv3⟩
  -- what follows the width starts with `.` or with the verb
  have hs2 : ∀ c t, (precText prec) ++ verb :: rest = c :: t → isDigit c = false := by
    intro c t e
    cases prec with
    | none =>
      have : verb = c := (List.cons.inj e).1
      subst this
      exact hv2
    | some p =>
      have : '.' = c := (List.cons.inj e).1
      subst this
      rfl
  -- what follows the flag starts with a digit, with `.` or with the verb
  have hs1 : ∀ c t, width ++ ((precText prec) ++ verb :: rest) = c :: t → isFlagChar c = false := by
    intro c t e
    cases width with
    | nil =>
      cases prec with
      | none =>
        have : verb = c := (List.cons.inj e).1
        subst this
        exact hv1
      | some p =>
        have : '.' = c := (List.cons.inj e).1
        subst this
        rfl
    | cons d w1 =>
      have : d = c := (List.cons.inj e).1
      subst this
      exact isFlagChar_digit d (hw d (by simp))
  have hshape : directiveText flag width prec verb ++ rest =
      '%' :: (flag.toList ++ (width ++ ((precText prec) ++ verb :: rest))) := by
    simp [directiveText, List.append_assoc]
  have hlen : (directiveText flag width prec verb).length =
      1 + flag.toList.length + width.length + (precText prec).length + 1 := by
    simp only [directiveText, List.length_cons, List.length_append, List.length_nil]
    omega
  rw [hshape, hlen, matchAt, placeholderRe, run_seq, run_char_cons, if_pos rfl, run_seq]
  apply run_flag flag _ _ _ _ _ _ hf hs1
  rw [run_seq]
  apply run_width width _ _ _ _ _ _ hw hs2
  rw [run_seq]
  apply run_prec prec _ _ _ _ _ _ hp hs3
  rw [run_cls_cons, if_pos hv]
  congr 2
  omega

/-- The scanner finds the one directive of a template `L1 ++ D ++ L2` without other `%`. -/
theorem scan_single_directive (L1 D L2 : Runes)
    (hm : ∀ pos rest, matchAt placeholderRe pos (D ++ rest) = some (pos + D.length, []))
    (hD : D ≠ []) (h1 : '%' ∉ L1) (h2 : '%' ∉ L2) :
    findAllStringIndex placeholderRe (L1 ++ D ++ L2) = [(L1.length, L1.length + D.length)] := by
  obtain ⟨c, t, rfl⟩ := List.exists_cons_of_ne_nil hD
  have hs : search placeholderRe 0 (L1 ++ (c :: t) ++ L2) =
      some (L1.length, L1.length + (c :: t).length, []) := by
    have hmm := hm (0 + L1.length) L2
    rw [List.cons_append] at hmm
    rw [List.append_assoc, search_placeholderRe_skip L1 _ 0 h1, List.cons_append, search, hmm]
    simp
  have hlen : (L1 ++ (c :: t) ++ L2).length + 1 = (L1.length + t.length + L2.length + 1) + 1 := by
    simp only [List.length_append, List.length_cons]; omega
  have hd : (L1 ++ (c :: t) ++ L2).drop (L1.length + (c :: t).length - 0) = L2 := by
    rw [Nat.sub_zero]
    exact drop_right L1 (c :: t) L2
  rw [findAllStringIndex, hlen,
    allMatchesLoop_step _ _ _ _ _ _ _ _ hs (by simp only [List.length_cons]; omega), hd]
  have hf : L1.length + t.length + L2.length + 1 = (L1.length + t.length + L2.length) + 1 := rfl
  rw [hf, allMatchesLoop_none _ _ _ _ _ (search_placeholderRe_none L2 _ h2)]

theorem directiveText_ne_nil (flag : Option Char) (width : Runes) (prec : Option Runes)
    (verb : Char) : directiveText flag width prec verb ≠ [] := by
  simp [directiveText]

theorem lastByte_verb (v : Char) (h : isVerbChar v = true) : lastByte v = v := by
  have hm : v ∈ "sdftv%xXobBeEfFgGqp".toList := List.elem_iff.mp h
  have hall : ∀ x ∈ "sdftv%xXobBeEfFgGqp".toList, lastByte x = x := by decide
  exact hall v hm

theorem any_eq_false_of_forall (p : Char → Bool) (l : Runes) (h : ∀ c ∈ l, p c = false) :
    l.any p = false := by
  induction l with
  | nil => rfl
  | cons c t ih => simp [h c (by simp), ih (fun d hd => h d (by simp [hd]))]

theorem any_eq_not_isEmpty (p : Char → Bool) (l : Runes) (h : ∀ c ∈ l, p c = true) :
    l.any p = !l.isEmpty := by
  cases l with
  | nil => rfl
  | cons c t => simp [h c (by simp)]

theorem isDigit_flagChar (c : Char) (h : isFlagChar c = true) : isDigit c = false := by
  cases hd : isDigit c with
  | false => rfl
  | true => rw [isFlagChar_digit c hd] at h; exact absurd h (by simp)

theorem isDigit_ne_dot (c : Char) (h : isDigit c = true) : c ≠ '.' := by
  rw [isDigit_iff] at h
  rintro rfl
  revert h
  decide

theorem contains_append_char (a b : Runes) (c : Char) :
    (a ++ b).contains c = (a.contains c || b.contains c) := by
  simp [List.contains_eq_any_beq]

/-- What `parsePlaceholder` returns for a directive of the scanner's grammar: the verb is
the last character and `hasFlag`, `hasPrecision` tell whether the part is present, while
`hasWidth` is set as soon as the directive contains a digit, in the width or in the
precision. -/
theorem parsePlaceholder_directiveText (flag : Option Char) (width : Runes)
    (prec : Option Runes) (verb : Char) (h : isDirective flag width prec verb = true) :
    parsePlaceholder (text (directiveText flag width prec verb)) =
      { start := 0, stop := 0, placeholder := text (directiveText flag width prec verb),
        verb := verb, hasFlag := flag.isSome,
        hasWidth := !width.isEmpty || prec.isSome, hasPrecision := prec.isSome } := by
  obtain ⟨hf, hw, hp, hv⟩ := isDirective_parts flag width prec verb h
  have hdt : text (directiveText flag width prec verb) =
      Glyph.rune '%' :: (text (flag.toList ++ width ++ (precText prec)) ++
        [Glyph.rune verb]) := by
    simp [directiveText, List.append_assoc, text]
  have hflag1 : flag.toList.any isFlagChar = flag.isSome := by
    cases flag with
    | none => rfl
    | some f => simp [hf f rfl]
  have hflag2 : flag.toList.any isDigit = false :=
    any_eq_false_of_forall _ _ (fun c hc => isDigit_flagChar c (hf c (by simpa using hc)))
  have hflag3 : flag.toList.contains '.' = false := by
    cases flag with
    | none => rfl
    | some f =>
      have : f ≠ '.' := by
        have := hf f rfl
        rintro rfl
        revert this
        decide
      simp [Ne.symm this]
  have hw1 : width.any isFlagChar = false :=
    any_eq_false_of_forall _ _ (fun c hc => isFlagChar_digit c (hw c hc))
  have hw2 : width.any isDigit = !width.isEmpty := any_eq_not_isEmpty _ _ hw
  have hw3 : width.contains '.' = false := by
    cases hc : width.contains '.' with
    | false => rfl
    | true => exact absurd rfl (isDigit_ne_dot '.' (hw '.' (List.elem_iff.mp hc)))
  have hp1 : (precText prec).any isFlagChar = false := by
    cases prec with
    | none => rfl
    | some p =>
      have := any_eq_false_of_forall isFlagChar p
        (fun c hc => isFlagChar_digit c ((hp p rfl).2 c hc))
      simp [precText, this, isFlagChar]
  have hp2 : (precText prec).any isDigit = prec.isSome := by
    cases prec with
    | none => rfl
    | some p =>
      obtain ⟨hne, hdig⟩ := hp p rfl
      have := any_eq_not_isEmpty isDigit p hdig
      cases p with
      | nil => exact absurd rfl hne
      | cons d p1 => simp [precText, hdig d (by simp)]
  have hp3 : (precText prec).contains '.' = prec.isSome := by
    cases prec with
    | none => rfl
    | some p => simp [precText]
  rw [hdt, parsePlaceholder]
  simp only [ne_eq, not_true_eq_false, false_or, List.append_eq_nil, List.cons_ne_self,
    and_false, if_false, List.dropLast_concat, List.getLastD_concat, Glyph.lastByte,
    decode_text, lastByte_verb verb hv,
    List.any_append, contains_append_char, hflag1, hflag2, hflag3, hw1, hw2, hw3, hp1, hp2, hp3,
    Bool.or_false, Bool.false_or]

/-! ## The matcher against the language of a pattern -/

theorem plain_numGroups (r : Re) (h : r.plain = true) : r.numGroups = 0 := by
  induction r with
  | seq a b iha ihb =>
    simp only [Re.plain, Bool.and_eq_true] at h
    simp [Re.numGroups, iha h.1, ihb h.2]
  | alt a b iha ihb =>
    simp only [Re.plain, Bool.and_eq_true] at h
    simp [Re.numGroups, iha h.1, ihb h.2]
  | opt a iha => exact iha h
  | group a _ => simp [Re.plain] at h
  | _ => rfl

theorem starLoop_accepts (p : Char → Bool) (greedy : Bool) (s : Runes) (pos : Nat)
    (caps : Caps) (k : Cont) (res : Nat × Caps)
    (h : starLoop p greedy s pos caps k = some res) :
    ∃ w s1, s = w ++ s1 ∧ (∀ c ∈ w, p c = true) ∧ k (pos + w.length) s1 caps = some res := by
  induction s generalizing pos with
  | nil => exact ⟨[], [], rfl, by simp, by simpa [starLoop] using h⟩
  | cons c t ih =>
    have step : (if p c = true then starLoop p greedy t (pos + 1) caps k else none) = some res →
        ∃ w s1, c :: t = w ++ s1 ∧ (∀ d ∈ w, p d = true) ∧
          k (pos + w.length) s1 caps = some res := by
      intro h1
      by_cases hc : p c = true
      · rw [if_pos hc] at h1
        obtain ⟨w, s1, hs, hw, hk⟩ := ih (pos + 1) h1
        refine ⟨c :: w, s1, by rw [hs]; rfl, ?_, ?_⟩
        · intro d hd
          rcases List.mem_cons.mp hd with rfl | hd
          · exact hc
          · exact hw d hd
        · rw [← hk, List.length_cons]
          congr 1
          omega
      · rw [if_neg hc] at h1
        exact absurd h1 (by simp)
    have here : k pos (c :: t) caps = some res →
        ∃ w s1, c :: t = w ++ s1 ∧ (∀ d ∈ w, p d = true) ∧
          k (pos + w.length) s1 caps = some res :=
      fun h1 => ⟨[], c :: t, rfl, by simp, by simpa using h1⟩
    rw [starLoop] at h
    cases greedy with
    | true =>
      simp only [if_true] at h
      rcases orElse_some _ _ _ h with h1 | h1
      · exact step h1
      · exact here h1
    | false =>
      simp only [Bool.false_eq_true, if_false] at h
      rcases orElse_some _ _ _ h with h1 | h1
      · exact here h1
      · exact step h1

/-- A match of a plain pattern consumes a text of its language. -/
theorem run_plain_accepts (r : Re) (hr : r.plain = true) (g pos : Nat) (s : Runes)
    (caps : Caps) (k : Cont) (res : Nat × Caps) (h : r.run g pos s caps k = some res) :
    ∃ w s1, s = w ++ s1 ∧ r.accepts w ∧ k (pos + w.length) s1 caps = some res := by
  induction r generalizing g pos s caps k with
  | eps => exact ⟨[], s, rfl, rfl, by simpa [Re.run] using h⟩
  | char c =>
    cases s with
    | nil => simp [Re.run] at h
    | cons d t =>
      rw [run_char_cons] at h
      by_cases hd : d = c
      · rw [if_pos hd] at h
        exact ⟨[d], t, rfl, by rw [hd]; rfl, by simpa using h⟩
      · rw [if_neg hd] at h
        exact absurd h (by simp)
  | cls p =>
    cases s with
    | nil => simp [Re.run] at h
    | cons d t =>
      rw [run_cls_cons] at h
      by_cases hd : p d = true
      · rw [if_pos hd] at h
        exact ⟨[d], t, rfl, ⟨d, rfl, hd⟩, by simpa using h⟩
      · rw [if_neg hd] at h
        exact absurd h (by simp)
  | seq a b iha ihb =>
    simp only [Re.plain, Bool.and_eq_true] at hr
    rw [run_seq] at h
    obtain ⟨w1, s1, hs1, ha1, hk1⟩ := iha hr.1 _ _ _ _ _ h
    obtain ⟨w2, s2, hs2, ha2, hk2⟩ := ihb hr.2 _ _ _ _ _ hk1
    refine ⟨w1 ++ w2, s2, by rw [hs1, hs2, List.append_assoc], ⟨w1, w2, rfl, ha1, ha2⟩, ?_⟩
    rw [← hk2, List.length_append]
    congr 1
    omega
  | alt a b iha ihb =>
    simp only [Re.plain, Bool.and_eq_true] at hr
    simp only [Re.run] at h
    rcases orElse_some _ _ _ h with h1 | h1
    · obtain ⟨w, s1, hs, ha, hk⟩ := iha hr.1 _ _ _ _ _ h1
      exact ⟨w, s1, hs, Or.inl ha, hk⟩
    · obtain ⟨w, s1, hs, ha, hk⟩ := ihb hr.2 _ _ _ _ _ h1
      exact ⟨w, s1, hs, Or.inr ha, hk⟩
  | opt a iha =>
    rw [run_opt] at h
    rcases orElse_some _ _ _ h with h1 | h1
    · obtain ⟨w, s1, hs, ha, hk⟩ := iha hr _ _ _ _ _ h1
      exact ⟨w, s1, hs, Or.inl ha, hk⟩
    · exact ⟨[], s, rfl, Or.inr rfl, by simpa using h1⟩
  | star p greedy => exact starLoop_accepts p greedy s pos caps k res (by simpa [Re.run] using h)
  | plus p greedy =>
    cases s with
    | nil => simp [Re.run] at h
    | cons d t =>
      rw [run_plus_cons] at h
      by_cases hd : p d = true
      · rw [if_pos hd] at h
        obtain ⟨w, s1, hs, hw, hk⟩ := starLoop_accepts p greedy t (pos + 1) caps k res h
        refine ⟨d :: w, s1, by rw [hs]; rfl, ⟨by simp, ?_⟩, ?_⟩
        · intro c hc
          rcases List.mem_cons.mp hc with rfl | hc
          · exact hd
          · exact hw c hc
        · rw [← hk, List.length_cons]
          congr 1
          omega
      · rw [if_neg hd] at h
        exact absurd h (by simp)
  | group a _ => simp [Re.plain] at hr
  | bol => simp [Re.plain] at hr
  | eol => simp [Re.plain] at hr
  | bad b => simp [Re.run] at h

theorem orElse_isSome_left (a b : MatchResult) (h : ∃ res, a = some res) :
    ∃ res, orElse a b = some res := by
  obtain ⟨res, rfl⟩ := h
  exact ⟨res, rfl⟩

theorem orElse_isSome_right (a b : MatchResult) (h : ∃ res, b = some res) :
    ∃ res, orElse a b = some res := by
  cases a with
  | none => simpa using h
  | some r => exact ⟨r, rfl⟩

theorem starLoop_complete (p : Char → Bool) (greedy : Bool) (w s1 : Runes) (pos : Nat)
    (caps : Caps) (k : Cont) (r0 : Nat × Caps) (hw : ∀ c ∈ w, p c = true)
    (hk : k (pos + w.length) s1 caps = some r0) :
    ∃ res, starLoop p greedy (w ++ s1) pos caps k = some res := by
  induction w generalizing pos with
  | nil =>
    have hk0 : k pos s1 caps = some r0 := by simpa using hk
    cases s1 with
    | nil => exact ⟨r0, by simpa [starLoop] using hk0⟩
    | cons c t =>
      rw [List.nil_append, starLoop]
      cases greedy with
      | true => exact orElse_isSome_right _ _ ⟨r0, hk0⟩
      | false => exact orElse_isSome_left _ _ ⟨r0, hk0⟩
  | cons c w1 ih =>
    have hc : p c = true := hw c (by simp)
    have h2 := ih (pos + 1) (fun d hd => hw d (by simp [hd]))
      (by rw [← hk, List.length_cons]; congr 1; omega)
    rw [List.cons_append, starLoop]
    simp only [hc, if_true]
    cases greedy with
    | true => exact orElse_isSome_left _ _ h2
    | false => exact orElse_isSome_right _ _ h2

/-- A plain pattern finds a match whenever the text starts with a text of its language
after which the continuation succeeds. -/
theorem run_plain_complete (r : Re) (hr : r.plain = true) (w : Runes) (hacc : r.accepts w)
    (g pos : Nat) (s1 : Runes) (caps : Caps) (k : Cont) (r0 : Nat × Caps)
    (hk : k (pos + w.length) s1 caps = some r0) :
    ∃ res, r.run g pos (w ++ s1) caps k = some res := by
  induction r generalizing w g pos s1 k r0 with
  | eps =>
    have hw : w = [] := hacc
    subst hw
    exact ⟨r0, by simpa [Re.run] using hk⟩
  | char c =>
    have hw : w = [c] := hacc
    subst hw
    exact ⟨r0, by simpa [Re.run] using hk⟩
  | cls p =>
    obtain ⟨c, rfl, hc⟩ := hacc
    exact ⟨r0, by simpa [Re.run, hc] using hk⟩
  | seq a b iha ihb =>
    simp only [Re.plain, Bool.and_eq_true] at hr
    obtain ⟨w1, w2, rfl, ha1, ha2⟩ := hacc
    obtain ⟨res1, h1⟩ := ihb hr.2 w2 ha2 (g + a.numGroups) (pos + w1.length) s1 k r0
      (by rw [← hk, List.length_append]; congr 1; omega)
    rw [run_seq, List.append_assoc]
    exact iha hr.1 w1 ha1 g pos (w2 ++ s1) _ res1 h1
  | alt a b iha ihb =>
    simp only [Re.plain, Bool.and_eq_true] at hr
    simp only [Re.run]
    rcases hacc with ha | hb
    · exact orElse_isSome_left _ _ (iha hr.1 w ha g pos s1 k r0 hk)
    · exact orElse_isSome_right _ _ (ihb hr.2 w hb _ pos s1 k r0 hk)
  | opt a iha =>
    rw [run_opt]
    rcases hacc with ha | hw
    · exact orElse_isSome_left _ _ (iha hr w ha g pos s1 k r0 hk)
    · subst hw
      exact orElse_isSome_right _ _ ⟨r0, by simpa using hk⟩
  | star p greedy =>
    rw [run_star]
    exact starLoop_complete p greedy w s1 pos caps k r0 hacc hk
  | plus p greedy =>
    obtain ⟨hne, hw⟩ := hacc
    obtain ⟨c, w1, rfl⟩ := List.exists_cons_of_ne_nil hne
    rw [List.cons_append, run_plus_cons, if_pos (hw c (by simp))]
    exact starLoop_complete p greedy w1 s1 (pos + 1) caps k r0
      (fun d hd => hw d (by simp [hd])) (by rw [← hk, List.length_cons]; congr 1; omega)
  | group a _ => simp [Re.plain] at hr
  | bol => simp [Re.plain] at hr
  | eol => simp [Re.plain] at hr
  | bad b => exact absurd hacc (by simp [Re.accepts])

/-! ## One capture between two literals, in general -/

/-- A group around a plain pattern, followed by a literal and the end of the text: the match
exists exactly when the text before the literal is in the language of the pattern, and the
group then spans that text. -/
theorem run_group_lit_eol (a : Re) (ha : a.plain = true) (g g2 pos : Nat) (v L2 : Runes)
    (caps : Caps) :
    (a.accepts v →
        (Re.group a).run g pos (v ++ L2) caps
            (fun p1 s1 c1 => (catRe [litRe L2, Re.eol]).run g2 p1 s1 c1
              (fun e _ c => some (e, c))) =
          some (pos + v.length + L2.length, (g, pos, pos + v.length) :: caps)) ∧
      (¬ a.accepts v →
        (Re.group a).run g pos (v ++ L2) caps
            (fun p1 s1 c1 => (catRe [litRe L2, Re.eol]).run g2 p1 s1 c1
              (fun e _ c => some (e, c))) = none) := by
  rw [run_group]
  have sound : ∀ res, a.run (g + 1) pos (v ++ L2) caps
      (fun pos1 s1 caps1 => (catRe [litRe L2, Re.eol]).run g2 pos1 s1
        ((g, pos, pos1) :: caps1) (fun e _ c => some (e, c))) = some res →
      a.accepts v ∧ res = (pos + v.length + L2.length, (g, pos, pos + v.length) :: caps) := by
    intro res h
    obtain ⟨w, s1, hs, hacc, hk⟩ := run_plain_accepts a ha _ _ _ _ _ res h
    rw [run_lit_eol] at hk
    by_cases h1 : s1 = L2
    · rw [if_pos h1] at hk
      subst h1
      have hw : v = w := List.append_cancel_right hs
      subst hw
      exact ⟨hacc, (Option.some.inj hk).symm⟩
    · rw [if_neg h1] at hk
      exact absurd hk (by simp)
  constructor
  · intro hacc
    obtain ⟨res, hres⟩ := run_plain_complete a ha v hacc (g + 1) pos L2 caps
      (fun pos1 s1 caps1 => (catRe [litRe L2, Re.eol]).run g2 pos1 s1
        ((g, pos, pos1) :: caps1) (fun e _ c => some (e, c)))
      (pos + v.length + L2.length, (g, pos, pos + v.length) :: caps)
      (by (try simp only []); rw [run_lit_eol, if_pos rfl])
    rw [hres, (sound res hres).2]
  · intro hno
    cases hres : a.run (g + 1) pos (v ++ L2) caps
      (fun pos1 s1 caps1 => (catRe [litRe L2, Re.eol]).run g2 pos1 s1
        ((g, pos, pos1) :: caps1) (fun e _ c => some (e, c))) with
    | none => rfl
    | some res => exact absurd (sound res hres).1 hno

/-- The submatches of a template with one real placeholder against `L1 ++ v ++ L2`. -/
theorem submatch_single (L1 D L2 : Runes) (v : GoString) (a : Re)
    (hcap : getCapturePattern (parsePlaceholder (text D)) = Re.group a)
    (ha : a.plain = true) :
    (a.accepts (decode v) →
        findStringSubmatch (singlePattern L1 D L2) (text L1 ++ v ++ text L2) =
          some [text L1 ++ v ++ text L2, v]) ∧
      (¬ a.accepts (decode v) →
        findStringSubmatch (singlePattern L1 D L2) (text L1 ++ v ++ text L2) = none) := by
  have hg : (singlePattern L1 D L2).numGroups = 1 := by
    rw [singlePattern, hcap]
    simp [catRe, Re.numGroups, numGroups_litRe, plain_numGroups a ha]
  have hm : matchAt (singlePattern L1 D L2) 0 (L1 ++ decode v ++ L2) =
      (Re.group a).run (1 + Re.bol.numGroups + (litRe L1).numGroups) (0 + L1.length)
        (decode v ++ L2) []
        (fun p1 s1 c1 => (catRe [litRe L2, Re.eol]).run
          (1 + Re.bol.numGroups + (litRe L1).numGroups + (Re.group a).numGroups) p1 s1 c1
          (fun e _ c => some (e, c))) := by
    rw [singlePattern, hcap, matchAt, run_catRe_cons, run_bol, run_catRe_cons,
      List.append_assoc, run_litRe_append, run_catRe_cons]
  obtain ⟨hyes, hno⟩ := run_group_lit_eol a ha (1 + Re.bol.numGroups + (litRe L1).numGroups)
    (1 + Re.bol.numGroups + (litRe L1).numGroups + (Re.group a).numGroups) (0 + L1.length)
    (decode v) L2 []
  constructor
  · intro hacc
    apply submatches_one _ _ _ _ hg
    rw [singlePattern, search_bol_zero, ← singlePattern, decode_append, decode_append,
      decode_text, decode_text, hm, hyes hacc]
    simp [Re.numGroups, numGroups_litRe]
    omega
  · intro hacc
    rw [findStringSubmatch, singlePattern, search_bol_zero, ← singlePattern, decode_append,
      decode_append, decode_text, decode_text, hm, hno hacc]
    rfl

/-- Extraction against a template with one real placeholder `D` between literals: it
succeeds exactly when the text between the literals, as package `regexp` reads it, is in the
language of the capture pattern, and then converts that text under the verb of `D`. -/
theorem extractValues_single_accepts (lib : GoLib) (L1 D L2 : Runes) (v : GoString) (a : Re)
    (hscan : findAllStringIndex placeholderRe (L1 ++ D ++ L2) =
      [(L1.length, L1.length + D.length)])
    (hD : D ≠ "%%".toList)
    (hcap : getCapturePattern (parsePlaceholder (text D)) = Re.group a)
    (ha : a.plain = true) :
    (a.accepts (decode v) →
        extractValues lib (text (L1 ++ D ++ L2)) (text L1 ++ v ++ text L2) =
          ([convertValue lib v (parsePlaceholder (text D)).verb], none)) ∧
      (¬ a.accepts (decode v) →
        extractValues lib (text (L1 ++ D ++ L2)) (text L1 ++ v ++ text L2) =
          ([], some "message does not match template")) := by
  obtain ⟨hyes, hno⟩ := submatch_single L1 D L2 v a hcap ha
  constructor
  · intro hacc
    rw [extractValues_single lib L1 D L2 _ hscan hD, hyes hacc]
    rfl
  · intro hacc
    rw [extractValues_single lib L1 D L2 _ hscan hD, hno hacc]

theorem directiveText_ne_percent (flag : Option Char) (width : Runes)
    (prec : Option Runes) (verb : Char) (hv : verb ≠ '%') :
    directiveText flag width prec verb ≠ "%%".toList := by
  intro h
  have hl : (directiveText flag width prec verb).getLast? = some verb := by
    have : directiveText flag width prec verb =
        ('%' :: (flag.toList ++ (width ++ precText prec))) ++ [verb] := by
      simp [directiveText, List.append_assoc]
    rw [this, List.getLast?_concat]
  rw [h] at hl
  exact hv (Option.some.inj hl).symm

/-- Extraction against a well-formed template with one directive of the scanner's grammar
between literals without `%`. -/
theorem extractValues_directive (lib : GoLib) (L1 L2 : Runes) (v : GoString)
    (flag : Option Char) (width : Runes) (prec : Option Runes) (verb : Char) (a : Re)
    (hdir : isDirective flag width prec verb = true)
    (hne : directiveText flag width prec verb ≠ "%%".toList)
    (h1 : '%' ∉ L1) (h2 : '%' ∉ L2)
    (hcap : getCapturePattern (parsePlaceholder (text (directiveText flag width prec verb))) =
      Re.group a)
    (ha : a.plain = true) :
    (a.accepts (decode v) →
        extractValues lib (text (L1 ++ directiveText flag width prec verb ++ L2))
            (text L1 ++ v ++ text L2) =
          ([convertValue lib v verb], none)) ∧
      (¬ a.accepts (decode v) →
        extractValues lib (text (L1 ++ directiveText flag width prec verb ++ L2))
            (text L1 ++ v ++ text L2) =
          ([], some "message does not match template")) := by
  have hscan := scan_single_directive L1 (directiveText flag width prec verb) L2
    (matchAt_placeholderRe_directive flag width prec verb hdir)
    (directiveText_ne_nil flag width prec verb) h1 h2
  have hverb : (parsePlaceholder (text (directiveText flag width prec verb))).verb = verb := by
    rw [parsePlaceholder_directiveText flag width prec verb hdir]
  have := extractValues_single_accepts lib L1 (directiveText flag width prec verb) L2 v a hscan
    hne hcap ha
  rw [hverb] at this
  exact this

/-! ## Reading a string rune by rune -/

/-- A string whose runes are all other than U+FFFD is well-formed: it is the text of its
runes. -/
theorem text_decode_of_ne (v : GoString) (h : ∀ c ∈ decode v, c ≠ Char.ofNat 0xFFFD) :
    text (decode v) = v := by
  apply text_decode
  induction v with
  | nil => rfl
  | cons g t ih =>
    cases g with
    | rune c =>
      have := ih (fun c hc => h c (by simp [hc]))
      simpa [wellFormed, Glyph.isRune] using this
    | byte b => exact absurd rfl (h (Char.ofNat 0xFFFD) (by simp [Glyph.toRune]))

/-- A string reads as runes without U+FFFD exactly when it is the text of these runes. -/
theorem decode_eq_iff (v : GoString) (r : Runes) (hr : ∀ c ∈ r, c ≠ Char.ofNat 0xFFFD) :
    decode v = r ↔ v = text r := by
  constructor
  · intro h
    rw [← h, text_decode_of_ne v (by rw [h]; exact hr)]
  · intro h
    rw [h, decode_text]

theorem not_mem_decode (v : GoString) (c : Char) (hc : c ≠ Char.ofNat 0xFFFD)
    (h : Glyph.rune c ∉ v) : c ∉ decode v := by
  intro hm
  obtain ⟨g, hg, e⟩ := List.mem_map.mp hm
  exact h (by rw [← (toRune_eq_iff g c hc).mp e]; exact hg)

theorem isDigit_ne_replacement (c : Char) (h : isDigit c = true) : c ≠ Char.ofNat 0xFFFD := by
  rw [isDigit_iff] at h
  rintro rfl
  revert h
  decide

/-! ## A single string slot -/

/-- C14 as stated fails for a literal that is not well-formed UTF-8: with `L1 = "\xff"`,
`v = "abc"` and an empty `L2` the pattern does not compile and the extraction fails. -/
theorem extractValues_percent_s_trimmed_counterexample :
    (Glyph.rune '%' ∉ [Glyph.byte 255] ∧ Glyph.rune '\n' ∉ text "abc".toList) ∧
      extractValues sampleLib ([Glyph.byte 255] ++ text "%s".toList ++ [])
          ([Glyph.byte 255] ++ text "abc".toList ++ []) =
        ([], compileFailure) := by
  decide

/-- C14, amended: for literals `L1`, `L2` of well-formed UTF-8 without `%` and a string `v`
without newline, of any bytes, `extractValues(L1 + "%s" + L2, L1 + v + L2)` succeeds and
returns exactly `[String strings.TrimSpace(v)]`. -/
theorem extractValues_percent_s_trimmed (lib : GoLib) (L1 L2 : Runes) (v : GoString)
    (h1 : '%' ∉ L1) (h2 : '%' ∉ L2) (hv : Glyph.rune '\n' ∉ v) :
    extractValues lib (text (L1 ++ "%s".toList ++ L2)) (text L1 ++ v ++ text L2) =
      ([Value.str (trimSpace v)], none) :=
  extractValues_single_s lib L1 L2 v h1 h2
    (fun c hc => by
      have : c ≠ '\n' := fun e => not_mem_decode v '\n' (by decide) hv (e ▸ hc)
      simp [isDot, this])

/-- C14, amended, at the template `"Name: %s"` and the padded message
`"Name:       John"`, and at a value with an ill-formed byte. -/
theorem extractValues_percent_s_trimmed_witness :
    ('%' ∉ "Name: ".toList ∧ '%' ∉ ([] : Runes) ∧
        Glyph.rune '\n' ∉ text "      John".toList) ∧
      extractValues sampleLib (text "Name: %s".toList) (text "Name:       John".toList) =
        ([Value.str (text "John".toList)], none) ∧
      extractValues sampleLib (text "Name: %s".toList)
          (text "Name: ".toList ++ [Glyph.byte 255, Glyph.rune ' ']) =
        ([Value.str [Glyph.byte 255]], none) :=
  ⟨⟨by decide, by decide, by decide⟩,
    extractValues_percent_s_trimmed sampleLib "Name: ".toList [] (text "      John".toList)
      (by decide) (by decide) (by decide),
    extractValues_percent_s_trimmed sampleLib "Name: ".toList []
      [Glyph.byte 255, Glyph.rune ' '] (by decide) (by decide) (by decide)⟩

/-! ## The boolean slot -/

theorem accepts_litRe (L w : Runes) : (litRe L).accepts w ↔ w = L := by
  induction L generalizing w with
  | nil => exact Iff.rfl
  | cons c t ih =>
    simp only [litRe, List.map_cons, catRe, Re.accepts]
    constructor
    · rintro ⟨w1, w2, rfl, h1, h2⟩
      rw [h1, (ih w2).mp h2]
      rfl
    · intro h
      exact ⟨[c], t, h, rfl, (ih t).mpr rfl⟩

theorem plain_litRe (L : Runes) : (litRe L).plain = true := by
  induction L with
  | nil => rfl
  | cons c t ih =>
    simp only [litRe, List.map_cons, catRe, Re.plain, Bool.true_and]
    exact ih

/-- C15 as stated fails for a literal that is not well-formed UTF-8: with `L1 = "\xff"`,
`v = "true"` and an empty `L2` the pattern does not compile and the extraction fails. -/
theorem extractValues_percent_t_counterexample :
    Glyph.rune '%' ∉ [Glyph.byte 255] ∧
      extractValues sampleLib ([Glyph.byte 255] ++ text "%t".toList ++ [])
          ([Glyph.byte 255] ++ text "true".toList ++ []) =
        ([], compileFailure) := by
  decide

/-- C15, amended: for literals `L1`, `L2` of well-formed UTF-8 without `%` and every string
`v`, `extractValues(L1 + "%t" + L2, L1 + v + L2)` succeeds if and only if `v` is exactly
`"true"` or exactly `"false"`, and then returns `[Boolean true]` or `[Boolean false]`. -/
theorem extractValues_percent_t (lib : GoLib) (L1 L2 : Runes) (v : GoString) (h1 : '%' ∉ L1)
    (h2 : '%' ∉ L2) :
    ((extractValues lib (text (L1 ++ "%t".toList ++ L2)) (text L1 ++ v ++ text L2)).2 = none ↔
        (v = text "true".toList ∨ v = text "false".toList)) ∧
      (v = text "true".toList →
        extractValues lib (text (L1 ++ "%t".toList ++ L2)) (text L1 ++ v ++ text L2) =
          ([Value.bool true], none)) ∧
      (v = text "false".toList →
        extractValues lib (text (L1 ++ "%t".toList ++ L2)) (text L1 ++ v ++ text L2) =
          ([Value.bool false], none)) := by
  obtain ⟨hyes, hno⟩ := extractValues_directive lib L1 L2 v none [] none 't'
    (Re.alt (litRe "true".toList) (litRe "false".toList)) (by decide) (by decide) h1 h2 rfl
    (by simp [Re.plain, plain_litRe])
  have hacc : (Re.alt (litRe "true".toList) (litRe "false".toList)).accepts (decode v) ↔
      (v = text "true".toList ∨ v = text "false".toList) := by
    show ((litRe "true".toList).accepts (decode v) ∨
      (litRe "false".toList).accepts (decode v)) ↔ _
    rw [accepts_litRe, accepts_litRe, decode_eq_iff v _ (by decide),
      decode_eq_iff v _ (by decide)]
  have hD : directiveText none [] none 't' = "%t".toList := rfl
  rw [hD] at hyes hno
  refine ⟨?_, ?_, ?_⟩
  · constructor
    · intro hok
      by_contra hv
      rw [hno (fun h => hv (hacc.mp h))] at hok
      simp at hok
    · intro hv
      rw [hyes (hacc.mpr hv)]
  · intro hv
    rw [hyes (hacc.mpr (Or.inl hv)), hv]
    rfl
  · intro hv
    rw [hyes (hacc.mpr (Or.inr hv)), hv]
    rfl

/-- C15, amended, at the template `"Success: %t"` and the message `"Success: false"`. -/
theorem extractValues_percent_t_witness :
    ('%' ∉ "Success: ".toList ∧ '%' ∉ ([] : Runes)) ∧
      extractValues sampleLib (text "Success: %t".toList) (text "Success: false".toList) =
        ([Value.bool false], none) ∧
      extractValues sampleLib (text "Success: %t".toList) (text "Success: true".toList) =
        ([Value.bool true], none) ∧
      (extractValues sampleLib (text "Success: %t".toList) (text "Success: yes".toList)).2 ≠
        none :=
  ⟨⟨by decide, by decide⟩,
    (extractValues_percent_t sampleLib "Success: ".toList [] (text "false".toList) (by decide)
      (by decide)).2.2 rfl,
    (extractValues_percent_t sampleLib "Success: ".toList [] (text "true".toList) (by decide)
      (by decide)).2.1 rfl,
    fun h => absurd
      ((extractValues_percent_t sampleLib "Success: ".toList [] (text "yes".toList) (by decide)
        (by decide)).1.mp h) (by decide)⟩

/-! ## Octal and binary verbs -/

theorem getCapturePattern_digits (info : placeholderInfo)
    (h : info.verb = 'b' ∨ info.verb = 'o') :
    getCapturePattern info = Re.group (Re.plus isDigit true) := by
  rcases h with h | h <;> simp [getCapturePattern, h]

theorem isDecimalLiteral_digits (v : Runes) (hne : v ≠ [])
    (hd : ∀ c ∈ v, isDigit c = true) :
    isDecimalLiteral v = true ∧ decimalLiteralValue v = (decimalValue v : Int) := by
  obtain ⟨c, t, rfl⟩ := List.exists_cons_of_ne_nil hne
  obtain ⟨hm, hp⟩ := isDigit_ne_sign c (hd c (by simp))
  have hall : (c :: t).all isDigit = true := List.all_eq_true.mpr hd
  constructor
  · rw [isDecimalLiteral, if_neg (by simp [hm, hp])]
    exact hall
  · rw [decimalLiteralValue, if_neg hm, if_neg hp]

theorem decode_ne_nil (v : GoString) (h : v ≠ []) : decode v ≠ [] := by
  intro e
  apply h
  simpa [decode] using e

/-- Conversion of a digit run under an integer verb. -/
theorem convertValue_digits (lib : GoLib) (v : GoString) (verb : Char)
    (hverb : verb = 'd' ∨ verb = 'b' ∨ verb = 'o') (hne : v ≠ [])
    (hd : ∀ c ∈ decode v, isDigit c = true) :
    convertValue lib v verb =
      if inInt64 (decimalValue (decode v) : Int) then Value.int (decimalValue (decode v) : Int)
      else Value.str v := by
  obtain ⟨hlit, hval⟩ := isDecimalLiteral_digits (decode v) (decode_ne_nil v hne) hd
  have htrim : trimSpace v = v := trimSpace_eq_self v (fun c hc => isSpace_digit c (hd c hc))
  simp only [convertValue, hverb, if_true, htrim, atoi_eq, hlit, hval, Bool.true_and]
  by_cases hr : inInt64 (decimalValue (decode v) : Int) = true
  · simp [hr]
  · simp [hr]

/-- C19 as stated fails for a literal that is not well-formed UTF-8: with `L1 = "\xff"`, the
directive `%o`, `v = "19"` and an empty `L2` the pattern does not compile and the extraction
fails, although `v` is a run of decimal digits. -/
theorem extractValues_octal_binary_counterexample :
    (isDirective none [] none 'o' = true ∧ Glyph.rune '%' ∉ [Glyph.byte 255] ∧
        text "19".toList ≠ [] ∧ ∀ c ∈ decode (text "19".toList), isDigit c = true) ∧
      extractValues sampleLib ([Glyph.byte 255] ++ text "%o".toList ++ [])
          ([Glyph.byte 255] ++ text "19".toList ++ []) =
        ([], compileFailure) := by
  decide

/-- C19, amended: for a directive with verb `o` or `b`, literals `L1`, `L2` of well-formed
UTF-8 without `%` and every slot string `v`, `extractValues(L1 + D + L2, L1 + v + L2)`
succeeds if and only if `v` is a non-empty run of decimal digits, and then returns the
Integer whose base-10 reading is `v` when it fits in `int`, and the String `v` when it does
not. -/
theorem extractValues_octal_binary (lib : GoLib) (L1 L2 : Runes) (v : GoString)
    (flag : Option Char) (width : Runes) (prec : Option Runes) (verb : Char)
    (hdir : isDirective flag width prec verb = true) (hverb : verb = 'o' ∨ verb = 'b')
    (h1 : '%' ∉ L1) (h2 : '%' ∉ L2) :
    ((extractValues lib (text (L1 ++ directiveText flag width prec verb ++ L2))
          (text L1 ++ v ++ text L2)).2 = none ↔
        (v ≠ [] ∧ ∀ c ∈ decode v, isDigit c = true)) ∧
      (v ≠ [] → (∀ c ∈ decode v, isDigit c = true) →
        extractValues lib (text (L1 ++ directiveText flag width prec verb ++ L2))
            (text L1 ++ v ++ text L2) =
          ([if inInt64 (decimalValue (decode v) : Int) then
              Value.int (decimalValue (decode v) : Int)
            else Value.str v], none)) := by
  have hvp : verb ≠ '%' := by rcases hverb with rfl | rfl <;> decide
  have hcap : getCapturePattern (parsePlaceholder (text (directiveText flag width prec verb))) =
      Re.group (Re.plus isDigit true) := by
    apply getCapturePattern_digits
    rw [parsePlaceholder_directiveText flag width prec verb hdir]
    exact hverb.symm
  obtain ⟨hyes, hno⟩ := extractValues_directive lib L1 L2 v flag width prec verb
    (Re.plus isDigit true) hdir (directiveText_ne_percent flag width prec verb hvp) h1 h2 hcap rfl
  have hacc : (Re.plus isDigit true).accepts (decode v) ↔
      (v ≠ [] ∧ ∀ c ∈ decode v, isDigit c = true) := by
    show (decode v ≠ [] ∧ _) ↔ _
    constructor
    · rintro ⟨hne, hd⟩
      exact ⟨fun e => hne (by rw [e]; rfl), hd⟩
    · rintro ⟨hne, hd⟩
      exact ⟨decode_ne_nil v hne, hd⟩
  constructor
  · constructor
    · intro hok
      by_contra hv
      rw [hno (fun h => hv (hacc.mp h))] at hok
      simp at hok
    · intro hv
      rw [hyes (hacc.mpr hv)]
  · intro hne hd
    rw [hyes (hacc.mpr ⟨hne, hd⟩),
      convertValue_digits lib v verb (by rcases hverb with h | h <;> simp [h]) hne hd]

/-- C19, amended, at the template `"%o"`: the message `"19"` is accepted and read as
nineteen; under `%b` the message `"101"` is read as one hundred and one. -/
theorem extractValues_octal_binary_witness :
    (isDirective none [] none 'o' = true ∧ '%' ∉ ([] : Runes) ∧ text "19".toList ≠ [] ∧
        ∀ c ∈ decode (text "19".toList), isDigit c = true) ∧
      extractValues sampleLib (text "%o".toList) (text "19".toList) = ([Value.int 19], none) ∧
      extractValues sampleLib (text "b=%b!".toList) (text "b=101!".toList) =
        ([Value.int 101], none) :=
  ⟨⟨by decide, by decide, by decide, by decide⟩,
    (extractValues_octal_binary sampleLib [] [] (text "19".toList) none [] none 'o' (by decide)
      (Or.inl rfl) (by decide) (by decide)).2 (by decide) (by decide),
    (extractValues_octal_binary sampleLib "b=".toList "!".toList (text "101".toList) none []
      none 'b' (by decide) (Or.inr rfl) (by decide) (by decide)).2 (by decide) (by decide)⟩

/-! ## Padded integers -/

theorem isSpace_of_isReSpace (c : Char) (h : isReSpace c = true) : isSpace c = true := by
  simp only [isReSpace, Bool.or_eq_true, decide_eq_true_eq] at h
  rcases h with (((rfl | rfl) | rfl) | rfl) | rfl <;> rfl

theorem isSpace_sign (c : Char) (h : c = '+' ∨ c = '-') : isSpace c = false := by
  rcases h with rfl | rfl <;> rfl

/-- White space in front of a text that neither starts nor ends with white space is all
that `TrimSpace` removes. -/
theorem trimSpace_leading (ws lit : Runes) (hws : ∀ c ∈ ws, isSpace c = true)
    (hfirst : ∀ c t, lit = c :: t → isSpace c = false)
    (hlast : ∀ c t, lit.reverse = c :: t → isSpace c = false) :
    trimSpace (text (ws ++ lit)) = text lit := by
  have hd : (text (ws ++ lit)).dropWhile (fun g => isSpace g.toRune) = text lit := by
    induction ws with
    | nil =>
      cases lit with
      | nil => rfl
      | cons c t => simp [List.dropWhile, text, Glyph.toRune, hfirst c t rfl]
    | cons c t ih =>
      rw [List.cons_append, text_cons, List.dropWhile_cons_of_pos (by
        simpa [Glyph.toRune] using hws c (by simp))]
      exact ih (fun d hd => hws d (by simp [hd]))
  have hr : (text lit).reverse.dropWhile (fun g => isSpace g.toRune) = (text lit).reverse := by
    have e : (text lit).reverse = text lit.reverse := by simp [text]
    rw [e]
    cases hrev : lit.reverse with
    | nil => rfl
    | cons c t => simp [List.dropWhile, text, Glyph.toRune, hlast c t hrev]
  rw [trimSpace, hd, hr, List.reverse_reverse]

theorem isDecimalLiteral_ends (lit : Runes) (h : isDecimalLiteral lit = true) :
    (∀ c t, lit = c :: t → isSpace c = false) ∧
      (∀ c t, lit.reverse = c :: t → isSpace c = false) := by
  cases lit with
  | nil => simp [isDecimalLiteral] at h
  | cons c t =>
    by_cases hs : c = '+' ∨ c = '-'
    · rw [isDecimalLiteral, if_pos hs] at h
      simp only [Bool.and_eq_true, Bool.not_eq_true', List.isEmpty_eq_false] at h
      have hall := List.all_eq_true.mp h.2
      constructor
      · intro d u e
        rw [← (List.cons.inj e).1]
        exact isSpace_sign c hs
      · intro d u e
        have hmem : d ∈ (c :: t).reverse := by rw [e]; simp
        rcases List.mem_cons.mp (List.mem_reverse.mp hmem) with rfl | hm
        · cases t with
          | nil => simp at h
          | cons x t1 =>
            -- the last character of `c :: x :: t1` lies in the tail
            have hlast : ((d :: x :: t1).reverse).head? = (x :: t1).reverse.head? := by
              simp [List.head?_append]
            rw [e] at hlast
            have hd : d ∈ (x :: t1).reverse := List.mem_of_mem_head? (by rw [← hlast]; rfl)
            exact isSpace_digit d (hall d (List.mem_reverse.mp hd))
        · exact isSpace_digit d (hall d hm)
    · rw [isDecimalLiteral, if_neg hs] at h
      have hall := List.all_eq_true.mp h
      constructor
      · intro d u e
        rw [← (List.cons.inj e).1]
        exact isSpace_digit c (hall c (by simp))
      · intro d u e
        have hmem : d ∈ (c :: t).reverse := by rw [e]; simp
        exact isSpace_digit d (hall d (List.mem_reverse.mp hmem))

/-- The language of `\s*[+-]?\d+`. -/
theorem accepts_padded_integer (v : Runes) :
    (Re.seq (Re.star isReSpace true)
        (Re.seq (Re.opt (Re.cls isSign)) (Re.plus isDigit true))).accepts v ↔
      ∃ ws lit, v = ws ++ lit ∧ (∀ c ∈ ws, isReSpace c = true) ∧
        isDecimalLiteral lit = true := by
  simp only [Re.accepts]
  constructor
  · rintro ⟨ws, w2, rfl, hws, w3, w4, rfl, hsign, hne, hd⟩
    refine ⟨ws, w3 ++ w4, rfl, hws, ?_⟩
    rcases hsign with ⟨c, rfl, hc⟩ | rfl
    · have hs : c = '+' ∨ c = '-' := by simpa [isSign] using hc
      rw [List.singleton_append, isDecimalLiteral, if_pos hs]
      simp only [Bool.and_eq_true, Bool.not_eq_true', List.isEmpty_eq_false]
      exact ⟨hne, List.all_eq_true.mpr hd⟩
    · exact (isDecimalLiteral_digits w4 hne hd).1
  · rintro ⟨ws, lit, rfl, hws, hlit⟩
    refine ⟨ws, lit, rfl, hws, ?_⟩
    cases lit with
    | nil => simp [isDecimalLiteral] at hlit
    | cons c t =>
      by_cases hs : c = '+' ∨ c = '-'
      · rw [isDecimalLiteral, if_pos hs] at hlit
        simp only [Bool.and_eq_true, Bool.not_eq_true', List.isEmpty_eq_false] at hlit
        refine ⟨[c], t, rfl, Or.inl ⟨c, rfl, by simpa [isSign] using hs⟩, ?_,
          List.all_eq_true.mp hlit.2⟩
        intro e
        rw [e] at hlit
        simp at hlit
      · rw [isDecimalLiteral, if_neg hs] at hlit
        exact ⟨[], c :: t, rfl, Or.inr rfl, by simp, List.all_eq_true.mp hlit⟩

theorem getCapturePattern_padded_d (info : placeholderInfo) (hv : info.verb = 'd')
    (hm : (info.hasWidth || info.hasFlag) = true) :
    getCapturePattern info =
      Re.group (Re.seq (Re.star isReSpace true)
        (Re.seq (Re.opt (Re.cls isSign)) (Re.plus isDigit true))) := by
  simp [getCapturePattern, hv, hm]

theorem isReSpace_ne_replacement (c : Char) (h : isReSpace c = true) :
    c ≠ Char.ofNat 0xFFFD := by
  rintro rfl
  revert h
  decide

theorem isDecimalLiteral_ne_replacement (lit : Runes) (h : isDecimalLiteral lit = true) :
    ∀ c ∈ lit, c ≠ Char.ofNat 0xFFFD := by
  cases lit with
  | nil => simp [isDecimalLiteral] at h
  | cons c t =>
    by_cases hs : c = '+' ∨ c = '-'
    · rw [isDecimalLiteral, if_pos hs] at h
      simp only [Bool.and_eq_true] at h
      have hall := List.all_eq_true.mp h.2
      intro d hd
      rcases List.mem_cons.mp hd with rfl | hd
      · rcases hs with rfl | rfl <;> decide
      · exact isDigit_ne_replacement d (hall d hd)
    · rw [isDecimalLiteral, if_neg hs] at h
      have hall := List.all_eq_true.mp h
      intro d hd
      exact isDigit_ne_replacement d (hall d hd)

/-- Conversion of a padded base-10 literal under `d`. -/
theorem convertValue_padded (lib : GoLib) (v : GoString) (ws lit : Runes)
    (hv : decode v = ws ++ lit)
    (hws : ∀ c ∈ ws, isReSpace c = true) (hlit : isDecimalLiteral lit = true)
    (hr : inInt64 (decimalLiteralValue lit) = true) :
    convertValue lib v 'd' = Value.int (decimalLiteralValue lit) := by
  obtain ⟨hfirst, hlast⟩ := isDecimalLiteral_ends lit hlit
  have hv1 : v = text (ws ++ lit) := by
    apply (decode_eq_iff v _ _).mp hv
    intro c hc
    rcases List.mem_append.mp hc with h | h
    · exact isReSpace_ne_replacement c (hws c h)
    · exact isDecimalLiteral_ne_replacement lit hlit c h
  have htrim : trimSpace v = text lit := by
    rw [hv1]
    exact trimSpace_leading ws lit (fun c hc => isSpace_of_isReSpace c (hws c hc)) hfirst hlast
  simp [convertValue, htrim, atoi_eq, hlit, hr]

/-- C18 as stated fails for a literal that is not well-formed UTF-8: with `L1 = "\xff"`, the
directive `%05d`, `v = "00042"` and an empty `L2` the pattern does not compile and the
extraction fails. -/
theorem extractValues_padded_d_counterexample :
    (isDirective none "05".toList none 'd' = true ∧ Glyph.rune '%' ∉ [Glyph.byte 255] ∧
        isDecimalLiteral "00042".toList = true ∧
        inInt64 (decimalLiteralValue "00042".toList) = true) ∧
      extractValues sampleLib ([Glyph.byte 255] ++ text "%05d".toList ++ [])
          ([Glyph.byte 255] ++ text "00042".toList ++ []) =
        ([], compileFailure) := by
  decide

/-- C18, amended: for a `d` directive that carries a width or a flag, literals `L1`, `L2` of
well-formed UTF-8 without `%`, and a slot string made of optional white space, an optional
sign and one or more decimal digits denoting an integer `n` in the range of `int`,
`extractValues(L1 + D + L2, L1 + v + L2)` returns `[Integer n]`, read in base 10 whatever the
leading zeros; a slot string that is not of that shape makes the extraction fail. -/
theorem extractValues_padded_d (lib : GoLib) (L1 L2 : Runes) (v : GoString)
    (flag : Option Char) (width : Runes) (prec : Option Runes)
    (hdir : isDirective flag width prec 'd' = true)
    (hmod : flag.isSome = true ∨ width ≠ []) (h1 : '%' ∉ L1) (h2 : '%' ∉ L2) :
    (∀ ws lit : Runes, v = text (ws ++ lit) → (∀ c ∈ ws, isReSpace c = true) →
        isDecimalLiteral lit = true → inInt64 (decimalLiteralValue lit) = true →
        extractValues lib (text (L1 ++ directiveText flag width prec 'd' ++ L2))
            (text L1 ++ v ++ text L2) =
          ([Value.int (decimalLiteralValue lit)], none)) ∧
      ((¬ ∃ ws lit : Runes, v = text (ws ++ lit) ∧ (∀ c ∈ ws, isReSpace c = true) ∧
          isDecimalLiteral lit = true) →
        extractValues lib (text (L1 ++ directiveText flag width prec 'd' ++ L2))
            (text L1 ++ v ++ text L2) =
          ([], some "message does not match template")) := by
  have hcap : getCapturePattern (parsePlaceholder (text (directiveText flag width prec 'd'))) =
      Re.group (Re.seq (Re.star isReSpace true)
        (Re.seq (Re.opt (Re.cls isSign)) (Re.plus isDigit true))) := by
    apply getCapturePattern_padded_d
    · rw [parsePlaceholder_directiveText flag width prec 'd' hdir]
    · rw [parsePlaceholder_directiveText flag width prec 'd' hdir]
      rcases hmod with hf | hw
      · simp [hf]
      · cases width with
        | nil => exact absurd rfl hw
        | cons c t => simp
  obtain ⟨hyes, hno⟩ := extractValues_directive lib L1 L2 v flag width prec 'd' _ hdir
    (directiveText_ne_percent flag width prec 'd' (by decide)) h1 h2 hcap rfl
  constructor
  · intro ws lit hv hws hlit hr
    have hdv : decode v = ws ++ lit := by rw [hv, decode_text]
    rw [hyes ((accepts_padded_integer (decode v)).mpr ⟨ws, lit, hdv, hws, hlit⟩),
      convertValue_padded lib v ws lit hdv hws hlit hr]
  · intro hshape
    apply hno
    intro h
    obtain ⟨ws, lit, hdv, hws, hlit⟩ := (accepts_padded_integer (decode v)).mp h
    refine hshape ⟨ws, lit, ?_, hws, hlit⟩
    apply (decode_eq_iff v _ _).mp hdv
    intro c hc
    rcases List.mem_append.mp hc with h | h
    · exact isReSpace_ne_replacement c (hws c h)
    · exact isDecimalLiteral_ne_replacement lit hlit c h

/-- C18, amended, at the template `"ID: %05d"`: the message `"ID: 00042"` gives 42, which
the translation `"num=%05d"` renders as `"num=00042"`; the message `"ID: abc"` is
rejected. -/
theorem extractValues_padded_d_witness :
    (isDirective none "05".toList none 'd' = true ∧ '%' ∉ "ID: ".toList ∧
        isDecimalLiteral "00042".toList = true ∧
        inInt64 (decimalLiteralValue "00042".toList) = true) ∧
      extractValues sampleLib (text "ID: %05d".toList) (text "ID: 00042".toList) =
        ([Value.int 42], none) ∧
      Sreprintf sampleLib (text "ID: %05d".toList) (text "ID: 00042".toList)
          (text "num=%05d".toList) =
        (text "num=00042".toList, none) ∧
      extractValues sampleLib (text "ID: %05d".toList) (text "ID: abc".toList) =
        ([], some "message does not match template") :=
  ⟨⟨by decide, by decide, by decide, by decide⟩,
    (extractValues_padded_d sampleLib "ID: ".toList [] (text "00042".toList) none "05".toList
      none (by decide) (Or.inr (by decide)) (by decide) (by decide)).1 [] "00042".toList rfl
      (by decide) (by decide) (by decide),
    by decide, by decide⟩

/-! ## The hexadecimal slot -/

theorem isHexDigit_iff (c : Char) :
    isHexDigit c = true ↔
      (48 ≤ c.toNat ∧ c.toNat ≤ 57) ∨ (97 ≤ c.toNat ∧ c.toNat ≤ 102) ∨
        (65 ≤ c.toNat ∧ c.toNat ≤ 70) := by
  simp only [isHexDigit, isDigit, Bool.or_eq_true, Bool.and_eq_true, decide_eq_true_eq,
    Char.le_def, or_assoc]
  exact Iff.rfl

/-- The parser's digit value is the place of the character among the sixteen digits. -/
theorem hexDigit_eq_place (c : Char) (h : isHexDigit c = true) :
    hexDigit c = some (hexDigitPlace c) := by
  rw [isHexDigit_iff] at h
  have hc : c = Char.ofNat c.toNat := (Char.ofNat_toNat c).symm
  generalize c.toNat = n at h hc
  subst hc
  rcases h with h | h | h <;> (obtain ⟨h1, h2⟩ := h; interval_cases n <;> rfl)

theorem isHexDigit_facts (c : Char) (h : isHexDigit c = true) :
    isSpace c = false ∧ c ≠ '-' ∧ c ≠ '+' ∧ c ≠ 'x' ∧ c ≠ 'X' ∧ c ≠ Char.ofNat 0xFFFD := by
  rw [isHexDigit_iff] at h
  refine ⟨?_, ?_, ?_, ?_, ?_, ?_⟩
  · simp only [isSpace, Bool.or_eq_false_iff, Bool.and_eq_false_iff, decide_eq_false_iff_not]
    omega
  all_goals (rintro rfl; revert h; decide)

theorem parseDigitsFrom_hex (s : Runes) (a : Nat) (h : ∀ c ∈ s, isHexDigit c = true) :
    parseDigitsFrom hexDigit 16 s a =
      some (s.foldl (fun a c => a * 16 + hexDigitPlace c) a) := by
  induction s generalizing a with
  | nil => rfl
  | cons c t ih =>
    rw [parseDigitsFrom, hexDigit_eq_place c (h c (by simp))]
    simp only [List.foldl_cons]
    exact ih _ (fun x hx => h x (by simp [hx]))

/-- `ParseInt(h, 16, 64)` on a run of hexadecimal digits. -/
theorem parseInt_hex (h : Runes) (hne : h ≠ []) (hh : ∀ c ∈ h, isHexDigit c = true) :
    parseInt hexDigit 16 h =
      if inInt64 (hexValue h : Int) then some (hexValue h : Int) else none := by
  obtain ⟨c, t, rfl⟩ := List.exists_cons_of_ne_nil hne
  obtain ⟨_, hm, hp, _, _⟩ := isHexDigit_facts c (hh c (by simp))
  have hd : parseDigits hexDigit 16 (c :: t) = some (hexValue (c :: t)) := by
    rw [parseDigits, parseDigitsFrom_hex _ 0 hh]
    rfl
  rw [parseInt, parseSigned, if_neg hm, if_neg hp, hd]

theorem getCapturePattern_hex (info : placeholderInfo)
    (h : info.verb = 'x' ∨ info.verb = 'X') :
    getCapturePattern info =
      Re.group (Re.seq (Re.opt (Re.seq (Re.char '0') (Re.cls isXChar)))
        (Re.plus isHexDigit true)) := by
  rcases h with h | h <;> simp [getCapturePattern, h]

/-- The language of `(?:0[xX])?[0-9a-fA-F]+`. -/
theorem accepts_hex (v : Runes) :
    (Re.seq (Re.opt (Re.seq (Re.char '0') (Re.cls isXChar)))
        (Re.plus isHexDigit true)).accepts v ↔
      ∃ pre h, v = pre ++ h ∧ (pre = [] ∨ pre = "0x".toList ∨ pre = "0X".toList) ∧
        h ≠ [] ∧ ∀ c ∈ h, isHexDigit c = true := by
  simp only [Re.accepts]
  constructor
  · rintro ⟨pre, h, rfl, hpre, hne, hh⟩
    refine ⟨pre, h, rfl, ?_, hne, hh⟩
    rcases hpre with ⟨w1, w2, rfl, rfl, c, rfl, hc⟩ | rfl
    · have hx : c = 'x' ∨ c = 'X' := by simpa [isXChar] using hc
      rcases hx with rfl | rfl
      · exact Or.inr (Or.inl rfl)
      · exact Or.inr (Or.inr rfl)
    · exact Or.inl rfl
  · rintro ⟨pre, h, rfl, hpre, hne, hh⟩
    refine ⟨pre, h, rfl, ?_, hne, hh⟩
    rcases hpre with rfl | rfl | rfl
    · exact Or.inr rfl
    · exact Or.inl ⟨['0'], ['x'], rfl, rfl, 'x', rfl, rfl⟩
    · exact Or.inl ⟨['0'], ['X'], rfl, rfl, 'X', rfl, rfl⟩

theorem trimPrefix_hex (pre h : Runes)
    (hpre : pre = [] ∨ pre = "0x".toList ∨ pre = "0X".toList) (hne : h ≠ [])
    (hh : ∀ c ∈ h, isHexDigit c = true) :
    trimPrefix (trimPrefix (text (pre ++ h)) (text "0x".toList)) (text "0X".toList) =
      text h := by
  have hnot : ∀ x, (x = 'x' ∨ x = 'X') → trimPrefix (text h) (text ['0', x]) = text h := by
    intro x hx
    cases h with
    | nil => rfl
    | cons c t =>
      cases t with
      | nil => simp [trimPrefix, List.isPrefixOf, text]
      | cons d u =>
        have hd : d ≠ x := by
          obtain ⟨_, _, _, h3, h4, _⟩ := isHexDigit_facts d (hh d (by simp))
          rcases hx with rfl | rfl
          · exact h3
          · exact h4
        simp [trimPrefix, List.isPrefixOf, text, Ne.symm hd]
  rcases hpre with rfl | rfl | rfl
  · rw [List.nil_append]
    have e1 := hnot 'x' (Or.inl rfl)
    have e2 := hnot 'X' (Or.inr rfl)
    rw [show "0x".toList = ['0', 'x'] from rfl, show "0X".toList = ['0', 'X'] from rfl, e1, e2]
  · have e2 := hnot 'X' (Or.inr rfl)
    have e1 : trimPrefix (text ("0x".toList ++ h)) (text "0x".toList) = text h := by
      simp [trimPrefix, List.isPrefixOf, text]
    rw [e1, show "0X".toList = ['0', 'X'] from rfl, e2]
  · have e2 : trimPrefix (text ("0X".toList ++ h)) (text "0X".toList) = text h := by
      simp [trimPrefix, List.isPrefixOf, text]
    have e1 : trimPrefix (text ("0X".toList ++ h)) (text "0x".toList) =
        text ("0X".toList ++ h) := by
      simp [trimPrefix, List.isPrefixOf, text]
    rw [e1, e2]

/-- Conversion of a hexadecimal slot text. -/
theorem convertValue_hex (lib : GoLib) (pre h : Runes) (verb : Char)
    (hverb : verb = 'x' ∨ verb = 'X')
    (hpre : pre = [] ∨ pre = "0x".toList ∨ pre = "0X".toList) (hne : h ≠ [])
    (hh : ∀ c ∈ h, isHexDigit c = true) :
    convertValue lib (text (pre ++ h)) verb =
      if inInt64 (hexValue h : Int) then Value.int (hexValue h : Int)
      else Value.str (text (pre ++ h)) := by
  have hsp : ∀ c ∈ decode (text (pre ++ h)), isSpace c = false := by
    intro c hc
    rw [decode_text] at hc
    rcases List.mem_append.mp hc with hc | hc
    · rcases hpre with rfl | rfl | rfl
      · simp at hc
      · have : c = '0' ∨ c = 'x' := by simpa using hc
        rcases this with rfl | rfl <;> rfl
      · have : c = '0' ∨ c = 'X' := by simpa using hc
        rcases this with rfl | rfl <;> rfl
    · exact (isHexDigit_facts c (hh c hc)).1
  have htrim : trimSpace (text (pre ++ h)) = text (pre ++ h) := trimSpace_eq_self _ hsp
  have h1 : ¬ (verb = 'd' ∨ verb = 'b' ∨ verb = 'o') := by
    rcases hverb with rfl | rfl <;> decide
  have h3 : ¬ (verb = 'f' ∨ verb = 'F' ∨ verb = 'e' ∨ verb = 'E' ∨ verb = 'g' ∨ verb = 'G') := by
    rcases hverb with rfl | rfl <;> decide
  have h4 : ¬ verb = 't' := by rcases hverb with rfl | rfl <;> decide
  simp only [convertValue, h1, h3, h4, hverb, if_true, if_false, htrim,
    trimPrefix_hex pre h hpre hne hh, decode_text, parseInt_hex h hne hh]
  by_cases hr : inInt64 (hexValue h : Int) = true
  · simp [hr]
  · simp [hr]

theorem hex_shape_ne_replacement (pre h : Runes)
    (hpre : pre = [] ∨ pre = "0x".toList ∨ pre = "0X".toList)
    (hh : ∀ c ∈ h, isHexDigit c = true) : ∀ c ∈ pre ++ h, c ≠ Char.ofNat 0xFFFD := by
  intro c hc
  rcases List.mem_append.mp hc with hc | hc
  · rcases hpre with rfl | rfl | rfl
    · simp at hc
    · have : c = '0' ∨ c = 'x' := by simpa using hc
      rcases this with rfl | rfl <;> decide
    · have : c = '0' ∨ c = 'X' := by simpa using hc
      rcases this with rfl | rfl <;> decide
  · exact (isHexDigit_facts c (hh c hc)).2.2.2.2.2

/-- C16 as stated fails for a literal that is not well-formed UTF-8: with `L1 = "\xff"`, the
directive `%x`, `v = "ff"` and an empty `L2` the pattern does not compile and the extraction
fails. -/
theorem extractValues_hex_counterexample :
    (isDirective none [] none 'x' = true ∧ Glyph.rune '%' ∉ [Glyph.byte 255] ∧
        (∀ c ∈ "ff".toList, isHexDigit c = true) ∧
        (hexValue "ff".toList : Int) ≤ 2 ^ 63 - 1) ∧
      extractValues sampleLib ([Glyph.byte 255] ++ text "%x".toList ++ [])
          ([Glyph.byte 255] ++ text "ff".toList ++ []) =
        ([], compileFailure) := by
  decide

/-- C16, amended: for a directive with verb `x` or `X`, literals `L1`, `L2` of well-formed
UTF-8 without `%`, and a slot string made of an optional `0x` or `0X` and one or more
hexadecimal digits `h` whose value fits in a signed 64-bit integer,
`extractValues(L1 + D + L2, L1 + v + L2)` returns `[Integer n]` with `n` the base-16 value of
`h`; a slot string that is not of that shape makes the extraction fail. -/
theorem extractValues_hex (lib : GoLib) (L1 L2 : Runes) (v : GoString) (flag : Option Char)
    (width : Runes) (prec : Option Runes) (verb : Char)
    (hdir : isDirective flag width prec verb = true) (hverb : verb = 'x' ∨ verb = 'X')
    (h1 : '%' ∉ L1) (h2 : '%' ∉ L2) :
    (∀ pre h : Runes, v = text (pre ++ h) →
        (pre = [] ∨ pre = "0x".toList ∨ pre = "0X".toList) → h ≠ [] →
        (∀ c ∈ h, isHexDigit c = true) → (hexValue h : Int) ≤ 2 ^ 63 - 1 →
        extractValues lib (text (L1 ++ directiveText flag width prec verb ++ L2))
            (text L1 ++ v ++ text L2) =
          ([Value.int (hexValue h : Int)], none)) ∧
      ((¬ ∃ pre h : Runes, v = text (pre ++ h) ∧
          (pre = [] ∨ pre = "0x".toList ∨ pre = "0X".toList) ∧
          h ≠ [] ∧ ∀ c ∈ h, isHexDigit c = true) →
        extractValues lib (text (L1 ++ directiveText flag width prec verb ++ L2))
            (text L1 ++ v ++ text L2) =
          ([], some "message does not match template")) := by
  have hvp : verb ≠ '%' := by rcases hverb with rfl | rfl <;> decide
  have hcap : getCapturePattern (parsePlaceholder (text (directiveText flag width prec verb))) =
      Re.group (Re.seq (Re.opt (Re.seq (Re.char '0') (Re.cls isXChar)))
        (Re.plus isHexDigit true)) := by
    apply getCapturePattern_hex
    rw [parsePlaceholder_directiveText flag width prec verb hdir]
    exact hverb
  obtain ⟨hyes, hno⟩ := extractValues_directive lib L1 L2 v flag width prec verb _ hdir
    (directiveText_ne_percent flag width prec verb hvp) h1 h2 hcap rfl
  constructor
  · intro pre h hv hpre hne hh hfit
    have hr : inInt64 (hexValue h : Int) = true := by
      simp only [inInt64, Bool.and_eq_true, decide_eq_true_eq]
      exact ⟨by
        have : (0 : Int) ≤ (hexValue h : Int) := Int.ofNat_nonneg _
        omega, hfit⟩
    have hdv : decode v = pre ++ h := by rw [hv, decode_text]
    rw [hyes ((accepts_hex (decode v)).mpr ⟨pre, h, hdv, hpre, hne, hh⟩), hv,
      convertValue_hex lib pre h verb hverb hpre hne hh, if_pos hr]
  · intro hshape
    apply hno
    intro hacc
    obtain ⟨pre, h, hdv, hpre, hne, hh⟩ := (accepts_hex (decode v)).mp hacc
    exact hshape ⟨pre, h,
      (decode_eq_iff v _ (hex_shape_ne_replacement pre h hpre hh)).mp hdv, hpre, hne, hh⟩

/-- C16, amended, at the template `"Color: %#x"`: the message `"Color: 0xff00ff"` gives
16711935, which `%#x` renders back as `"0xff00ff"`; at the template `"id=%X;"` the message
`"id=0X1b3D5e7F9a2C4;"` gives the value of its thirteen digits, and the sixteen digits have
the values zero to fifteen in either case. -/
theorem extractValues_hex_witness :
    ((isDirective (some '#') [] none 'x' = true ∧ '%' ∉ "Color: ".toList ∧
          (∀ c ∈ "ff00ff".toList, isHexDigit c = true) ∧
          (hexValue "ff00ff".toList : Int) ≤ 2 ^ 63 - 1) ∧
        (isDirective none [] none 'X' = true ∧ '%' ∉ "id=".toList ∧ '%' ∉ ";".toList ∧
          (∀ c ∈ "1b3D5e7F9a2C4".toList, isHexDigit c = true) ∧
          (hexValue "1b3D5e7F9a2C4".toList : Int) ≤ 2 ^ 63 - 1)) ∧
      extractValues sampleLib (text "Color: %#x".toList) (text "Color: 0xff00ff".toList) =
        ([Value.int 16711935], none) ∧
      extractValues sampleLib (text "id=%X;".toList) (text "id=0X1b3D5e7F9a2C4;".toList) =
        ([Value.int 479206278013636], none) ∧
      sprintf sampleLib (text "%#x".toList) [Value.int 16711935] = text "0xff00ff".toList ∧
      "0123456789abcdef".toList.map hexDigitPlace =
        [0, 1, 2, 3, 4, 5, 6, 7, 8, 9, 10, 11, 12, 13, 14, 15] ∧
      "0123456789ABCDEF".toList.map hexDigitPlace =
        [0, 1, 2, 3, 4, 5, 6, 7, 8, 9, 10, 11, 12, 13, 14, 15] :=
  ⟨⟨⟨by decide, by decide, by decide, by decide⟩,
      ⟨by decide, by decide, by decide, by decide, by decide⟩⟩,
    (extractValues_hex sampleLib "Color: ".toList [] (text "0xff00ff".toList) (some '#') []
      none 'x' (by decide) (Or.inl rfl) (by decide) (by decide)).1 "0x".toList
      "ff00ff".toList rfl (Or.inr (Or.inl rfl)) (by decide) (by decide) (by decide),
    (extractValues_hex sampleLib "id=".toList ";".toList (text "0X1b3D5e7F9a2C4".toList) none
      [] none 'X' (by decide) (Or.inr rfl) (by decide) (by decide)).1 "0X".toList
      "1b3D5e7F9a2C4".toList rfl (Or.inr (Or.inr rfl)) (by decide) (by decide) (by decide),
    by decide, by decide, by decide⟩

/-! ## Adjacent string placeholders -/

theorem run_eol_nil (g pos : Nat) (caps : Caps) (k : Cont) :
    Re.eol.run g pos [] caps k = k pos [] caps := rfl

theorem run_eol_cons (g pos : Nat) (c : Char) (t : Runes) (caps : Caps) (k : Cont) :
    Re.eol.run g pos (c :: t) caps k = none := rfl

/-- A lazy repetition hands over at once when the continuation succeeds there. -/
theorem starLoop_lazy_here (p : Char → Bool) (s : Runes) (pos : Nat) (caps : Caps)
    (k : Cont) (r : Nat × Caps) (hk : k pos s caps = some r) :
    starLoop p false s pos caps k = some r := by
  cases s with
  | nil => simpa [starLoop] using hk
  | cons c t => simp [starLoop, hk]

theorem pattern_s_s :
    buildExtractionPattern (text "%s%s".toList)
        (findAllStringIndex placeholderRe "%s%s".toList) =
      catRe [Re.bol, Re.group (Re.star isDot false), Re.group (Re.star isDot false), Re.eol] :=
  rfl

/-- The submatches of `"%s%s"`: the first capture is empty, the second is the message. -/
theorem submatch_s_s (m : GoString) (hm : ∀ c ∈ decode m, isDot c = true) :
    findStringSubmatch
        (catRe [Re.bol, Re.group (Re.star isDot false), Re.group (Re.star isDot false),
          Re.eol]) m =
      some [m, [], m] := by
  have hk : ∀ pos1 s1 c1, s1.length ≠ 0 →
      (catRe [Re.eol]).run 3 pos1 s1 c1 (fun e _ c => some (e, c)) = none := by
    intro pos1 s1 c1 hs
    cases s1 with
    | nil => exact absurd rfl hs
    | cons c t => rfl
  have h2 : (Re.group (Re.star isDot false)).run 2 0 (decode m) [(1, 0, 0)]
      (fun p1 s1 c1 => (catRe [Re.eol]).run 3 p1 s1 c1 (fun e _ c => some (e, c))) =
      some (m.length, [(2, 0, m.length), (1, 0, 0)]) := by
    rw [run_group, run_star]
    have := starLoop_lazy_exact isDot
      (fun pos1 s1 caps1 => (catRe [Re.eol]).run 3 pos1 s1 ((2, 0, pos1) :: caps1)
        (fun e _ c => some (e, c))) 0 (fun pos1 s1 c1 hs => hk pos1 s1 _ hs) (decode m) [] 0
      [(1, 0, 0)] hm rfl
    rw [List.append_nil] at this
    rw [this]
    simp [catRe, Re.run]
  have hmatch : matchAt (catRe [Re.bol, Re.group (Re.star isDot false),
      Re.group (Re.star isDot false), Re.eol]) 0 (decode m) =
      some (m.length, [(2, 0, m.length), (1, 0, 0)]) := by
    rw [matchAt, run_catRe_cons, run_bol, run_catRe_cons, run_group, run_star]
    apply starLoop_lazy_here
    rw [run_catRe_cons]
    exact h2
  rw [findStringSubmatch, search_bol_zero, hmatch]
  simp [capText, List.lookup, List.range_succ, catRe, Re.numGroups, slice]

theorem sprintf_s_s (lib : GoLib) (a b : GoString) :
    sprintf lib (text "%s%s".toList) [Value.str a, Value.str b] = a ++ b := by
  simp [sprintf, doPrintf, directive, parseFlags, parsenum, parsenumLoop, isDigit, printArg,
    fmtS, padString, FmtFlags.clear, extraArgs, text, Glyph.toRune]

theorem adjustValues_s_s (lib : GoLib) (x y : lib.Val) :
    adjustValues lib (text "%s%s".toList) [x, y] = [x, y] := by
  have hc : countPlaceholders (findAllString placeholderRe (text "%s%s".toList)) = 2 := by
    decide
  simp only [adjustValues, hc]
  simp

/-- C17: for every message `m` without newline, `extractValues("%s%s", m)` succeeds and
returns `[String "", String strings.TrimSpace(m)]`, so that
`Sreprintf("%s%s", m, "%s%s")` returns `strings.TrimSpace(m)`. -/
theorem extractValues_adjacent_strings (lib : GoLib) (m : GoString)
    (hm : Glyph.rune '\n' ∉ m) :
    extractValues lib (text "%s%s".toList) m =
        ([Value.str [], Value.str (trimSpace m)], none) ∧
      Sreprintf lib (text "%s%s".toList) m (text "%s%s".toList) = (trimSpace m, none) := by
  have hdot : ∀ c ∈ decode m, isDot c = true := by
    intro c hc
    have : c ≠ '\n' := fun e => not_mem_decode m '\n' (by decide) hm (e ▸ hc)
    simp [isDot, this]
  have hx : extractValues lib (text "%s%s".toList) m =
      ([Value.str [], Value.str (trimSpace m)], none) := by
    have hscan : (findAllStringIndex placeholderRe "%s%s".toList).length ≠ 0 := by decide
    have hcomp : regexpCompile (catRe [Re.bol, Re.group (Re.star isDot false),
        Re.group (Re.star isDot false), Re.eol]) =
        some (catRe [Re.bol, Re.group (Re.star isDot false),
          Re.group (Re.star isDot false), Re.eol]) := rfl
    unfold extractValues
    simp only [decode_text, hscan, if_false, pattern_s_s, hcomp, submatch_s_s m hdot]
    rfl
  refine ⟨hx, ?_⟩
  simp only [Sreprintf, hx, applyValues, adjustValues_s_s, sprintf_s_s, List.nil_append]

/-- C17 at the message `"HelloWorld"`. -/
theorem extractValues_adjacent_strings_witness :
    Glyph.rune '\n' ∉ text "HelloWorld".toList ∧
      extractValues sampleLib (text "%s%s".toList) (text "HelloWorld".toList) =
        ([Value.str [], Value.str (text "HelloWorld".toList)], none) ∧
      Sreprintf sampleLib (text "%s%s".toList) (text "HelloWorld".toList)
          (text "%s%s".toList) =
        (text "HelloWorld".toList, none) :=
  ⟨by decide,
    (extractValues_adjacent_strings sampleLib (text "HelloWorld".toList) (by decide)).1,
    (extractValues_adjacent_strings sampleLib (text "HelloWorld".toList) (by decide)).2⟩

/-! ## Classification of the modifiers -/

/-- C12: for a directive of the grammar `%[flag][width][.precision]verb`, `parsePlaceholder`
returns the last character as verb, `hasFlag` exactly when a flag is present and
`hasPrecision` exactly when a precision is present; but `hasWidth` is set as soon as the
directive contains a digit, so also for a directive with a precision and an empty width:
`"%.2f"` is given `hasWidth = true`. -/
theorem parsePlaceholder_classification (flag : Option Char) (width : Runes)
    (prec : Option Runes) (verb : Char) (hdir : isDirective flag width prec verb = true) :
    (parsePlaceholder (text (directiveText flag width prec verb))).verb = verb ∧
      (parsePlaceholder (text (directiveText flag width prec verb))).hasFlag = flag.isSome ∧
      (parsePlaceholder (text (directiveText flag width prec verb))).hasPrecision =
        prec.isSome ∧
      (parsePlaceholder (text (directiveText flag width prec verb))).hasWidth =
        (!width.isEmpty || prec.isSome) ∧
      (parsePlaceholder (text "%.2f".toList)).hasWidth = true := by
  rw [parsePlaceholder_directiveText flag width prec verb hdir]
  exact ⟨rfl, rfl, rfl, rfl, by decide⟩

/-- C12 at the directive `"%.2f"`: no width, and yet `hasWidth`. -/
theorem parsePlaceholder_classification_witness :
    isDirective none [] (some "2".toList) 'f' = true ∧
      directiveText none [] (some "2".toList) 'f' = "%.2f".toList ∧
      (parsePlaceholder (text "%.2f".toList)).hasWidth = true ∧
      (parsePlaceholder (text "%.2f".toList)).hasPrecision = true :=
  ⟨by decide, by decide,
    (parsePlaceholder_classification none [] (some "2".toList) 'f' (by decide)).2.2.2.1,
    (parsePlaceholder_classification none [] (some "2".toList) 'f' (by decide)).2.2.1⟩

/-! ## Empty values for string-like placeholders -/

theorem getCapturePattern_string (info : placeholderInfo)
    (h : info.verb = 's' ∨ info.verb = 'v') :
    getCapturePattern info =
      if info.hasWidth then Re.group (Re.plus isDot false) else Re.group (Re.star isDot false) := by
  rcases h with h | h <;> simp [getCapturePattern, h]

/-- Extraction of an empty slot under a directive with verb `s` or `v`: it succeeds when the
directive contains no digit, and fails when it contains one. -/
theorem extractValues_string_empty_slot (lib : GoLib) (L : Runes) (flag : Option Char)
    (width : Runes) (prec : Option Runes) (verb : Char)
    (hdir : isDirective flag width prec verb = true) (hverb : verb = 's' ∨ verb = 'v')
    (hL : '%' ∉ L) :
    extractValues lib (text (L ++ directiveText flag width prec verb)) (text L) =
      if (!width.isEmpty || prec.isSome) = true then
        ([], some "message does not match template")
      else ([Value.str []], none) := by
  have hvp : verb ≠ '%' := by rcases hverb with rfl | rfl <;> decide
  have hpp := parsePlaceholder_directiveText flag width prec verb hdir
  have hwid : (parsePlaceholder (text (directiveText flag width prec verb))).hasWidth =
      (!width.isEmpty || prec.isSome) := by rw [hpp]
  have hcap0 := getCapturePattern_string
    (parsePlaceholder (text (directiveText flag width prec verb)))
    (by rw [hpp]; exact hverb)
  rw [hwid] at hcap0
  have hconv : convertValue lib [] verb = Value.str [] := by
    rcases hverb with rfl | rfl <;> rfl
  by_cases hw : (!width.isEmpty || prec.isSome) = true
  · rw [if_pos hw] at hcap0 ⊢
    obtain ⟨_, hno⟩ := extractValues_directive lib L [] [] flag width prec verb
      (Re.plus isDot false) hdir (directiveText_ne_percent flag width prec verb hvp) hL
      (by simp) hcap0 rfl
    have := hno (fun h => h.1 rfl)
    simpa using this
  · rw [if_neg hw] at hcap0 ⊢
    obtain ⟨hyes, _⟩ := extractValues_directive lib L [] [] flag width prec verb
      (Re.star isDot false) hdir (directiveText_ne_percent flag width prec verb hvp) hL
      (by simp) hcap0 rfl
    have := hyes (fun c hc => by simp at hc)
    rw [hconv] at this
    simpa using this

/-- C13: for a directive with verb `s` or `v` and a literal `L` without `%`,
`extractValues(L + D, L)` returns the single String `""` when the directive has neither
width nor precision, and fails when it has a width; but it also fails when the directive
has a precision and no width, as for `"Short: %.5s"` against `"Short: "`. -/
theorem extractValues_string_empty (lib : GoLib) (L : Runes) (flag : Option Char)
    (width : Runes) (prec : Option Runes) (verb : Char)
    (hdir : isDirective flag width prec verb = true) (hverb : verb = 's' ∨ verb = 'v')
    (hL : '%' ∉ L) :
    (width = [] → prec = none →
        extractValues lib (text (L ++ directiveText flag width prec verb)) (text L) =
          ([Value.str []], none)) ∧
      (width ≠ [] →
        extractValues lib (text (L ++ directiveText flag width prec verb)) (text L) =
          ([], some "message does not match template")) ∧
      (width = [] → prec ≠ none →
        extractValues lib (text (L ++ directiveText flag width prec verb)) (text L) =
          ([], some "message does not match template")) ∧
      extractValues lib (text "Short: %.5s".toList) (text "Short: ".toList) =
        ([], some "message does not match template") := by
  have h := extractValues_string_empty_slot lib L flag width prec verb hdir hverb hL
  refine ⟨?_, ?_, ?_, rfl⟩
  · intro hw hp
    rw [h, hw, hp]
    rfl
  · intro hw
    rw [h, if_pos]
    cases width with
    | nil => exact absurd rfl hw
    | cons c t => rfl
  · intro hw hp
    rw [h, if_pos]
    cases prec with
    | none => exact absurd rfl hp
    | some p => simp

/-- C13 at the templates `"Name: %s"`, `"Name: %10s"` and `"Short: %.5s"`. -/
theorem extractValues_string_empty_witness :
    (isDirective none [] none 's' = true ∧ isDirective none "10".toList none 's' = true ∧
        isDirective none [] (some "5".toList) 's' = true) ∧
      extractValues sampleLib (text "Name: %s".toList) (text "Name: ".toList) =
        ([Value.str []], none) ∧
      extractValues sampleLib (text "Name: %10s".toList) (text "Name: ".toList) =
        ([], some "message does not match template") ∧
      extractValues sampleLib (text "Short: %.5s".toList) (text "Short: ".toList) =
        ([], some "message does not match template") :=
  ⟨⟨by decide, by decide, by decide⟩,
    (extractValues_string_empty sampleLib "Name: ".toList none [] none 's' (by decide)
      (Or.inl rfl) (by decide)).1 rfl rfl,
    (extractValues_string_empty sampleLib "Name: ".toList none "10".toList none 's' (by decide)
      (Or.inl rfl) (by decide)).2.1 (by decide),
    (extractValues_string_empty sampleLib "Short: ".toList none [] (some "5".toList) 's'
      (by decide) (Or.inl rfl) (by decide)).2.2.1 rfl (by decide)⟩

/-! ## A percent verb with modifiers -/

theorem adjustValues_length (lib : GoLib) (translation : GoString) (values : List lib.Val) :
    (adjustValues lib translation values).length =
      countPlaceholders (findAllString placeholderRe translation) := by
  simp only [adjustValues]
  split
  · rename_i hk
    have hlen : (values.take (countPlaceholders (findAllString placeholderRe translation))).length =
        countPlaceholders (findAllString placeholderRe translation) := by
      rw [List.length_take]; omega
    simp only [List.length_append, List.length_replicate, hlen]
    omega
  · simp only [List.length_append, List.length_replicate]
    omega

theorem directiveText_modified_ne (flag : Option Char) (width : Runes)
    (prec : Option Runes) (verb : Char)
    (hp : ∀ p ∈ prec, p ≠ [])
    (hmod : flag.isSome = true ∨ width ≠ [] ∨ prec.isSome = true) :
    directiveText flag width prec verb ≠ "%%".toList := by
  intro h
  have hlen : (directiveText flag width prec verb).length =
      1 + flag.toList.length + width.length + (precText prec).length + 1 := by
    simp only [directiveText, List.length_cons, List.length_append, List.length_nil]
    omega
  have h2 : (directiveText flag width prec verb).length = 2 := by rw [h]; rfl
  rcases hmod with hf | hw | hpr
  · cases flag with
    | none => simp at hf
    | some f => simp at hlen; omega
  · cases width with
    | nil => exact absurd rfl hw
    | cons c t => simp at hlen; omega
  · cases prec with
    | none => simp at hpr
    | some p => simp [precText] at hlen; omega

theorem getCapturePattern_percent (info : placeholderInfo) (h : info.verb = '%') :
    getCapturePattern info = Re.group (Re.plus isDot false) := by
  simp [getCapturePattern, h]

theorem parsePlaceholder_placeholder (s : GoString) : (parsePlaceholder s).placeholder = s := by
  unfold parsePlaceholder
  cases s with
  | nil => rfl
  | cons c t =>
    simp only
    split_ifs <;> rfl

/-- Every entry of the placeholder list is the parse of a directive other than `%%` that the
scanner found, at its offsets. -/
theorem parsePlaceholders_mem (template : GoString) (ms : List (Nat × Nat))
    (info : placeholderInfo) (h : info ∈ parsePlaceholders template ms) :
    ∃ m ∈ ms, slice template m.1 m.2 ≠ text "%%".toList ∧
      info = { parsePlaceholder (slice template m.1 m.2) with start := m.1, stop := m.2 } := by
  induction ms with
  | nil => simp [parsePlaceholders] at h
  | cons m ms ih =>
    by_cases hm : slice template m.1 m.2 = text "%%".toList
    · rw [parsePlaceholders_cons_percent template m ms hm] at h
      obtain ⟨x, hx, hne, he⟩ := ih h
      exact ⟨x, by simp [hx], hne, he⟩
    · rw [parsePlaceholders_cons_real template m ms hm] at h
      rcases List.mem_cons.mp h with h | h
      · exact ⟨m, by simp, hm, h⟩
      · obtain ⟨x, hx, hne, he⟩ := ih h
        exact ⟨x, by simp [hx], hne, he⟩

/-- Every directive other than `%%` that the scanner found has its entry in the placeholder
list. -/
theorem mem_parsePlaceholders (template : GoString) (ms : List (Nat × Nat)) (m : Nat × Nat)
    (hm : m ∈ ms) (hne : slice template m.1 m.2 ≠ text "%%".toList) :
    { parsePlaceholder (slice template m.1 m.2) with start := m.1, stop := m.2 } ∈
      parsePlaceholders template ms := by
  induction ms with
  | nil => simp at hm
  | cons x ms ih =>
    by_cases hx : slice template x.1 x.2 = text "%%".toList
    · rw [parsePlaceholders_cons_percent template x ms hx]
      rcases List.mem_cons.mp hm with h | h
      · rw [h] at hne; exact absurd hx hne
      · exact ih h
    · rw [parsePlaceholders_cons_real template x ms hx]
      rcases List.mem_cons.mp hm with h | h
      · rw [h]; exact List.mem_cons_self _ _
      · exact List.mem_cons_of_mem _ (ih h)

/-- A directive other than `%%` is counted once for each time the scanner finds it. -/
theorem count_le_countPlaceholders (D : GoString) (hD : D ≠ text "%%".toList)
    (l : List GoString) : l.count D ≤ countPlaceholders l := by
  induction l with
  | nil => simp [countPlaceholders]
  | cons m t ih =>
    rw [countPlaceholders, List.count_cons]
    by_cases hm : m = text "%%".toList
    · have hmd : ¬ (m == D) = true := by
        simp only [beq_iff_eq]
        intro e
        exact hD (e ▸ hm)
      rw [if_neg (not_not.mpr hm), if_neg hmd]
      omega
    · rw [if_pos hm]
      split <;> omega

theorem convertValue_percent (lib : GoLib) (x : GoString) :
    convertValue lib x '%' = Value.str (trimSpace x) := by
  simp [convertValue]

/-- C20: a directive whose verb is `%` and which carries a flag, a width or a precision is
matched by the scanner and is not `%%`; its capture pattern is `(.+?)`.  In every template,
each place where the scanner finds it has its entry in the placeholder list; the entry `i`
of that list, when it is such a directive, gives the group `i` of the built pattern, which
is `(.+?)`, and the value `i` of a successful `extractValues`, which is a String.  Between
literals of well-formed UTF-8 without `%` the directive captures a non-empty slot without
newline and returns it trimmed.  In every translation, `applyValues` formats with a value
sequence of length `M`, the number of directives other than `%%`, and each place where the
scanner finds the directive is counted in `M`. -/
theorem percent_verb_with_modifier (lib : GoLib) (flag : Option Char) (width : Runes)
    (prec : Option Runes) (hdir : isDirective flag width prec '%' = true)
    (hmod : flag.isSome = true ∨ width ≠ [] ∨ prec.isSome = true) :
    (∀ pos rest, matchAt placeholderRe pos (directiveText flag width prec '%' ++ rest) =
        some (pos + (directiveText flag width prec '%').length, [])) ∧
      text (directiveText flag width prec '%') ≠ text "%%".toList ∧
      getCapturePattern (parsePlaceholder (text (directiveText flag width prec '%'))) =
        Re.group (Re.plus isDot false) ∧
      (∀ (template : GoString) (m : Nat × Nat),
        m ∈ findAllStringIndex placeholderRe (decode template) →
        slice template m.1 m.2 = text (directiveText flag width prec '%') →
        ∃ info ∈ parsePlaceholders template
            (findAllStringIndex placeholderRe (decode template)),
          info.placeholder = text (directiveText flag width prec '%') ∧
            info.start = m.1 ∧ info.stop = m.2) ∧
      (∀ (template message : GoString) (i : Nat) (info : placeholderInfo),
        (parsePlaceholders template
            (findAllStringIndex placeholderRe (decode template)))[i]? = some info →
        info.placeholder = text (directiveText flag width prec '%') →
        (buildExtractionPattern template
              (findAllStringIndex placeholderRe (decode template))).groups[i]? =
            some (Re.group (Re.plus isDot false)) ∧
          ((extractValues lib template message).2 = none →
            ∃ s : GoString,
              (extractValues lib template message).1[i]? = some (Value.str s))) ∧
      (∀ (L1 L2 : Runes) (v : GoString), '%' ∉ L1 → '%' ∉ L2 → v ≠ [] →
        Glyph.rune '\n' ∉ v →
        extractValues lib (text (L1 ++ directiveText flag width prec '%' ++ L2))
            (text L1 ++ v ++ text L2) =
          ([Value.str (trimSpace v)], none)) ∧
      (∀ (translation : GoString) (values : List lib.Val),
        applyValues lib translation values =
            (sprintf lib translation (adjustValues lib translation values), none) ∧
          (adjustValues lib translation values).length =
            ((findAllString placeholderRe translation).filter
              (fun m => decide (m ≠ text "%%".toList))).length ∧
          (findAllString placeholderRe translation).count
              (text (directiveText flag width prec '%')) ≤
            (adjustValues lib translation values).length) := by
  have hne : directiveText flag width prec '%' ≠ "%%".toList :=
    directiveText_modified_ne flag width prec '%'
      (fun p hp => ((isDirective_parts flag width prec '%' hdir).2.2.1 p hp).1) hmod
  have hneT : text (directiveText flag width prec '%') ≠ text "%%".toList :=
    fun e => hne (text_injective _ _ e)
  have hpp := parsePlaceholder_directiveText flag width prec '%' hdir
  have hcap : getCapturePattern (parsePlaceholder (text (directiveText flag width prec '%'))) =
      Re.group (Re.plus isDot false) := by
    apply getCapturePattern_percent
    rw [hpp]
  refine ⟨matchAt_placeholderRe_directive flag width prec '%' hdir, hneT, hcap, ?_, ?_, ?_, ?_⟩
  · intro template m hm hs
    refine ⟨_, mem_parsePlaceholders template _ m hm (by rw [hs]; exact hneT), ?_, rfl, rfl⟩
    show (parsePlaceholder (slice template m.1 m.2)).placeholder = _
    rw [parsePlaceholder_placeholder, hs]
  · intro template message i info hi hinfo
    obtain ⟨m, _, _, he⟩ := parsePlaceholders_mem template _ info (List.getElem?_mem hi)
    have hsl : slice template m.1 m.2 = text (directiveText flag width prec '%') := by
      rw [← hinfo, he]
      exact (parsePlaceholder_placeholder _).symm
    rw [hsl] at he
    have hcapi : getCapturePattern info = Re.group (Re.plus isDot false) := by
      rw [he]
      exact hcap
    have hverb : info.verb = '%' := by
      rw [he]
      show (parsePlaceholder (text (directiveText flag width prec '%'))).verb = '%'
      rw [hpp]
    constructor
    · rw [groups_buildExtractionPattern, List.getElem?_map, hi]
      simp [hcapi]
    · intro hok
      obtain ⟨sub, _, hval⟩ := extractValues_success lib template message hok
      refine ⟨trimSpace (sub.getD (i + 1) []), ?_⟩
      rw [hval, List.getElem?_map, List.getElem?_enum, hi]
      simp [hverb, convertValue_percent]
  · intro L1 L2 v h1 h2 hv hnl
    obtain ⟨hyes, _⟩ := extractValues_directive lib L1 L2 v flag width prec '%'
      (Re.plus isDot false) hdir hne h1 h2 hcap rfl
    rw [hyes ⟨decode_ne_nil v hv, fun c hc => by
      have : c ≠ '\n' := fun e => not_mem_decode v '\n' (by decide) hnl (e ▸ hc)
      simp [isDot, this]⟩, convertValue_percent]
  · intro translation values
    refine ⟨rfl, ?_, ?_⟩
    · rw [adjustValues_length, countPlaceholders_eq]
    · rw [adjustValues_length]
      exact count_le_countPlaceholders _ hneT _

/-- C20 at the directive `"%5%"`: one String value from the template `"a%5%b"`; in the
template `"n=%d, %5%!"` it is the second placeholder, its group is `(.+?)` and its value a
String; in the translation `"%5%"` it makes one value slot, which the formatter does not
use. -/
theorem percent_verb_with_modifier_witness :
    (isDirective none "5".toList none '%' = true ∧
        directiveText none "5".toList none '%' = "%5%".toList) ∧
      extractValues sampleLib (text "a%5%b".toList) (text "a x b".toList) =
        ([Value.str (text "x".toList)], none) ∧
      ((buildExtractionPattern (text "n=%d, %5%!".toList)
            (findAllStringIndex placeholderRe
              (decode (text "n=%d, %5%!".toList)))).groups[1]? =
          some (Re.group (Re.plus isDot false)) ∧
        ∃ s : GoString,
          (extractValues sampleLib (text "n=%d, %5%!".toList)
            (text "n=4, x y!".toList)).1[1]? = some (Value.str s)) ∧
      extractValues sampleLib (text "n=%d, %5%!".toList) (text "n=4, x y!".toList) =
        ([Value.int 4, Value.str (text "x y".toList)], none) ∧
      (adjustValues sampleLib (text "%5%".toList) []).length = 1 ∧
      applyValues sampleLib (text "%5%".toList) [] =
        (text "%%!(EXTRA string=)".toList, none) :=
  ⟨⟨by decide, by decide⟩,
    (percent_verb_with_modifier sampleLib none "5".toList none (by decide)
      (Or.inr (Or.inl (by decide)))).2.2.2.2.2.1 "a".toList "b".toList (text " x ".toList)
      (by decide) (by decide) (by decide) (by decide),
    ⟨((percent_verb_with_modifier sampleLib none "5".toList none (by decide)
        (Or.inr (Or.inl (by decide)))).2.2.2.2.1 (text "n=%d, %5%!".toList)
        (text "n=4, x y!".toList) 1
        { parsePlaceholder (text "%5%".toList) with start := 6, stop := 9 } (by rfl)
        (by decide)).1,
      ((percent_verb_with_modifier sampleLib none "5".toList none (by decide)
        (Or.inr (Or.inl (by decide)))).2.2.2.2.1 (text "n=%d, %5%!".toList)
        (text "n=4, x y!".toList) 1
        { parsePlaceholder (text "%5%".toList) with start := 6, stop := 9 } (by rfl)
        (by decide)).2 (by decide)⟩,
    by decide,
    by decide,
    by decide⟩

/-! ## Integer extraction under an unmodified `%d` -/

/-- C9 as stated fails for a literal that is not well-formed UTF-8: with `L1 = "\xff"`, an
empty `L2` and `n = 42` the pattern does not compile and the extraction fails. -/
theorem extractValues_percent_d_itoa_counterexample :
    (Glyph.rune '%' ∉ [Glyph.byte 255] ∧ -(2 : Int) ^ 63 ≤ 42 ∧ (42 : Int) ≤ 2 ^ 63 - 1) ∧
      extractValues sampleLib ([Glyph.byte 255] ++ text "%d".toList ++ [])
          ([Glyph.byte 255] ++ text (itoa 42) ++ []) =
        ([], compileFailure) := by
  decide

/-- C9, amended: for literals `L1`, `L2` of well-formed UTF-8 without `%` and an integer `n`
in the range of `int`, `extractValues(L1 + "%d" + L2, L1 + decimal(n) + L2)` succeeds and
returns exactly the one-element sequence `[Integer n]`. -/
theorem extractValues_percent_d_itoa (lib : GoLib) (L1 L2 : Runes) (n : Int)
    (h1 : '%' ∉ L1) (h2 : '%' ∉ L2) (hlo : -(2 : Int) ^ 63 ≤ n) (hhi : n ≤ 2 ^ 63 - 1) :
    extractValues lib (text (L1 ++ "%d".toList ++ L2)) (text (L1 ++ itoa n ++ L2)) =
      ([Value.int n], none) := by
  have hm : text (L1 ++ itoa n ++ L2) = text L1 ++ text (itoa n) ++ text L2 := by
    simp [text_append]
  rw [hm, extractValues_single_d lib L1 L2 (text (itoa n)) h1 h2
      (fun e => itoa_ne_nil n (by simpa [text] using e))
      (by rw [decode_text]; exact itoa_isNonSpace n)]
  have hr : inInt64 n = true := by
    simp only [inInt64, Bool.and_eq_true, decide_eq_true_eq]
    exact ⟨hlo, hhi⟩
  simp [convertValue, trimSpace_eq_self _ (by rw [decode_text]; exact itoa_isSpace n),
    atoi_itoa n hr]

/-- C9, amended, at the template `"Count: %d"` and the message `"Count: 42"`, and at a
negative number between two literals. -/
theorem extractValues_percent_d_itoa_witness :
    ('%' ∉ "Count: ".toList ∧ '%' ∉ ([] : Runes) ∧ -(2 : Int) ^ 63 ≤ 42 ∧
        (42 : Int) ≤ 2 ^ 63 - 1) ∧
      extractValues sampleLib (text "Count: %d".toList) (text "Count: 42".toList) =
        ([Value.int 42], none) ∧
      itoa (-7) = "-7".toList ∧
      extractValues sampleLib (text ("温度 ".toList ++ "%d".toList ++ "°C".toList))
          (text ("温度 ".toList ++ itoa (-7) ++ "°C".toList)) =
        ([Value.int (-7)], none) :=
  ⟨⟨by decide, by decide, by decide, by decide⟩,
    extractValues_percent_d_itoa sampleLib "Count: ".toList [] 42 (by decide) (by decide)
      (by decide) (by decide),
    by decide,
    extractValues_percent_d_itoa sampleLib "温度 ".toList "°C".toList (-7) (by decide)
      (by decide) (by decide) (by decide)⟩

/-! ## Round trip: what the formatter writes for a list of placeholders -/

theorem natAbs_natCast (n : Nat) : (n : Int).natAbs = n := Int.natAbs_ofNat n

/-- What the formatter writes for one placeholder and its value, whatever follows. -/
theorem directive_slot (lib : GoLib) (s : Slot) (rest : GoString) (a : List lib.Val) (k : Nat)
    (h : a.get? k = some (s.value lib)) :
    directive lib (Glyph.rune s.verb :: rest) a k = some (s.shown, rest, k + 1) := by
  rw [List.get?_eq_getElem?] at h
  cases s with
  | str v lit =>
    simp only [Slot.value] at h
    simp [directive, parseFlags, parsenum, parsenumLoop, isDigit, printArg, fmtS, padString,
      FmtFlags.clear, Glyph.toRune, Slot.verb, Slot.shown, h]
  | int n lit =>
    simp only [Slot.value] at h
    have hf := fmtInteger_clear n
    simp only [FmtFlags.clear] at hf
    simp [directive, parseFlags, parsenum, parsenumLoop, isDigit, printArg, FmtFlags.clear,
      Glyph.toRune, Slot.verb, Slot.shown, h, hf]
  | bool b lit =>
    simp only [Slot.value] at h
    simp [directive, parseFlags, parsenum, parsenumLoop, isDigit, printArg, padString,
      FmtFlags.clear, Glyph.toRune, Slot.verb, Slot.shown, h]
  | hex upper n lit =>
    simp only [Slot.value] at h
    have hf : ∀ u : Bool, fmtInteger FmtFlags.clear (n : Int) 16 u = text (natDigits 16 u n) := by
      intro u
      have hn : ¬ ((n : Int) < 0) := by omega
      simp [fmtInteger, FmtFlags.clear, padString, hn]
    simp only [FmtFlags.clear] at hf
    cases upper <;>
      simp [directive, parseFlags, parsenum, parsenumLoop, isDigit, printArg, FmtFlags.clear,
        Glyph.toRune, Slot.verb, Slot.shown, h, hf]

theorem not_mem_of_contains (lit : Runes) (c : Char) (h : (!lit.contains c) = true) :
    c ∉ lit := by
  simpa using h

/-- The literal text after an `ok` placeholder has no `%`. -/
theorem Slot.ok_lit (s : Slot) (last : Bool) (h : s.ok last = true) : '%' ∉ s.lit := by
  cases s <;> simp only [Slot.ok, Bool.and_eq_true] at h <;>
    simp only [Slot.lit]
  · exact not_mem_of_contains _ _ h.1.1.1
  · exact not_mem_of_contains _ _ h.1.1
  · exact not_mem_of_contains _ _ h
  · exact not_mem_of_contains _ _ h.1.1

theorem slotsOk_cons (s : Slot) (ss : List Slot) (h : slotsOk (s :: ss) = true) :
    s.ok ss.isEmpty = true ∧ slotsOk ss = true := by
  cases ss with
  | nil => exact ⟨by simpa [slotsOk] using h, rfl⟩
  | cons s1 ss1 =>
    simp only [slotsOk, Bool.and_eq_true] at h
    exact ⟨by simpa using h.1, h.2⟩

theorem doPrintf_literal_le (lib : GoLib) (L rest : GoString) (fuel : Nat) (a : List lib.Val)
    (argNum : Nat) (hL : Glyph.rune '%' ∉ L) (hf : L.length ≤ fuel) :
    doPrintf lib fuel (L ++ rest) a argNum =
      L ++ doPrintf lib (fuel - L.length) rest a argNum := by
  have := doPrintf_literal lib L rest (fuel - L.length) a argNum hL
  rwa [Nat.sub_add_cancel hf] at this

/-- The formatter on a template given by its placeholders. -/
theorem doPrintf_slots (lib : GoLib) (slots : List Slot) :
    ∀ (L : Runes) (fuel k : Nat) (a : List lib.Val), '%' ∉ L → slotsOk slots = true →
      (L ++ slotsDirs slots).length < fuel → a.drop k = slots.map (Slot.value lib) →
      doPrintf lib fuel (text (L ++ slotsDirs slots)) a k = text L ++ slotsBody slots := by
  induction slots with
  | nil =>
    intro L fuel k a hL _ hf ha
    have hk : ¬ k < a.length := by
      intro hlt
      have := congrArg List.length ha
      simp at this
      omega
    simp only [slotsDirs, List.append_nil, slotsBody] at hf ⊢
    have h1 := doPrintf_literal_le lib (text L) [] fuel a k (not_mem_text_percent L hL)
      (by rw [length_text]; omega)
    rw [List.append_nil] at h1
    rw [h1]
    obtain ⟨f, hfe⟩ : ∃ f, fuel - (text L).length = f + 1 :=
      ⟨fuel - (text L).length - 1, by rw [length_text]; omega⟩
    rw [hfe, doPrintf, extraArgs, if_neg hk, List.append_nil]
  | cons s ss ih =>
    intro L fuel k a hL hok hf ha
    obtain ⟨hs, hss⟩ := slotsOk_cons s ss hok
    have hfmt : text (L ++ slotsDirs (s :: ss)) =
        text L ++ (Glyph.rune '%' :: Glyph.rune s.verb :: text (s.lit ++ slotsDirs ss)) := by
      simp [slotsDirs, text]
    simp only [slotsDirs, List.length_append, List.length_cons] at hf
    rw [hfmt, doPrintf_literal_le lib (text L) _ fuel a k (not_mem_text_percent L hL)
      (by rw [length_text]; omega)]
    obtain ⟨f, hfe⟩ : ∃ f, fuel - (text L).length = f + 1 :=
      ⟨fuel - (text L).length - 1, by rw [length_text]; omega⟩
    have hget : a.get? k = some (s.value lib) := by
      have h0 := congrArg (fun l => l.get? 0) ha
      simpa [List.getElem?_drop] using h0
    have hdrop : a.drop (k + 1) = ss.map (Slot.value lib) := by
      have h0 := congrArg List.tail ha
      simpa [List.tail_drop] using h0
    rw [hfe, doPrintf, if_pos (by rfl), directive_slot lib s _ a k hget]
    simp only
    rw [ih s.lit f (k + 1) a (Slot.ok_lit s _ hs) hss (by
      rw [length_text] at hfe
      simp only [List.length_append]
      omega) hdrop, slotsBody]

/-- The formatter writes the literal texts and, in between, what the values are shown as. -/
theorem sprintf_slots (lib : GoLib) (L0 : Runes) (slots : List Slot) (h0 : '%' ∉ L0)
    (hok : slotsOk slots = true) :
    sprintf lib (text (slotsTemplate L0 slots)) (slots.map (Slot.value lib)) =
      text L0 ++ slotsBody slots := by
  rw [sprintf, slotsTemplate]
  exact doPrintf_slots lib slots L0 _ 0 _ h0 hok (by rw [length_text]; omega) rfl

/-! ## Round trip: reading back what a placeholder shows -/

theorem hexDigit_digitChar (upper : Bool) (d : Nat) (h : d < 16) :
    hexDigit (digitChar upper d) = some d ∧ isHexDigit (digitChar upper d) = true := by
  interval_cases d <;> cases upper <;> exact ⟨rfl, rfl⟩

theorem parse_natDigitsFrom_hex (upper : Bool) (fuel n : Nat) (h : n < fuel) :
    parseDigitsFrom hexDigit 16 (natDigitsFrom 16 upper fuel n []) 0 = some n := by
  induction fuel generalizing n with
  | zero => omega
  | succ f ih =>
    simp only [natDigitsFrom]
    split
    · rename_i hlt
      simp [parseDigitsFrom, (hexDigit_digitChar upper n hlt).1]
    · rename_i hge
      have hf : n / 16 < f := by omega
      rw [natDigitsFrom_acc, parseDigitsFrom_append, ih _ hf]
      simp only [Option.bind, parseDigitsFrom,
        (hexDigit_digitChar upper _ (Nat.mod_lt n (by omega))).1]
      congr 1
      omega

theorem natDigitsFrom_hexDigits (upper : Bool) (fuel n : Nat) (acc : Runes)
    (hacc : ∀ c ∈ acc, isHexDigit c = true) :
    ∀ c ∈ natDigitsFrom 16 upper fuel n acc, isHexDigit c = true := by
  induction fuel generalizing n acc with
  | zero => simpa [natDigitsFrom] using hacc
  | succ f ih =>
    simp only [natDigitsFrom]
    split
    · rename_i hlt
      intro c hc
      rcases List.mem_cons.mp hc with rfl | hc
      · exact (hexDigit_digitChar upper n hlt).2
      · exact hacc c hc
    · apply ih
      intro c hc
      rcases List.mem_cons.mp hc with rfl | hc
      · exact (hexDigit_digitChar upper _ (Nat.mod_lt n (by omega))).2
      · exact hacc c hc

theorem natDigits_hex (upper : Bool) (n : Nat) :
    natDigits 16 upper n ≠ [] ∧ (∀ c ∈ natDigits 16 upper n, isHexDigit c = true) ∧
      hexValue (natDigits 16 upper n) = n := by
  have hne : natDigits 16 upper n ≠ [] := natDigitsFrom_ne_nil 16 upper n n []
  have hall : ∀ c ∈ natDigits 16 upper n, isHexDigit c = true :=
    natDigitsFrom_hexDigits upper (n + 1) n [] (by simp)
  refine ⟨hne, hall, ?_⟩
  have h1 := parse_natDigitsFrom_hex upper (n + 1) n (by omega)
  have h2 := parseDigitsFrom_hex (natDigits 16 upper n) 0 hall
  unfold natDigits at h2
  rw [h1] at h2
  exact (Option.some.inj h2).symm

theorem not_mem_glyph (v : GoString) (g : Glyph) (h : (!v.contains g) = true) : g ∉ v := by
  simpa using h

/-- Reading back what an `ok` placeholder shows gives its value. -/
theorem convertValue_slot (lib : GoLib) (s : Slot) (last : Bool) (h : s.ok last = true) :
    convertValue lib s.shown s.verb = s.value lib := by
  cases s with
  | str v lit =>
    simp only [Slot.ok, Bool.and_eq_true, decide_eq_true_eq] at h
    simp [convertValue, Slot.shown, Slot.verb, Slot.value, h.1.2]
  | int n lit =>
    simp only [Slot.ok, Bool.and_eq_true] at h
    simp [convertValue, Slot.shown, Slot.verb, Slot.value,
      trimSpace_eq_self _ (by rw [decode_text]; exact itoa_isSpace n), atoi_itoa n h.1.2]
  | bool b lit => cases b <;> rfl
  | hex upper n lit =>
    simp only [Slot.ok, Bool.and_eq_true, decide_eq_true_eq] at h
    obtain ⟨hne, hall, hval⟩ := natDigits_hex upper n
    have hr : inInt64 (n : Int) = true := by
      simp only [inInt64, Bool.and_eq_true, decide_eq_true_eq]
      constructor <;> omega
    have hc := convertValue_hex lib [] (natDigits 16 upper n) (if upper then 'X' else 'x')
      (by cases upper <;> simp) (Or.inl rfl) hne hall
    rw [hval, if_pos hr, List.nil_append] at hc
    exact hc

/-! ## Round trip: the scanner and the pattern of a list of placeholders -/

theorem Slot.verb_isVerbChar (s : Slot) : isVerbChar s.verb = true := by
  cases s with
  | hex upper n lit => cases upper <;> rfl
  | _ => rfl

theorem Slot.verb_ne_percent (s : Slot) : s.verb ≠ '%' := by
  cases s with
  | hex upper n lit => cases upper <;> simp [Slot.verb]
  | _ => simp [Slot.verb]

theorem Slot.capture_eq (s : Slot) :
    getCapturePattern (parsePlaceholder (text ['%', s.verb])) = s.capture := by
  cases s with
  | hex upper n lit => cases upper <;> rfl
  | _ => rfl

/-- The scanner finds the placeholders of the list and nothing else. -/
theorem scan_slots (slots : List Slot) :
    ∀ (L : Runes) (fuel pos : Nat) (prev : Option Nat), '%' ∉ L → slotsOk slots = true →
      (L ++ slotsDirs slots).length < fuel →
      allMatchesLoop placeholderRe fuel pos (L ++ slotsDirs slots) prev =
        slotOffs (pos + L.length) slots := by
  induction slots with
  | nil =>
    intro L fuel pos prev hL _ hf
    obtain ⟨f, rfl⟩ : ∃ f, fuel = f + 1 := ⟨fuel - 1, by omega⟩
    rw [slotsDirs, List.append_nil, allMatchesLoop_none _ _ _ _ _
      (search_placeholderRe_none L _ hL)]
    rfl
  | cons s ss ih =>
    intro L fuel pos prev hL hok hf
    obtain ⟨hs, hss⟩ := slotsOk_cons s ss hok
    obtain ⟨f, rfl⟩ : ∃ f, fuel = f + 1 := ⟨fuel - 1, by omega⟩
    simp only [slotsDirs, List.length_append, List.length_cons] at hf
    have hsearch : search placeholderRe pos (L ++ slotsDirs (s :: ss)) =
        some (pos + L.length, pos + L.length + 2, []) := by
      rw [slotsDirs, search_placeholderRe_skip L _ _ hL, search,
        matchAt_placeholderRe_verb _ _ _ (Slot.verb_isVerbChar s)]
    have hdrop : (L ++ slotsDirs (s :: ss)).drop (pos + L.length + 2 - pos) =
        s.lit ++ slotsDirs ss := by
      rw [show pos + L.length + 2 - pos = L.length + 2 by omega, ← List.drop_drop,
        List.drop_left]
      rfl
    rw [allMatchesLoop_step _ _ _ _ _ _ _ _ hsearch (by omega), hdrop,
      ih s.lit f (pos + L.length + 2) _ (Slot.ok_lit s _ hs) hss (by
        simp only [List.length_append]; omega), slotOffs]

theorem findAllStringIndex_slots (L0 : Runes) (slots : List Slot) (h0 : '%' ∉ L0)
    (hok : slotsOk slots = true) :
    findAllStringIndex placeholderRe (slotsTemplate L0 slots) = slotOffs L0.length slots := by
  rw [findAllStringIndex, slotsTemplate, scan_slots slots L0 _ 0 none h0 hok (by omega),
    Nat.zero_add]

theorem slice_template_lit (pre L rest : Runes) :
    slice (pre ++ (L ++ rest)) pre.length (pre.length + L.length) = L := by
  simp [slice]

theorem slice_template_dir (pre L : Runes) (v : Char) (rest : Runes) :
    slice (pre ++ (L ++ '%' :: v :: rest)) (pre.length + L.length)
        (pre.length + L.length + 2) = ['%', v] := by
  rw [← List.append_assoc, ← List.length_append]
  simp [slice]

theorem text_dir_ne (s : Slot) : text ['%', s.verb] ≠ text "%%".toList := by
  intro e
  have := text_injective _ _ e
  exact Slot.verb_ne_percent s (by simpa using this)

/-- The placeholders the program parses from the template are those of the list. -/
theorem parsePlaceholders_slots (slots : List Slot) :
    ∀ (pre L : Runes),
      (parsePlaceholders (text (pre ++ (L ++ slotsDirs slots)))
          (slotOffs (pre.length + L.length) slots)).map (fun info => info.verb) =
        slots.map Slot.verb := by
  induction slots with
  | nil => intro pre L; rfl
  | cons s ss ih =>
    intro pre L
    have hsl : slice (text (pre ++ (L ++ slotsDirs (s :: ss)))) (pre.length + L.length)
        (pre.length + L.length + 2) = text ['%', s.verb] := by
      rw [slice_text, slotsDirs, slice_template_dir]
    rw [slotOffs, parsePlaceholders_cons_real _ _ _ (by rw [hsl]; exact text_dir_ne s)]
    simp only [hsl, List.map_cons]
    have hverb : (parsePlaceholder (text ['%', s.verb])).verb = s.verb := by
      have := parsePlaceholder_directiveText none [] none s.verb (by
        simp [isDirective, Slot.verb_isVerbChar s])
      simp only [directiveText, precText, Option.toList, List.nil_append] at this
      rw [this]
    have hpre : pre ++ (L ++ slotsDirs (s :: ss)) =
        (pre ++ L ++ ['%', s.verb]) ++ (s.lit ++ slotsDirs ss) := by
      simp [slotsDirs, List.append_assoc]
    have hlen : pre.length + L.length + 2 + s.lit.length =
        (pre ++ L ++ ['%', s.verb]).length + s.lit.length := by
      simp only [List.length_append, List.length_cons, List.length_nil]
    have := ih (pre ++ L ++ ['%', s.verb]) s.lit
    rw [← hpre, ← hlen] at this
    rw [this]
    exact congrArg (· :: _) hverb

/-- The pattern the program builds matches as the chain of the placeholders does. -/
theorem run_pieces_slots (slots : List Slot) :
    ∀ (pre L : Runes) (g pos : Nat) (s : Runes) (caps : Caps) (k : Cont),
      (catRe (patternPieces (text (pre ++ (L ++ slotsDirs slots)))
          (slotOffs (pre.length + L.length) slots) pre.length)).run g pos s caps k =
        (catRe (chainRe L slots)).run g pos s caps k := by
  induction slots with
  | nil =>
    intro pre L g pos s caps k
    simp only [slotOffs, patternPieces, slotsDirs, List.append_nil, drop_text, quoteMeta_text,
      length_text, chainRe, List.drop_left]
    rw [run_catRe_optLit _ _ _ (by
      intro h
      apply List.length_eq_zero.mp
      simp only [List.length_append] at h
      omega)]
  | cons sl ss ih =>
    intro pre L g pos s caps k
    have hsl : slice (text (pre ++ (L ++ slotsDirs (sl :: ss)))) (pre.length + L.length)
        (pre.length + L.length + 2) = text ['%', sl.verb] := by
      rw [slice_text, slotsDirs, slice_template_dir]
    have hlit : slice (text (pre ++ (L ++ slotsDirs (sl :: ss)))) pre.length
        (pre.length + L.length) = text L := by
      rw [slice_text, slice_template_lit]
    have hpre : pre ++ (L ++ slotsDirs (sl :: ss)) =
        (pre ++ L ++ ['%', sl.verb]) ++ (sl.lit ++ slotsDirs ss) := by
      simp [slotsDirs, List.append_assoc]
    have hlen : pre.length + L.length + 2 + sl.lit.length =
        (pre ++ L ++ ['%', sl.verb]).length + sl.lit.length := by
      simp only [List.length_append, List.length_cons, List.length_nil]
    have hlen2 : pre.length + L.length + 2 = (pre ++ L ++ ['%', sl.verb]).length := by
      simp only [List.length_append, List.length_cons, List.length_nil]
    simp only [slotOffs, patternPieces, hsl, hlit, if_neg (text_dir_ne sl), quoteMeta_text,
      Slot.capture_eq, chainRe]
    rw [run_catRe_optLit _ _ _ (by intro h; exact List.length_eq_zero.mp (by omega)),
      run_catRe_cons, run_catRe_cons]
    congr 1
    funext p1 s1 c1
    rw [run_catRe_cons, run_catRe_cons]
    congr 1
    funext p2 s2 c2
    rw [hpre, hlen, hlen2]
    exact ih _ _ _ _ _ _ _

/-! ## Round trip: one placeholder against what follows it -/

theorem run_alt (a b : Re) (g pos : Nat) (s : Runes) (caps : Caps) (k : Cont) :
    (Re.alt a b).run g pos s caps k =
      orElse (a.run g pos s caps k) (b.run (g + a.numGroups) pos s caps k) := rfl

/-- A lazy repetition hands over after `w` when the continuation refuses every text that
starts with a character of `w`. -/
theorem starLoop_lazy_first (p : Char → Bool) (w s : Runes) (pos : Nat) (caps : Caps)
    (k : Cont) (r : Nat × Caps) (hw : ∀ c ∈ w, p c = true)
    (hfail : ∀ c ∈ w, ∀ p1 u, k p1 (c :: u) caps = none)
    (hk : k (pos + w.length) s caps = some r) :
    starLoop p false (w ++ s) pos caps k = some r := by
  induction w generalizing pos with
  | nil => exact starLoop_lazy_here p s pos caps k r (by simpa using hk)
  | cons c w1 ih =>
    have hc : p c = true := hw c (by simp)
    have h1 : k pos (c :: (w1 ++ s)) caps = none := hfail c (by simp) _ _
    have h2 := ih (pos + 1) (fun d hd => hw d (by simp [hd]))
      (fun d hd => hfail d (by simp [hd]))
      (by rw [← hk, List.length_cons]; congr 1; omega)
    rw [List.cons_append, starLoop]
    simp only [Bool.false_eq_true, if_false, hc, if_true, h1, orElse_none_left, h2]

theorem headIs_cons (p : Char → Bool) (lit : Runes) (h : headIs p lit = true) :
    ∃ c0 t, lit = c0 :: t ∧ p c0 = true := by
  cases lit with
  | nil => simp [headIs] at h
  | cons c t => exact ⟨c, t, rfl, h⟩

theorem isDot_of_no_newline (v : GoString) (h : Glyph.rune '\n' ∉ v) :
    ∀ c ∈ decode v, isDot c = true := by
  intro c hc
  have : c ≠ '\n' := fun e => not_mem_decode v '\n' (by decide) h (e ▸ hc)
  simp [isDot, this]

/-- What an `ok` placeholder shows is in the language of its capture pattern. -/
theorem slot_accepts (s : Slot) (last : Bool) (h : s.ok last = true) :
    ∃ a, s.capture = Re.group a ∧ a.plain = true ∧ a.accepts (decode s.shown) := by
  cases s with
  | str v lit =>
    simp only [Slot.ok, Bool.and_eq_true, decide_eq_true_eq] at h
    exact ⟨_, rfl, rfl, isDot_of_no_newline v (not_mem_glyph v _ h.1.1.2)⟩
  | int n lit =>
    refine ⟨_, rfl, rfl, ?_⟩
    simp only [Slot.shown, decode_text]
    exact ⟨itoa_ne_nil n, itoa_isNonSpace n⟩
  | bool b lit =>
    refine ⟨_, rfl, by simp [Re.plain, plain_litRe], ?_⟩
    simp only [Slot.shown, decode_text]
    show (litRe "true".toList).accepts _ ∨ (litRe "false".toList).accepts _
    rw [accepts_litRe, accepts_litRe]
    cases b
    · exact Or.inr rfl
    · exact Or.inl rfl
  | hex upper n lit =>
    refine ⟨_, rfl, rfl, ?_⟩
    simp only [Slot.shown, decode_text]
    obtain ⟨hne, hall, _⟩ := natDigits_hex upper n
    exact (accepts_hex _).mpr ⟨[], _, rfl, Or.inl rfl, hne, hall⟩

/-- A placeholder that is followed by another one: its capture pattern takes what the
placeholder shows and hands over to the continuation.  When the literal text after the
placeholder is not empty, the rest of the input starts with its first character `c0`, and the
continuation refuses every text that starts otherwise. -/
theorem slot_mid (s : Slot) (h : s.ok false = true) (rest : Runes) (g pos : Nat) (caps : Caps)
    (K : Cont) (r : Nat × Caps)
    (hrest : ∀ c0 lit1, s.lit = c0 :: lit1 →
      (∃ t, rest = c0 :: t) ∧ ∀ x, x ≠ c0 → ∀ p u c, K p (x :: u) c = none)
    (hK : K (pos + s.shown.length) rest ((g, pos, pos + s.shown.length) :: caps) = some r) :
    s.capture.run g pos (decode s.shown ++ rest) caps K = some r := by
  cases s with
  | str v lit =>
    simp only [Slot.ok, Bool.and_eq_true, decide_eq_true_eq, Bool.false_or] at h
    obtain ⟨c0, lit1, hlit, hhead⟩ := headIs_cons _ _ h.2
    obtain ⟨⟨t, ht⟩, hfail⟩ := hrest c0 lit1 hlit
    subst ht
    simp only [Slot.shown] at hK ⊢
    have hc0 : c0 ∉ decode v := by simpa using hhead
    rw [Slot.capture, run_group, run_star]
    apply starLoop_lazy_first isDot (decode v) (c0 :: t) pos caps _ r
      (isDot_of_no_newline v (not_mem_glyph v _ h.1.1.2))
    · intro c hc p1 u
      exact hfail c (fun e => hc0 (e ▸ hc)) _ _ _
    · rw [length_decode]
      exact hK
  | int n lit =>
    simp only [Slot.ok, Bool.and_eq_true, Bool.false_or] at h
    obtain ⟨c0, lit1, hlit, hsp⟩ := headIs_cons _ _ h.2
    obtain ⟨⟨t, ht⟩, hfail⟩ := hrest c0 lit1 hlit
    subst ht
    simp only [Slot.shown, decode_text, length_text] at hK ⊢
    obtain ⟨c, w, hcw⟩ := List.exists_cons_of_ne_nil (itoa_ne_nil n)
    have hns := itoa_isNonSpace n
    rw [hcw] at hns hK ⊢
    rw [Slot.capture, run_group, List.cons_append, run_plus_cons, if_pos (hns c (by simp))]
    apply starLoop_greedy_first isNonSpace w (c0 :: t) (pos + 1) caps _ r
      (fun d hd => hns d (by simp [hd]))
    · intro d u e
      rw [← (List.cons.inj e).1]
      simp [isNonSpace, hsp]
    · have hl : pos + 1 + w.length = pos + (w.length + 1) := by omega
      rw [hl, ← List.length_cons c w]
      exact hK
  | bool b lit =>
    simp only [Slot.shown, decode_text, length_text] at hK ⊢
    rw [Slot.capture, run_group, run_alt]
    cases b with
    | true =>
      simp only [if_true] at hK ⊢
      rw [run_litRe_append, hK]
      rfl
    | false =>
      simp only [Bool.false_eq_true, if_false] at hK ⊢
      have h1 : (litRe "true".toList).run (g + 1) pos ("false".toList ++ rest) caps
          (fun pos1 s1 caps1 => K pos1 s1 ((g, pos, pos1) :: caps1)) = none := by
        simp [litRe, catRe, Re.run]
      rw [h1, orElse_none_left, run_litRe_append, hK]
  | hex upper n lit =>
    simp only [Slot.ok, Bool.and_eq_true, decide_eq_true_eq, Bool.false_or] at h
    obtain ⟨c0, lit1, hlit, hhead⟩ := headIs_cons _ _ h.2
    obtain ⟨⟨t, ht⟩, hfail⟩ := hrest c0 lit1 hlit
    subst ht
    simp only [Slot.shown, decode_text, length_text] at hK ⊢
    simp only [Bool.and_eq_true, Bool.not_eq_true'] at hhead
    obtain ⟨hne, hall, _⟩ := natDigits_hex upper n
    obtain ⟨d, w, hdw⟩ := List.exists_cons_of_ne_nil hne
    rw [hdw] at hall hK ⊢
    rw [Slot.capture, run_group, run_seq, run_opt]
    have hA : (Re.seq (Re.char '0') (Re.cls isXChar)).run (g + 1) pos (d :: w ++ c0 :: t) caps
        (fun p1 s1 c1 =>
          (Re.plus isHexDigit true).run
            (g + 1 + (Re.opt (Re.seq (Re.char '0') (Re.cls isXChar))).numGroups) p1 s1 c1
            (fun pos1 s1 caps1 => K pos1 s1 ((g, pos, pos1) :: caps1))) = none := by
      rw [run_seq, List.cons_append, run_char_cons]
      split_ifs
      · cases w with
        | nil => rw [List.nil_append, run_cls_cons, hhead.2]; rfl
        | cons e w1 =>
          have he : isXChar e = false := by
            obtain ⟨_, _, _, h3, h4, _⟩ := isHexDigit_facts e (hall e (by simp))
            simp [isXChar, h3, h4]
          rw [List.cons_append, run_cls_cons, he]
          rfl
      · rfl
    rw [hA, orElse_none_left, List.cons_append, run_plus_cons, if_pos (hall d (by simp))]
    apply starLoop_greedy_first isHexDigit w (c0 :: t) (pos + 1) caps _ r
      (fun x hx => hall x (by simp [hx]))
    · intro x u e
      rw [← (List.cons.inj e).1]
      exact hhead.1
    · have hl : pos + 1 + w.length = pos + (w.length + 1) := by omega
      rw [hl, ← List.length_cons d w]
      exact hK

/-! ## Round trip: the chain of placeholders against the formatted message -/

theorem Slot.capture_numGroups (s : Slot) : s.capture.numGroups = 1 := by
  cases s <;> simp [Slot.capture, Re.numGroups, numGroups_litRe]

/-- A chain that starts with the literal `c0 :: lit1` refuses a text that starts otherwise. -/
theorem chain_head_fail (c0 : Char) (lit1 : Runes) (ss : List Slot) (g p : Nat) (x : Char)
    (u : Runes) (c : Caps) (k : Cont) (hx : x ≠ c0) :
    (catRe (chainRe (c0 :: lit1) ss)).run g p (x :: u) c k = none := by
  cases ss <;> rw [chainRe, run_catRe_cons] <;> simp [litRe, catRe, Re.run, hx]

theorem decode_slotsBody_cons (s : Slot) (ss : List Slot) :
    decode (slotsBody (s :: ss)) = decode s.shown ++ (s.lit ++ decode (slotsBody ss)) := by
  rw [slotsBody, decode_append, decode_append, decode_text]

/-- The chain of the placeholders matches the literal text followed by the shown values, and
binds each group to the place of its value. -/
theorem chain_run (slots : List Slot) :
    ∀ (L : Runes) (g pos : Nat) (caps : Caps), slotsOk slots = true →
      (catRe (chainRe L slots)).run g pos (L ++ decode (slotsBody slots)) caps
          (fun e _ c => some (e, c)) =
        some (pos + L.length + (slotsBody slots).length,
          capsOf g (pos + L.length) slots ++ caps) := by
  induction slots with
  | nil =>
    intro L g pos caps _
    rw [chainRe, run_lit_eol, if_pos (by simp [slotsBody])]
    simp [slotsBody, capsOf]
  | cons s ss ih =>
    intro L g pos caps hok
    obtain ⟨hs, hss⟩ := slotsOk_cons s ss hok
    rw [chainRe, run_catRe_cons, run_litRe_append, run_catRe_cons, decode_slotsBody_cons,
      numGroups_litRe, Nat.add_zero, Slot.capture_numGroups]
    have hlen : (slotsBody (s :: ss)).length =
        s.shown.length + (s.lit.length + (slotsBody ss).length) := by
      simp [slotsBody, List.length_append, length_text]
    cases ss with
    | nil =>
      simp only [List.isEmpty_nil] at hs
      obtain ⟨a, hcap, hplain, hacc⟩ := slot_accepts s true hs
      have h1 := (run_group_lit_eol a hplain g (g + 1) (pos + L.length) (decode s.shown) s.lit
        caps).1 hacc
      simp only [slotsBody, decode_nil, List.append_nil, chainRe, hcap]
      rw [h1]
      simp [capsOf, length_decode, length_text, Nat.add_assoc]
    | cons s1 ss1 =>
      simp only [List.isEmpty_cons] at hs
      apply slot_mid s hs
      · intro c0 lit1 hlit
        refine ⟨⟨lit1 ++ decode (slotsBody (s1 :: ss1)), by rw [hlit]; rfl⟩, ?_⟩
        intro x hx p u c
        rw [hlit]
        exact chain_head_fail c0 lit1 (s1 :: ss1) _ _ x u c _ hx
      · rw [ih s.lit (g + 1) (pos + L.length + s.shown.length) _ hss, hlen]
        simp [capsOf, Nat.add_assoc]

/-- A group index below those of the placeholders is not bound by them. -/
theorem lookup_capsOf_lt (slots : List Slot) :
    ∀ (g p k : Nat) (tail : Caps), k < g →
      (capsOf g p slots ++ tail).lookup k = tail.lookup k := by
  induction slots with
  | nil => intro g p k tail _; rfl
  | cons s ss ih =>
    intro g p k tail hk
    rw [capsOf, List.append_assoc, ih (g + 1) _ k _ (by omega)]
    have hne : (k == g) = false := by simpa using Nat.ne_of_lt hk
    simp [List.lookup, hne]

/-- The text bound to the group of the placeholder number `i` is what the placeholder
shows. -/
theorem capText_capsOf (slots : List Slot) :
    ∀ (g : Nat) (pre : GoString) (tail : Caps) (M : GoString) (i : Nat)
      (hi : i < slots.length), M = pre ++ slotsBody slots →
      capText M (capsOf g pre.length slots ++ tail) (g + i) = (slots[i]).shown := by
  induction slots with
  | nil => intro g pre tail M i hi; simp at hi
  | cons s ss ih =>
    intro g pre tail M i hi hM
    rw [capsOf, List.append_assoc]
    cases i with
    | zero =>
      rw [capText, Nat.add_zero, lookup_capsOf_lt ss (g + 1) _ g _ (by omega)]
      simp only [List.singleton_append, List.lookup, beq_self_eq_true, List.getElem_cons_zero]
      rw [hM, slotsBody]
      simp [slice]
    | succ j =>
      have hM1 : M = (pre ++ s.shown ++ text s.lit) ++ slotsBody ss := by
        rw [hM, slotsBody]
        simp [List.append_assoc]
      have hl : pre.length + s.shown.length + s.lit.length =
          (pre ++ s.shown ++ text s.lit).length := by
        simp [List.length_append, length_text, Nat.add_assoc]
      have := ih (g + 1) (pre ++ s.shown ++ text s.lit) ([(g, pre.length,
        pre.length + s.shown.length)] ++ tail) M j (by simpa using hi) hM1
      rw [hl, show g + (j + 1) = g + 1 + j by omega, this]
      simp

theorem numGroups_chainRe (L : Runes) (slots : List Slot) :
    (catRe (chainRe L slots)).numGroups = slots.length := by
  induction slots generalizing L with
  | nil => simp [chainRe, catRe, Re.numGroups, numGroups_litRe]
  | cons s ss ih =>
    have := ih s.lit
    simp only [chainRe, catRe, Re.numGroups, numGroups_litRe, Slot.capture_numGroups,
      List.length_cons] at this ⊢
    omega

/-- The submatches of the chain against the formatted message: the message, then what each
placeholder shows. -/
theorem submatch_chain (L0 : Runes) (slots : List Slot) (hok : slotsOk slots = true) :
    findStringSubmatch (catRe (Re.bol :: chainRe L0 slots)) (text L0 ++ slotsBody slots) =
      some ((text L0 ++ slotsBody slots) :: slots.map Slot.shown) := by
  have hm : matchAt (catRe (Re.bol :: chainRe L0 slots)) 0 (L0 ++ decode (slotsBody slots)) =
      some (0 + L0.length + (slotsBody slots).length,
        capsOf 1 (0 + L0.length) slots ++ []) := by
    rw [matchAt, run_catRe_cons, run_bol]
    exact chain_run slots L0 _ 0 [] hok
  have hg : (catRe (Re.bol :: chainRe L0 slots)).numGroups = slots.length := by
    have := numGroups_chainRe L0 slots
    simp only [catRe, Re.numGroups] at this ⊢
    omega
  rw [findStringSubmatch, search_bol_zero, decode_append, decode_text, hm, hg]
  simp only [Option.map_some', Nat.zero_add]
  congr 1
  congr 1
  · have : L0.length + (slotsBody slots).length = (text L0 ++ slotsBody slots).length := by
      simp [List.length_append, length_text]
    rw [this]
    simp [slice]
  · apply List.ext_getElem
    · simp
    · intro i h1 h2
      simp only [List.getElem_map, List.getElem_range]
      have hi : i < slots.length := by simpa using h2
      have := capText_capsOf slots 1 (text L0) [] (text L0 ++ slotsBody slots) i hi rfl
      rw [length_text, Nat.add_comm 1 i] at this
      exact this

theorem slotsOk_mem (slots : List Slot) (hok : slotsOk slots = true) :
    ∀ s ∈ slots, ∃ last, s.ok last = true := by
  induction slots with
  | nil => intro s hs; simp at hs
  | cons s0 ss ih =>
    obtain ⟨h0, hss⟩ := slotsOk_cons s0 ss hok
    intro s hs
    rcases List.mem_cons.mp hs with e | hmem
    · exact ⟨_, e ▸ h0⟩
    · exact ih hss s hmem

/-- The conversion loop gives back the values of the placeholders. -/
theorem convertCaptures_slots (lib : GoLib) (slots : List Slot) :
    ∀ (infos : List placeholderInfo) (pre : List GoString) (i : Nat),
      infos.map (fun info => info.verb) = slots.map Slot.verb →
      (∀ s ∈ slots, ∃ last, s.ok last = true) → pre.length = i + 1 →
      convertCaptures lib (pre ++ slots.map Slot.shown) infos i =
        slots.map (Slot.value lib) := by
  induction slots with
  | nil =>
    intro infos pre i hv _ _
    cases infos with
    | nil => rfl
    | cons a b => simp at hv
  | cons s ss ih =>
    intro infos pre i hv hok hpre
    cases infos with
    | nil => simp at hv
    | cons info rest =>
      simp only [List.map_cons, List.cons.injEq] at hv
      obtain ⟨last, hlast⟩ := hok s (by simp)
      have hguard : ¬ (i + 1 ≥ (pre ++ (s.shown :: ss.map Slot.shown)).length) := by
        simp only [List.length_append, List.length_cons, List.length_map]
        omega
      have hget : (pre ++ (s.shown :: ss.map Slot.shown)).getD (i + 1) [] = s.shown := by
        rw [List.getD_eq_getElem?_getD, List.getElem?_append_right (by omega), hpre]
        simp
      have hrec := ih rest (pre ++ [s.shown]) (i + 1) hv.2
        (fun x hx => hok x (by simp [hx])) (by simp [hpre])
      rw [List.append_assoc] at hrec
      rw [List.map_cons, convertCaptures, if_neg hguard, hget, hv.1,
        convertValue_slot lib s last hlast]
      exact congrArg _ hrec

/-! ## Round trip -/

theorem numGroups_pieces_slots (slots : List Slot) :
    ∀ (pre L : Runes),
      (catRe (patternPieces (text (pre ++ (L ++ slotsDirs slots)))
          (slotOffs (pre.length + L.length) slots) pre.length)).numGroups = slots.length := by
  induction slots with
  | nil =>
    intro pre L
    simp only [slotOffs, patternPieces, slotsDirs, List.append_nil, drop_text, quoteMeta_text,
      length_text, List.drop_left]
    rw [numGroups_catRe_optLit]
    rfl
  | cons sl ss ih =>
    intro pre L
    have hsl : slice (text (pre ++ (L ++ slotsDirs (sl :: ss)))) (pre.length + L.length)
        (pre.length + L.length + 2) = text ['%', sl.verb] := by
      rw [slice_text, slotsDirs, slice_template_dir]
    have hlit : slice (text (pre ++ (L ++ slotsDirs (sl :: ss)))) pre.length
        (pre.length + L.length) = text L := by
      rw [slice_text, slice_template_lit]
    have hpre : pre ++ (L ++ slotsDirs (sl :: ss)) =
        (pre ++ L ++ ['%', sl.verb]) ++ (sl.lit ++ slotsDirs ss) := by
      simp [slotsDirs, List.append_assoc]
    have hlen : pre.length + L.length + 2 + sl.lit.length =
        (pre ++ L ++ ['%', sl.verb]).length + sl.lit.length := by
      simp only [List.length_append, List.length_cons, List.length_nil]
    have hlen2 : pre.length + L.length + 2 = (pre ++ L ++ ['%', sl.verb]).length := by
      simp only [List.length_append, List.length_cons, List.length_nil]
    simp only [slotOffs, patternPieces, hsl, hlit, if_neg (text_dir_ne sl), quoteMeta_text,
      Slot.capture_eq]
    rw [numGroups_catRe_optLit]
    simp only [catRe, Re.numGroups, Slot.capture_numGroups, List.length_cons]
    rw [hpre, hlen, hlen2, ih]
    omega

/-- The submatches of the pattern the program builds for the template of the placeholders,
against the formatted message. -/
theorem submatch_slots (L0 : Runes) (slots : List Slot) (hok : slotsOk slots = true) :
    findStringSubmatch
        (buildExtractionPattern (text (slotsTemplate L0 slots)) (slotOffs L0.length slots))
        (text L0 ++ slotsBody slots) =
      some ((text L0 ++ slotsBody slots) :: slots.map Slot.shown) := by
  have hp := run_pieces_slots slots [] L0
  have hn := numGroups_pieces_slots slots [] L0
  have hc := numGroups_chainRe L0 slots
  simp only [List.nil_append, List.length_nil, Nat.zero_add] at hp hn
  rw [← submatch_chain L0 slots hok, slotsTemplate, buildExtractionPattern]
  apply findStringSubmatch_congr
  · simp only [catRe, Re.numGroups] at hn hc ⊢
    omega
  · intro pos s
    rw [matchAt, matchAt, run_catRe_cons, run_catRe_cons]
    congr 1
    funext p1 s1 c1
    exact hp _ _ _ _ _

/-- C3, amended: round trip for a template of well-formed UTF-8 that consists of literal
texts without `%` and any number of placeholders `%s`, `%d`, `%t`, `%x`, `%X`.  The values
are strings without newline and without white space at either end, integers in the range of
`int`, booleans, and natural numbers below `2^63`.  Where another placeholder follows a
`%s`, the literal text in between starts with a character that does not occur in the
string; after a `%d` it starts with white space; after a `%x` or `%X` it starts with a
character that is neither a digit of base 16 nor `x` or `X`.  Formatting the template with
the values gives the literal texts around the shown values, and extracting from that message
with the same template succeeds and returns exactly the values, in order. -/
theorem round_trip_placeholders (lib : GoLib) (L0 : Runes) (slots : List Slot)
    (h0 : '%' ∉ L0) (hok : slotsOk slots = true) :
    sprintf lib (text (slotsTemplate L0 slots)) (slots.map (Slot.value lib)) =
        text L0 ++ slotsBody slots ∧
      extractValues lib (text (slotsTemplate L0 slots))
          (sprintf lib (text (slotsTemplate L0 slots)) (slots.map (Slot.value lib))) =
        (slots.map (Slot.value lib), none) := by
  have hs := sprintf_slots lib L0 slots h0 hok
  refine ⟨hs, ?_⟩
  rw [hs]
  have hscan := findAllStringIndex_slots L0 slots h0 hok
  cases slots with
  | nil =>
    simp only [slotsTemplate, slotsDirs, slotOffs, List.append_nil] at hscan
    simp [extractValues, decode_text, hscan, slotsTemplate, slotsDirs, slotsBody]
  | cons s ss =>
    have hverbs := parsePlaceholders_slots (s :: ss) [] L0
    simp only [List.nil_append, List.length_nil, Nat.zero_add] at hverbs
    have hconv := convertCaptures_slots lib (s :: ss)
      (parsePlaceholders (text (slotsTemplate L0 (s :: ss))) (slotOffs L0.length (s :: ss)))
      [text L0 ++ slotsBody (s :: ss)] 0 hverbs (slotsOk_mem _ hok) rfl
    rw [extractValues]
    simp only [decode_text, hscan, regexpCompile_text, submatch_slots L0 (s :: ss) hok]
    rw [if_neg (by simp [slotOffs])]
    exact congrArg (fun x => (x, none)) hconv

set_option maxRecDepth 100000 in
/-- C3 as stated fails.  The strings `"Hello"` and `"World"` are rendered by the template
`"%s%s"` as `"HelloWorld"`, from which extraction with the same template returns the empty
string and `"HelloWorld"`.  The other restrictions of the amended statement are needed as
well: a string that contains the separator (`"%s %s"` with `"a b"` and `"c"`), an integer
followed by a separator that is not white space (`"%d-%d"` with `1` and `-2`), a number in
base 16 followed by a digit of base 16 (`"%xa%s"` with `1` and `"a"`), a string with white
space at an end, a string with a newline, a negative number under `%x`, the verb `%o`, and a
template with an ill-formed byte all come back changed or not at all. -/
theorem round_trip_counterexample :
    (sprintf sampleLib (text "%s%s".toList)
          [Value.str (text "Hello".toList), Value.str (text "World".toList)] =
        text "HelloWorld".toList ∧
      extractValues sampleLib (text "%s%s".toList) (text "HelloWorld".toList) =
        ([Value.str [], Value.str (text "HelloWorld".toList)], none) ∧
      ([Value.str [], Value.str (text "HelloWorld".toList)] : List sampleLib.Val) ≠
        [Value.str (text "Hello".toList), Value.str (text "World".toList)]) ∧
    (sprintf sampleLib (text "%s %s".toList)
          [Value.str (text "a b".toList), Value.str (text "c".toList)] =
        text "a b c".toList ∧
      extractValues sampleLib (text "%s %s".toList) (text "a b c".toList) =
        ([Value.str (text "a".toList), Value.str (text "b c".toList)], none)) ∧
    (sprintf sampleLib (text "%d-%d".toList) [Value.int 1, Value.int (-2)] =
        text "1--2".toList ∧
      extractValues sampleLib (text "%d-%d".toList) (text "1--2".toList) =
        ([Value.str (text "1-".toList), Value.int 2], none)) ∧
    (sprintf sampleLib (text "%xa%s".toList) [Value.int 1, Value.str (text "a".toList)] =
        text "1aa".toList ∧
      extractValues sampleLib (text "%xa%s".toList) (text "1aa".toList) =
        ([Value.int 26, Value.str []], none)) ∧
    (sprintf sampleLib (text "%s".toList) [Value.str (text " a".toList)] =
        text " a".toList ∧
      extractValues sampleLib (text "%s".toList) (text " a".toList) =
        ([Value.str (text "a".toList)], none)) ∧
    (sprintf sampleLib (text "%s".toList) [Value.str (text "a\nb".toList)] =
        text "a\nb".toList ∧
      extractValues sampleLib (text "%s".toList) (text "a\nb".toList) =
        ([], some "message does not match template")) ∧
    (sprintf sampleLib (text "%x".toList) [Value.int (-1)] = text "-1".toList ∧
      extractValues sampleLib (text "%x".toList) (text "-1".toList) =
        ([], some "message does not match template")) ∧
    (sprintf sampleLib (text "%o".toList) [Value.int 8] = text "10".toList ∧
      extractValues sampleLib (text "%o".toList) (text "10".toList) =
        ([Value.int 10], none)) ∧
    (sprintf sampleLib ([Glyph.byte 255] ++ text "%s".toList)
          [Value.str (text "a".toList)] = [Glyph.byte 255] ++ text "a".toList ∧
      extractValues sampleLib ([Glyph.byte 255] ++ text "%s".toList)
          ([Glyph.byte 255] ++ text "a".toList) = ([], compileFailure)) := by
  refine ⟨⟨by decide, by decide, by decide⟩, ⟨by decide, by decide⟩, ⟨by decide, by decide⟩,
    ⟨by decide, by decide⟩, ⟨by decide, by decide⟩, ⟨by decide, by decide⟩,
    ⟨by decide, by decide⟩, ⟨by decide, by decide⟩, ⟨by decide, by decide⟩⟩

set_option maxRecDepth 100000 in
/-- C3, amended, at the template `"User %s has %d items, ok=%t%X end: %x."` with the values
`"Ann"`, `-42`, `true`, `255` and `3054`: the message is
`"User Ann has -42 items, ok=trueFF end: bee."`, and the five values come back. -/
theorem round_trip_placeholders_witness :
    ('%' ∉ "User ".toList ∧
        slotsOk [Slot.str (text "Ann".toList) " has ".toList,
          Slot.int (-42) " items, ok=".toList, Slot.bool true [],
          Slot.hex true 255 " end: ".toList, Slot.hex false 3054 ".".toList] = true) ∧
      (text (slotsTemplate "User ".toList
          [Slot.str (text "Ann".toList) " has ".toList,
            Slot.int (-42) " items, ok=".toList, Slot.bool true [],
            Slot.hex true 255 " end: ".toList, Slot.hex false 3054 ".".toList]) =
          text "User %s has %d items, ok=%t%X end: %x.".toList ∧
        text "User ".toList ++ slotsBody
          [Slot.str (text "Ann".toList) " has ".toList,
            Slot.int (-42) " items, ok=".toList, Slot.bool true [],
            Slot.hex true 255 " end: ".toList, Slot.hex false 3054 ".".toList] =
          text "User Ann has -42 items, ok=trueFF end: bee.".toList ∧
        [Slot.str (text "Ann".toList) " has ".toList,
            Slot.int (-42) " items, ok=".toList, Slot.bool true [],
            Slot.hex true 255 " end: ".toList,
            Slot.hex false 3054 ".".toList].map (Slot.value sampleLib) =
          [Value.str (text "Ann".toList), Value.int (-42), Value.bool true, Value.int 255,
            Value.int 3054]) ∧
      (sprintf sampleLib
            (text (slotsTemplate "User ".toList
              [Slot.str (text "Ann".toList) " has ".toList,
                Slot.int (-42) " items, ok=".toList, Slot.bool true [],
                Slot.hex true 255 " end: ".toList, Slot.hex false 3054 ".".toList]))
            ([Slot.str (text "Ann".toList) " has ".toList,
              Slot.int (-42) " items, ok=".toList, Slot.bool true [],
              Slot.hex true 255 " end: ".toList,
              Slot.hex false 3054 ".".toList].map (Slot.value sampleLib)) =
          text "User ".toList ++ slotsBody
            [Slot.str (text "Ann".toList) " has ".toList,
              Slot.int (-42) " items, ok=".toList, Slot.bool true [],
              Slot.hex true 255 " end: ".toList, Slot.hex false 3054 ".".toList] ∧
        extractValues sampleLib
            (text (slotsTemplate "User ".toList
              [Slot.str (text "Ann".toList) " has ".toList,
                Slot.int (-42) " items, ok=".toList, Slot.bool true [],
                Slot.hex true 255 " end: ".toList, Slot.hex false 3054 ".".toList]))
            (sprintf sampleLib
              (text (slotsTemplate "User ".toList
                [Slot.str (text "Ann".toList) " has ".toList,
                  Slot.int (-42) " items, ok=".toList, Slot.bool true [],
                  Slot.hex true 255 " end: ".toList, Slot.hex false 3054 ".".toList]))
              ([Slot.str (text "Ann".toList) " has ".toList,
                Slot.int (-42) " items, ok=".toList, Slot.bool true [],
                Slot.hex true 255 " end: ".toList,
                Slot.hex false 3054 ".".toList].map (Slot.value sampleLib))) =
          ([Slot.str (text "Ann".toList) " has ".toList,
              Slot.int (-42) " items, ok=".toList, Slot.bool true [],
              Slot.hex true 255 " end: ".toList,
              Slot.hex false 3054 ".".toList].map (Slot.value sampleLib), none)) :=
  ⟨⟨by decide, by decide⟩, ⟨by decide, by decide, by rfl⟩,
    round_trip_placeholders sampleLib "User ".toList
      [Slot.str (text "Ann".toList) " has ".toList,
        Slot.int (-42) " items, ok=".toList, Slot.bool true [],
        Slot.hex true 255 " end: ".toList, Slot.hex false 3054 ".".toList]
      (by decide) (by decide)⟩

end GoSreprintf
